import Mathlib

/-!
# Verification of the jotdown inline parser (`src/inline.rs`)

This file gives a shallow embedding of the inline parser of the jotdown
repository and proves/refutes the frozen specification claims about it.

The parser itself (`src/inline.rs`) is transcribed function by function.
The collaborators it uses — the lexer (`lex.rs`), the span utility
(`span.rs`) and the attribute validator (`attr.rs`) — are not part of the
given sources; they are modelled from the specification (sections 4.1, the
Span entry of section 3, and 4.2 respectively), with semantics pinned down
by how `inline.rs` and its unit tests use them.

Machine integers (`usize`) are modelled as `Nat`; byte positions are
computed with `Char.utf8Size`. The event buffer (`VecDeque<Event>`) is a
`List Event` whose front is the list head.
-/

set_option maxRecDepth 10000

namespace Jotdown

/-! ## Tokens (modelled from the spec, section 4.1) -/

/-- Run-forming characters: backtick, dollar, period, hyphen. -/
inductive Sequence
  | Backtick | Dollar | Period | Hyphen
deriving DecidableEq, Repr

/-- Single significant characters. -/
inductive Symbol
  | Asterisk | Underscore | Caret | Tilde | Quote1 | Quote2 | Lt | ExclaimBracket
deriving DecidableEq, Repr

/-- Bracket/brace-prefixed delimiter forms. -/
inductive Delimiter
  | Brace | BraceAsterisk | BraceCaret | BraceEqual | BraceHyphen
  | BracePlus | BraceTilde | BraceUnderscore | Bracket
deriving DecidableEq, Repr

/-- Token kinds produced by the lexer. -/
inductive Kind
  | Newline | Hardbreak | Escape | Nbsp | Whitespace
  | Seq (s : Sequence)
  | Sym (s : Symbol)
  | Open (d : Delimiter)
  | Close (d : Delimiter)
  | Text
deriving DecidableEq, Repr

/-- A token: kind plus byte length. -/
structure Token where
  kind : Kind
  len : Nat
deriving DecidableEq, Repr

/-! ## Span utility (modelled from the spec: half-open byte range with
extend/translate/union/slice; usage in `inline.rs` fixes each operation) -/

/-- Half-open byte range `[start, stop)` into the source. -/
structure Span where
  start : Nat
  stop : Nat
deriving DecidableEq, Repr

namespace Span

def mk' (a b : Nat) : Span := ⟨a, b⟩

/-- `Span::empty_at(pos)`. -/
def emptyAt (pos : Nat) : Span := ⟨pos, pos⟩

/-- `Span::by_len(start, len)`. -/
def byLen (a len : Nat) : Span := ⟨a, a + len⟩

/-- `span.extend(len)`: grow the right end. -/
def extend (s : Span) (len : Nat) : Span := ⟨s.start, s.stop + len⟩

/-- `span.translate(n)`: shift both ends right. -/
def translate (s : Span) (n : Nat) : Span := ⟨s.start + n, s.stop + n⟩

/-- `span.union(other)`. -/
def union (s t : Span) : Span := ⟨min s.start t.start, max s.stop t.stop⟩

/-- `span.with_start(pos)`. -/
def withStart (s : Span) (pos : Nat) : Span := ⟨pos, s.stop⟩

/-- `span.with_end(pos)`. -/
def withEnd (s : Span) (pos : Nat) : Span := ⟨s.start, pos⟩

end Span

/-- Total UTF-8 byte length of a character list. -/
def byteLen (cs : List Char) : Nat := (cs.map Char.utf8Size).sum

/-- `span.of(src)`: slice the source by a byte range. Returns `none` when an
endpoint is not a character boundary (Rust `&str` slicing panics there). -/
def byteSlice (cs : List Char) (a b : Nat) : Option (List Char) :=
  match cs with
  | [] => if a = 0 ∧ b = 0 then some [] else none
  | c :: rest =>
    if a = 0 then
      if b = 0 then some []
      else if c.utf8Size ≤ b then
        (byteSlice rest 0 (b - c.utf8Size)).map (c :: ·)
      else none
    else if c.utf8Size ≤ a then
      byteSlice rest (a - c.utf8Size) (b - c.utf8Size)
    else none

/-! ## Lexer (modelled from the spec, section 4.1)

Token recognition rules as written there: runs for `` ` `` `$` `.` `-`;
escapes; whitespace runs; brace-prefixed delimiters and their mirrors;
brackets; `![`; single significant symbols; catch-all text. The mirror
forms `*}` `_}` `^}` `~}` `=}` `-}` `+}` take precedence over the plain
reading of their first character, matching the unit tests of `inline.rs`
(`container_basic`, `container_unopened`, `raw_attr`). -/

/-- The backtick character (U+0060). -/
def btChar : Char := Char.ofNat 96

/-- The non-breaking-space character (U+00A0), two bytes in UTF-8. -/
def nbspChar : Char := Char.ofNat 160

/-- Take the leading run of a given character: count and rest. -/
def takeRun (c : Char) : List Char → Nat × List Char
  | [] => (0, [])
  | d :: rest =>
    if d = c then
      let (n, r) := takeRun c rest
      (n + 1, r)
    else (0, d :: rest)

/-- Take a leading run of blanks (space or tab): count and rest. -/
def takeBlanks : List Char → Nat × List Char
  | [] => (0, [])
  | d :: rest =>
    if d = ' ' ∨ d = '\t' then
      let (n, r) := takeBlanks rest
      (n + 1, r)
    else (0, d :: rest)

/-- ASCII punctuation, for the escape rule. -/
def isPunct (c : Char) : Bool :=
  0x21 ≤ c.toNat ∧ c.toNat ≤ 0x7e ∧ ¬c.isAlphanum

/-- The brace-delimiter significant characters: `{X` opens and `X}`
closes the corresponding container delimiter. -/
def braceTag? (d : Char) : Option Delimiter :=
  if d = '*' then some .BraceAsterisk
  else if d = '_' then some .BraceUnderscore
  else if d = '^' then some .BraceCaret
  else if d = '~' then some .BraceTilde
  else if d = '=' then some .BraceEqual
  else if d = '-' then some .BraceHyphen
  else if d = '+' then some .BracePlus
  else none

/-- Single significant symbol characters. -/
def symTag? (c : Char) : Option Symbol :=
  if c = '*' then some .Asterisk
  else if c = '_' then some .Underscore
  else if c = '^' then some .Caret
  else if c = '~' then some .Tilde
  else if c = '\'' then some .Quote1
  else if c = '"' then some .Quote2
  else if c = '<' then some .Lt
  else none

/-- One token from the character stream, with the rest of the stream. -/
def lexNext : List Char → Option (Token × List Char)
  | [] => none
  | c :: rest =>
    if c = btChar then
      let (n, r) := takeRun btChar rest
      some (⟨.Seq .Backtick, n + 1⟩, r)
    else if c = '$' then
      let (n, r) := takeRun '$' rest
      some (⟨.Seq .Dollar, n + 1⟩, r)
    else if c = '.' then
      let (n, r) := takeRun '.' rest
      some (⟨.Seq .Period, n + 1⟩, r)
    else if c = '-' then
      if rest.head? = some '}' then some (⟨.Close .BraceHyphen, 2⟩, rest.tail)
      else
        let (n, r) := takeRun '-' rest
        some (⟨.Seq .Hyphen, n + 1⟩, r)
    else if c = '\n' then some (⟨.Newline, 1⟩, rest)
    else if c = ' ' ∨ c = '\t' then
      let (n, r) := takeBlanks rest
      some (⟨.Whitespace, n + 1⟩, r)
    else if c = nbspChar then some (⟨.Nbsp, 2⟩, rest)
    else if c = '\\' then
      match rest.head? with
      | some d =>
        if d = ' ' then
          if rest.tail.head? = some '\n' then some (⟨.Hardbreak, 3⟩, rest.tail.tail)
          else some (⟨.Text, 1⟩, rest)
        else if isPunct d ∨ d = '\n' then some (⟨.Escape, 1 + d.utf8Size⟩, rest.tail)
        else some (⟨.Text, 1⟩, rest)
      | none => some (⟨.Text, 1⟩, rest)
    else if c = '{' then
      match rest.head? with
      | some d =>
        match braceTag? d with
        | some del => some (⟨.Open del, 2⟩, rest.tail)
        | none => some (⟨.Open .Brace, 1⟩, rest)
      | none => some (⟨.Open .Brace, 1⟩, rest)
    else if c = '}' then some (⟨.Close .Brace, 1⟩, rest)
    else if c = '[' then some (⟨.Open .Bracket, 1⟩, rest)
    else if c = ']' then some (⟨.Close .Bracket, 1⟩, rest)
    else if c = '!' then
      if rest.head? = some '[' then some (⟨.Sym .ExclaimBracket, 2⟩, rest.tail)
      else some (⟨.Text, 1⟩, rest)
    else
      match braceTag? c with
      | some del =>
        if rest.head? = some '}' then some (⟨.Close del, 2⟩, rest.tail)
        else
          match symTag? c with
          | some sy => some (⟨.Sym sy, 1⟩, rest)
          | none => some (⟨.Text, c.utf8Size⟩, rest)
      | none =>
        match symTag? c with
        | some sy => some (⟨.Sym sy, 1⟩, rest)
        | none => some (⟨.Text, c.utf8Size⟩, rest)

/-! ## Attribute validator (modelled from the spec, section 4.2)

`attr::valid` scans one `{...}` block and returns the consumed byte count
and whether a syntactic attribute (class, id, or key=value) was seen;
malformed input returns zero. Comments are `% ... %`; attribute names are
ASCII alphanumerics plus `-` and `_` (so bytes = characters for everything
the validator consumes apart from comment/whitespace content, which we also
keep ASCII-sized). The returned character list is the rest of the stream
after the consumed block (meaningful only when the count is positive). -/

/-- Leading attribute-name characters: count and rest. -/
def takeName : List Char → Nat × List Char
  | [] => (0, [])
  | d :: rest =>
    if d.isAlphanum ∨ d = '-' ∨ d = '_' then
      let (n, r) := takeName rest
      (n + 1, r)
    else (0, d :: rest)

/-- Scan a `% ... %` comment body after the opening `%`: bytes consumed
including the closing `%`, or `none` when no closing `%` exists. -/
def skipComment : List Char → Option (Nat × List Char)
  | [] => none
  | c :: rest =>
    if c = '%' then some (1, rest)
    else (skipComment rest).map (fun (n, r) => (n + 1, r))

/-- Scan the inside of an attribute block (after `{`), with `n` bytes
already consumed and `ne` recording whether an attribute was seen. The
validator consumes its iterator as it scans, so on failure the second
component is the stream left unread at the failure point (a comment with
no closing `%` drains the stream entirely). -/
def attrInside (fuel : Nat) (cs : List Char) (n : Nat) (ne : Bool) :
    Option (Nat × Bool) × List Char :=
  match fuel with
  | 0 => (none, cs)
  | fuel + 1 =>
    match cs with
    | [] => (none, [])
    | c :: rest =>
      if c = '}' then (some (n + 1, ne), rest)
      else if c = ' ' ∨ c = '\t' ∨ c = '\n' then attrInside fuel rest (n + 1) ne
      else if c = '%' then
        match skipComment rest with
        | some (k, r) => attrInside fuel r (n + 1 + k) ne
        | none => (none, [])
      else if c = '.' ∨ c = '#' then
        let (k, r) := takeName rest
        if k = 0 then (none, r) else attrInside fuel r (n + 1 + k) true
      else
        let (k, r) := takeName (c :: rest)
        if k = 0 then (none, r)
        else if r.head? = some '=' then
          let (v, r3) := takeName r.tail
          attrInside fuel r3 (n + k + 1 + v) true
        else (none, r)

/-- `attr::valid`: consumed bytes (0 when the block is rejected), non-empty
flag, rest of the stream at the point the scan stopped. -/
def attrValid (cs : List Char) : Nat × Bool × List Char :=
  if cs.head? = some '{' then
    match attrInside (cs.tail.length + 1) cs.tail 1 false with
    | (some (n, ne), r) => (n, ne, r)
    | (none, r) => (0, false, r)
  else (0, false, cs)

end Jotdown

namespace Jotdown

/-! ## Events and containers (`src/inline.rs`, lines 11–68) -/

/-- Atomic inline elements (`inline.rs` `Atom`). -/
inductive Atom
  | Softbreak | Hardbreak | Escape | Nbsp | Ellipsis | EnDash | EmDash
deriving DecidableEq, Repr

/-- Inline container kinds (`inline.rs` `Container`). -/
inductive Container
  | Span | Subscript | Superscript | Insert | Delete | Emphasis | Strong | Mark
  | SingleQuoted | DoubleQuoted
  | Verbatim | RawFormat | InlineMath | DisplayMath
  | ReferenceLink | ReferenceImage | InlineLink | InlineImage
  | Autolink
deriving DecidableEq, Repr

/-- Event kinds (`inline.rs` `EventKind`). -/
inductive EventKind
  | Enter (c : Container)
  | Exit (c : Container)
  | Atom (a : Atom)
  | Str
  | Whitespace
  | Attributes
  | Placeholder
deriving DecidableEq, Repr

/-- An event: kind plus span (`inline.rs` `Event`). -/
structure Event where
  kind : EventKind
  span : Span
deriving DecidableEq, Repr

/-! ## Delimiter classification (`src/inline.rs`, lines 474–559) -/

inductive Directionality
  | Uni | Bi
deriving DecidableEq, Repr

inductive SpanType
  | Image | General
deriving DecidableEq, Repr

/-- Opener/closer candidate classification (`inline.rs` `Delim`). -/
inductive Delim
  | Span (t : SpanType)
  | Strong (d : Directionality)
  | Emphasis (d : Directionality)
  | Superscript (d : Directionality)
  | Subscript (d : Directionality)
  | SingleQuoted | DoubleQuoted | Mark | Delete | Insert
deriving DecidableEq, Repr

inductive Dir
  | Open | Close | Both
deriving DecidableEq, Repr

/-- `Delim::from_token` (`inline.rs`, lines 507–539). -/
def Delim.fromToken : Kind → Option (Delim × Dir)
  | .Sym .Asterisk => some (.Strong .Bi, .Both)
  | .Sym .Underscore => some (.Emphasis .Bi, .Both)
  | .Sym .Caret => some (.Superscript .Bi, .Both)
  | .Sym .Tilde => some (.Subscript .Bi, .Both)
  | .Sym .Quote1 => some (.SingleQuoted, .Both)
  | .Sym .Quote2 => some (.DoubleQuoted, .Both)
  | .Sym .ExclaimBracket => some (.Span .Image, .Open)
  | .Open .Bracket => some (.Span .General, .Open)
  | .Close .Bracket => some (.Span .General, .Close)
  | .Open .BraceAsterisk => some (.Strong .Uni, .Open)
  | .Close .BraceAsterisk => some (.Strong .Uni, .Close)
  | .Open .BraceUnderscore => some (.Emphasis .Uni, .Open)
  | .Close .BraceUnderscore => some (.Emphasis .Uni, .Close)
  | .Open .BraceCaret => some (.Superscript .Uni, .Open)
  | .Close .BraceCaret => some (.Superscript .Uni, .Close)
  | .Open .BraceTilde => some (.Subscript .Uni, .Open)
  | .Close .BraceTilde => some (.Subscript .Uni, .Close)
  | .Open .BraceEqual => some (.Mark, .Open)
  | .Close .BraceEqual => some (.Mark, .Close)
  | .Open .BraceHyphen => some (.Delete, .Open)
  | .Close .BraceHyphen => some (.Delete, .Close)
  | .Open .BracePlus => some (.Insert, .Open)
  | .Close .BracePlus => some (.Insert, .Close)
  | _ => none

/-- `TryFrom<Delim> for Container` (`inline.rs`, lines 542–559): `inl` is
the error case carrying the span type. -/
def tryFromDelim : Delim → SpanType ⊕ Container
  | .Span ty => .inl ty
  | .Strong _ => .inr .Strong
  | .Emphasis _ => .inr .Emphasis
  | .Superscript _ => .inr .Superscript
  | .Subscript _ => .inr .Subscript
  | .SingleQuoted => .inr .SingleQuoted
  | .DoubleQuoted => .inr .DoubleQuoted
  | .Mark => .inr .Mark
  | .Delete => .inr .Delete
  | .Insert => .inr .Insert

/-! ## Parser state (`src/inline.rs`, lines 70–90)

The lexer field holds the remaining characters; `ok` is a ghost flag that
records whether every `assert_eq!` in the merge loop of `next()` held (the
Rust code panics where the model records `ok = false`). -/

structure Parser where
  lexer : List Char
  span : Span
  openers : List (Delim × Nat)
  events : List Event
  ok : Bool
deriving DecidableEq, Repr

/-- `Parser::new` bound to an input. -/
def initP (cs : List Char) : Parser := ⟨cs, ⟨0, 0⟩, [], [], true⟩

/-- Event at an index of the buffer (total; out of range yields a dummy,
which the invariants rule out at every use site). -/
def evAt (es : List Event) (i : Nat) : Event :=
  (es.drop i).headD ⟨.Str, ⟨0, 0⟩⟩

/-- Rewrite only the kind of the event at an index (`events[i].kind = k`). -/
def setKind (es : List Event) (i : Nat) (k : EventKind) : List Event :=
  match es.get? i with
  | some e => es.set i ⟨k, e.span⟩
  | none => es

/-- Replace the whole event at an index (`events[i] = e`). -/
def setEvent (es : List Event) (i : Nat) (e : Event) : List Event :=
  es.set i e

/-- Index of the last element satisfying a predicate (`rposition`). -/
def rpos? (p : α → Bool) (l : List α) : Option Nat :=
  match l with
  | [] => none
  | x :: xs =>
    match rpos? p xs with
    | some i => some (i + 1)
    | none => if p x then some 0 else none

namespace Parser

/-- `Parser::eat`: next token, extending the current span by its length. -/
def eat (p : Parser) : Option (Token × Parser) :=
  match lexNext p.lexer with
  | none => none
  | some (t, rest) => some (t, { p with lexer := rest, span := p.span.extend t.len })

/-- `Parser::reset_span`. -/
def resetSpan (p : Parser) : Parser :=
  { p with span := Span.emptyAt p.span.stop }

end Parser

/-! ## Speculative scans (transcribed from the `take_while` closures) -/

/-- Rust `char::is_whitespace`: the Unicode `White_Space` property (which
both scan closures of `inline.rs` test), wider than ASCII whitespace. -/
def rustIsWhitespace (c : Char) : Bool :=
  c.toNat = 0x09 || c.toNat = 0x0A || c.toNat = 0x0B || c.toNat = 0x0C ||
  c.toNat = 0x0D || c.toNat = 0x20 || c.toNat = 0x85 || c.toNat = 0xA0 ||
  c.toNat = 0x1680 || (0x2000 ≤ c.toNat && c.toNat ≤ 0x200A) ||
  c.toNat = 0x2028 || c.toNat = 0x2029 || c.toNat = 0x202F ||
  c.toNat = 0x205F || c.toNat = 0x3000

/-- The raw-format tag scan (`parse_verbatim`, lines 180–192): characters
up to a `}`, failing on `{`, Unicode whitespace, or end of input. Returns
the count of characters before the `}` and the rest after it. -/
def rawScan : List Char → Option (Nat × List Char)
  | [] => none
  | c :: rest =>
    if c = '{' then none
    else if c = '}' then some (0, rest)
    else if rustIsWhitespace c then none
    else (rawScan rest).map (fun (n, r) => (n + 1, r))

/-- The autolink scan (`parse_autolink`, lines 299–312): characters up to
`>`, failing on Unicode whitespace or end of input; tracks whether a `:`
or `@` was seen. Returns (count, is_url, rest after the `>`). -/
def autoScan : List Char → Option (Nat × Bool × List Char)
  | [] => none
  | c :: rest =>
    if c = '>' then some (0, false, rest)
    else if rustIsWhitespace c then none
    else
      (autoScan rest).map
        (fun (n, u, r) => (n + 1, u ∨ c = ':' ∨ c = '@', r))

/-- The link/image interior scan (`post_span`, lines 424–435): characters
up to the closer, failing on a reappearance of the opener character or end
of input. Returns the count and the rest after the closer. -/
def spanScan (opener closer : Char) : List Char → Option (Nat × List Char)
  | [] => none
  | c :: rest =>
    if c = opener then none
    else if c = closer then some (0, rest)
    else (spanScan opener closer rest).map (fun (n, r) => (n + 1, r))

end Jotdown

namespace Jotdown

/-! ## Verbatim and math (`Parser::parse_verbatim`, lines 127–232) -/

/-- Result of the verbatim consumption loop: possibly promoted kind, inner
span accumulator, first/last non-whitespace token trackers, the raw-format
outer span when promoted, and the parser state. -/
structure VerbOut where
  kind : Container
  spanInner : Span
  nwF : Option (Kind × Nat)
  nwL : Option (Kind × Nat)
  spanOuter : Option Span
  p : Parser
deriving Repr

/-- The `while let Some(t) = self.eat()` loop of `parse_verbatim`
(lines 171–213), including the raw-format promotion branch. -/
def verbLoop (fuel : Nat) (openerLen openerEvent : Nat) (kind : Container)
    (spanInner : Span) (nwF nwL : Option (Kind × Nat)) (p : Parser) : VerbOut :=
  match fuel with
  | 0 => ⟨kind, spanInner, nwF, nwL, none, p⟩
  | fuel + 1 =>
    match p.eat with
    | none => ⟨kind, spanInner, nwF, nwL, none, p⟩
    | some (t, p1) =>
      if t.kind = .Seq .Backtick ∧ t.len = openerLen then
        if kind = .Verbatim then
          match lexNext p1.lexer with
          | some (tok, afterTok) =>
            if tok.kind = .Open .BraceEqual then
              match rawScan afterTok with
              | some (len, rest') =>
                if 0 < len then
                  let spanFormat := Span.byLen (p1.span.stop + 2) len
                  ⟨.RawFormat, spanInner, nwF, nwL, some spanFormat,
                    { p1 with
                      lexer := rest'
                      events := setEvent p1.events openerEvent
                        ⟨.Enter .RawFormat, spanFormat⟩
                      span := spanFormat.translate 1 }⟩
                else ⟨kind, spanInner, nwF, nwL, none, p1⟩
              | none => ⟨kind, spanInner, nwF, nwL, none, p1⟩
            else ⟨kind, spanInner, nwF, nwL, none, p1⟩
          | none => ⟨kind, spanInner, nwF, nwL, none, p1⟩
        else ⟨kind, spanInner, nwF, nwL, none, p1⟩
      else
        let nwF' := if t.kind ≠ .Whitespace ∧ nwF = none
          then some (t.kind, spanInner.stop) else nwF
        let nwL' := if t.kind ≠ .Whitespace
          then some (t.kind, spanInner.stop + t.len) else nwL
        verbLoop fuel openerLen openerEvent kind (spanInner.extend t.len)
          nwF' nwL' p1.resetSpan

/-- The opener match of `parse_verbatim` (lines 128–157): dollar runs of
length at most two followed by backticks open math, backtick runs open
verbatim; the backticks of a math form are eaten. -/
def verbatimOpen? (p : Parser) (first : Token) :
    Option (Container × Nat × Parser) :=
  match first.kind with
  | .Seq .Dollar =>
    if first.len ≤ 2 then
      match lexNext p.lexer with
      | some (t, rest) =>
        match t.kind with
        | .Seq .Backtick =>
          some ((if first.len = 2 then .DisplayMath else .InlineMath), t.len,
            { p with lexer := rest, span := p.span.extend t.len })
        | _ => none
      | none => none
    else none
  | .Seq .Backtick => some (.Verbatim, first.len, p)
  | _ => none

/-- The whitespace trimming of the inner span (lines 215–220): when the
first/last non-whitespace token of the run is itself a backtick sequence,
the surrounding whitespace is stripped. -/
def trimInner (nwF nwL : Option (Kind × Nat)) (spanInner : Span) : Span :=
  let si1 := match nwF with
    | some (.Seq .Backtick, pos) => spanInner.withStart pos
    | _ => spanInner
  match nwL with
  | some (.Seq .Backtick, pos) => si1.withEnd pos
  | _ => si1

/-- `Parser::parse_verbatim`. -/
def parseVerbatim (p : Parser) (first : Token) : Option (Event × Parser) :=
  match verbatimOpen? p first with
  | none => none
  | some (kind, openerLen, p1) =>
    let openerEvent := p1.events.length
    let p2 := { p1 with events := p1.events ++ [⟨.Enter kind, p1.span⟩] }
    let out := verbLoop (p2.lexer.length + 1) openerLen openerEvent kind
      (Span.emptyAt p2.span.stop) none none p2
    let si2 := trimInner out.nwF out.nwL out.spanInner
    let p4 := { out.p with events := out.p.events ++ [⟨.Str, si2⟩] }
    some (⟨.Exit out.kind, out.spanOuter.getD p4.span⟩, p4)

/-! ## Attributes (`Parser::parse_attributes`, lines 234–295) -/

/-- `self.events.back().map_or(false, |e| e.kind == EventKind::Str)`. -/
def lastIsStr (es : List Event) : Bool :=
  match es.getLast? with
  | some e => match e.kind with | .Str => true | _ => false
  | none => false

/-- The `while attr_len > 0` loop shared by `parse_attributes` and the
trailing-attribute check of `parse_container`: per iteration, extend the
current span by the pending block length, commit the lexer to the clone of
the tail, then validate the next block. -/
def attrsLoop (fuel : Nat) (p : Parser) (ahead : List Char) (attrLen : Nat)
    (hasAttr : Bool) : Parser × Bool :=
  match fuel with
  | 0 => (p, hasAttr)
  | fuel + 1 =>
    if attrLen = 0 then (p, hasAttr)
    else
      let p1 := { p with span := p.span.extend attrLen, lexer := ahead }
      let v := attrValid ahead
      attrsLoop fuel p1 v.2.2 v.1 (hasAttr || v.2.1)

/-- `Parser::parse_attributes`. The `attr_len -= 1` of line 243 is a
`usize` subtraction: `attr::valid` returns 0 on a rejected block, and then
the subtraction underflows — debug builds panic (recorded in the ghost
`ok` flag, exactly like the merge-loop assertion), release builds wrap to
`usize::MAX` and fall into the block loop with the wrapped length. -/
def parseAttributes (p : Parser) (first : Token) : Option (Event × Parser) :=
  if first.kind = .Open .Brace ∧ lastIsStr p.events then
    let v := attrValid ('{' :: p.lexer)
    let attrLen := if v.1 = 0 then 2 ^ 64 - 1 else v.1 - 1
    let p0 := { p with ok := p.ok && decide (0 < v.1) }
    if 0 < attrLen then
      let (p1, hasAttr) := attrsLoop (p.lexer.length + 1) p0 v.2.2 attrLen v.2.1
      if hasAttr then
        let i := match rpos? (fun e => decide (e.kind ≠ .Str)) p1.events with
          | some j => j + 1
          | none => 0
        let spanStr := Span.mk' (evAt p1.events i).span.start
          (evAt p1.events (p1.events.length - 1)).span.stop
        let p2 := { p1 with events := p1.events.take i ++
          [⟨.Attributes, p1.span⟩, ⟨.Enter .Span, Span.emptyAt spanStr.start⟩,
           ⟨.Str, spanStr⟩] }
        some (⟨.Exit .Span, Span.emptyAt spanStr.stop⟩, p2)
      else
        some (⟨.Placeholder, Span.emptyAt p1.span.start⟩, p1)
    else none
  else none

/-! ## Autolink (`Parser::parse_autolink`, lines 297–333) -/

/-- `Parser::parse_autolink`. -/
def parseAutolink (p : Parser) (first : Token) : Option (Event × Parser) :=
  if first.kind = .Sym .Lt then
    match autoScan p.lexer with
    | some (len, true, rest) =>
      let strSpan := Span.byLen p.span.stop len
      let exitSpan := Span.byLen strSpan.stop 1
      some (⟨.Exit .Autolink, exitSpan⟩,
        { p with
          lexer := rest
          events := p.events ++ [⟨.Enter .Autolink, p.span⟩, ⟨.Str, strSpan⟩]
          span := exitSpan })
    | _ => none
  else none

/-! ## Link/image resolution (`Parser::post_span`, lines 414–453) -/

/-- `Parser::post_span`. -/
def postSpan (p : Parser) (ty : SpanType) (openerEvent : Nat) :
    Option Event × Parser :=
  let commit (kind : Container) (scanned : Option (Nat × List Char)) :
      Option Event × Parser :=
    match scanned with
    | some (len, rest') =>
      let span := Span.byLen (p.span.stop + 1) len
      (some ⟨.Exit kind, span⟩,
        { p with
          lexer := rest'
          events := setEvent p.events openerEvent ⟨.Enter kind, span⟩
          span := span.translate 1 })
    | none => (none, p)
  match p.lexer.head? with
  | some c =>
    if c = '[' then
      commit (if ty = .Image then .ReferenceImage else .ReferenceLink)
        (spanScan '[' ']' p.lexer.tail)
    else if c = '(' then
      commit (if ty = .Image then .InlineImage else .InlineLink)
        (spanScan '(' ')' p.lexer.tail)
    else (none, p)
  | none => (none, p)

/-! ## Container delimiters (`Parser::parse_container`, lines 335–412) -/

/-- Is a delim span-shaped (`matches!(d, Delim::Span(..))`). -/
def Delim.isSpan : Delim → Bool
  | .Span _ => true
  | _ => false

/-- The trailing-attributes step shared by every close outcome
(`parse_container`, lines 365–391): scan `{...}` runs after the closer; on
success overwrite the placeholder at `eAttr` with an `Attributes` event,
and promote an unmatched reference span (`event? = none`) to a `Span`
container at `eOpener`. -/
def closeAttrs (p2 : Parser) (eAttr eOpener : Nat)
    (event? : Option Event) : Option Event × Parser :=
  let v := attrValid p2.lexer
  if 0 < v.1 then
    let spanCloser := p2.span
    let p3 := { p2 with span := Span.emptyAt p2.span.stop }
    let (p4, hasAttr) := attrsLoop (p2.lexer.length + 1) p3 v.2.2 v.1 v.2.1
    let p5 := if hasAttr
      then { p4 with events := setEvent p4.events eAttr ⟨.Attributes, p4.span⟩ }
      else p4
    match event? with
    | some ev => (some ev, p5)
    | none =>
      if hasAttr then
        (some ⟨.Exit .Span, spanCloser⟩,
         { p5 with events := setKind p5.events eOpener (.Enter .Span) })
      else (some ⟨.Str, spanCloser⟩, p5)
  else (event?, p2)

/-- The matched-opener close path: the body of the `and_then` closure in
`parse_container` (lines 343–393). Returns `none` as first component when
the close produced no event (the caller then falls through to the opener
push on the mutated state, exactly as `unwrap_or_else` does). -/
def closePath (p : Parser) (o : Nat) : Option Event × Parser :=
  match (p.openers.drop o).head? with
  | none => (none, p)
  | some (d, e) =>
    let (event?, p1) :=
      match tryFromDelim d with
      | .inr cont =>
        ((some ⟨.Exit cont, p.span⟩ : Option Event),
         { p with events := setKind p.events (e + 1) (.Enter cont) })
      | .inl ty => postSpan p ty (e + 1)
    closeAttrs { p1 with openers := p1.openers.take o } e (e + 1) event?

/-- The opener push (`unwrap_or_else` branch of `parse_container`,
lines 398–410). -/
def openPath (p : Parser) (delim : Delim) : Event × Parser :=
  (⟨.Str, p.span⟩,
   { p with
     openers := p.openers ++ [(delim, p.events.length)]
     events := p.events ++ [⟨.Placeholder, Span.emptyAt p.span.start⟩] })

/-- `Parser::parse_container`. -/
def parseContainer (p : Parser) (first : Token) : Option (Event × Parser) :=
  match Delim.fromToken first.kind with
  | none => none
  | some (delim, dir) =>
    let matched := rpos?
      (fun de => de.1 == delim || (de.1.isSpan && delim.isSpan)) p.openers
    let closeRes : Option (Option Event × Parser) :=
      match matched with
      | some o =>
        if dir = .Close ∨ dir = .Both then some (closePath p o) else none
      | none => none
    match closeRes with
    | some (some ev, p') => some (ev, p')
    | some (none, p') => some (openPath p' delim)
    | none => some (openPath p delim)

/-! ## Atoms (`Parser::parse_atom`, lines 455–471) -/

/-- `Parser::parse_atom`. -/
def parseAtom (p : Parser) (first : Token) : Option (Event × Parser) :=
  let a? : Option Atom :=
    match first.kind with
    | .Newline => some .Softbreak
    | .Hardbreak => some .Hardbreak
    | .Escape => some .Escape
    | .Nbsp => some .Nbsp
    | .Seq .Period => if first.len = 3 then some .Ellipsis else none
    | .Seq .Hyphen =>
      if first.len = 2 then some .EnDash
      else if first.len = 3 then some .EmDash else none
    | _ => none
  a?.map (fun a => (⟨.Atom a, p.span⟩, p))

/-! ## The per-token dispatcher (`Parser::parse_event`, lines 108–125) -/

/-- `Parser::parse_event`: reset the span, eat one token, try the five
parse paths in order, fall back to a `Str`/`Whitespace` event. -/
def parseEvent (p : Parser) : Option Event × Parser :=
  let p0 := p.resetSpan
  match p0.eat with
  | none => (none, p0)
  | some (first, p1) =>
    match parseVerbatim p1 first with
    | some (ev, p2) => (some ev, p2)
    | none =>
    match parseAttributes p1 first with
    | some (ev, p2) => (some ev, p2)
    | none =>
    match parseAutolink p1 first with
    | some (ev, p2) => (some ev, p2)
    | none =>
    match parseContainer p1 first with
    | some (ev, p2) => (some ev, p2)
    | none =>
    match parseAtom p1 first with
    | some (ev, p2) => (some ev, p2)
    | none =>
      (some ⟨if first.kind = .Whitespace then .Whitespace else .Str, p1.span⟩, p1)

/-! ## The iterator (`impl Iterator for Parser`, lines 561–606) -/

/-- Last buffered event is `Str` or `Whitespace`. -/
def backTextual (es : List Event) : Bool :=
  match es.getLast? with
  | some e => match e.kind with | .Str | .Whitespace => true | _ => false
  | none => false

/-- The condition of the replenishment loop in `next()`. -/
def fillCond (p : Parser) : Bool :=
  p.events.isEmpty || !p.openers.isEmpty || backTextual p.events

/-- The replenishment loop of `next()` (lines 565–579). -/
def fillLoop : Nat → Parser → Parser
  | 0, p => p
  | fuel + 1, p =>
    if fillCond p then
      match parseEvent p with
      | (some ev, p') => fillLoop fuel { p' with events := p'.events ++ [ev] }
      | (none, p') => p'
    else p

/-- Kinds merged by the coalescing loop. -/
def isMergeK : EventKind → Bool
  | .Str | .Whitespace | .Placeholder => true
  | _ => false

/-- The merge loop of `next()` (lines 586–595): union consecutive
mergeable spans; the boolean accumulates the `assert_eq!` checks
`span.end() == ev.span.start()`. -/
def mergeLoop : List Event → Span → Bool → Span × List Event × Bool
  | [], sp, okAcc => (sp, [], okAcc)
  | e :: rest, sp, okAcc =>
    if isMergeK e.kind then
      mergeLoop rest (sp.union e.span) (okAcc && decide (sp.stop = e.span.start))
    else (sp, e :: rest, okAcc)

/-- `next()`: replenish, pop, coalesce or skip. Returns the event (if any)
and the parser state afterwards. -/
def nextEvent : Nat → Parser → Option Event × Parser
  | 0, p => (none, p)
  | fuel + 1, p =>
    let q := fillLoop (fuel + 1) p
    match q.events with
    | [] => (none, q)
    | e :: rest =>
      let q1 := { q with events := rest }
      if e.kind = .Str ∨ e.kind = .Whitespace then
        let m := mergeLoop rest e.span true
        (some ⟨.Str, m.1⟩, { q1 with events := m.2.1, ok := q1.ok && m.2.2 })
      else if e.kind = .Placeholder then nextEvent fuel q1
      else (some e, q1)

/-- Drive `next()` to exhaustion, collecting the released events. -/
def runAll : Nat → Parser → List Event × Parser
  | 0, p => ([], p)
  | fuel + 1, p =>
    match nextEvent (fuel + 1) p with
    | (none, q) => ([], q)
    | (some e, q) =>
      let (evs, r) := runAll fuel q
      (e :: evs, r)

/-- Fuel amply sufficient to run a parse to completion. -/
def bigFuel (cs : List Char) : Nat := 4 * cs.length + 8

/-- The released event stream for an input. -/
def releasedEvents (cs : List Char) : List Event :=
  (runAll (bigFuel cs) (initP cs)).1

/-- The parser state after the released stream is exhausted (carries the
ghost assertion flag). -/
def finalParser (cs : List Char) : Parser :=
  (runAll (bigFuel cs) (initP cs)).2

end Jotdown

namespace Jotdown

/-! ## Balance of Enter/Exit events

`scanK` runs a matcher stack over event kinds: `Enter` pushes, `Exit` pops
its own container kind (failing on mismatch or an empty stack), everything
else is neutral. `balancedK` asks for a full match with an empty final
stack; it captures "exactly one `Exit(C)` for each `Enter(C)`, the `Exit`
following its `Enter` with zero or more events nested between". -/

def neutralK : EventKind → Bool
  | .Enter _ => false
  | .Exit _ => false
  | _ => true

def kindsOf (es : List Event) : List EventKind := es.map Event.kind

def scanK : List EventKind → List Container → Option (List Container)
  | [], s => some s
  | k :: rest, s =>
    match k with
    | .Enter c => scanK rest (c :: s)
    | .Exit c =>
      match s with
      | c' :: s' => if c = c' then scanK rest s' else none
      | [] => none
    | _ => scanK rest s

def balancedK (l : List EventKind) : Prop := scanK l [] = some []

instance (l : List EventKind) : Decidable (balancedK l) := by
  unfold balancedK; infer_instance

theorem scanK_neutral_cons {k : EventKind} (h : neutralK k = true)
    (rest : List EventKind) (s : List Container) :
    scanK (k :: rest) s = scanK rest s := by
  cases k <;> simp [scanK] <;> simp [neutralK] at h

theorem scanK_append (a b : List EventKind) (s : List Container) :
    scanK (a ++ b) s = (scanK a s).bind (scanK b) := by
  induction a generalizing s with
  | nil => simp [scanK]
  | cons k rest ih =>
    cases k with
    | Enter c => simp [scanK, ih]
    | Exit c =>
      cases s with
      | nil => simp [scanK]
      | cons c' s' =>
        by_cases h : c = c' <;> simp [scanK, h, ih]
    | _ => simp [scanK, ih]

theorem scanK_frame (l : List EventKind) (s u t : List Container)
    (h : scanK l s = some u) : scanK l (s ++ t) = some (u ++ t) := by
  induction l generalizing s u with
  | nil =>
    simp [scanK] at h
    simp [scanK, h]
  | cons k rest ih =>
    cases k with
    | Enter c =>
      simp [scanK] at h ⊢
      exact ih (c :: s) u h
    | Exit c =>
      cases s with
      | nil => simp [scanK] at h
      | cons c' s' =>
        by_cases hc : c = c' <;> simp [scanK, hc] at h ⊢
        · exact ih s' u h
    | Atom a =>
      simp [scanK] at h ⊢; exact ih s u h
    | Str => simp [scanK] at h ⊢; exact ih s u h
    | Whitespace => simp [scanK] at h ⊢; exact ih s u h
    | Attributes => simp [scanK] at h ⊢; exact ih s u h
    | Placeholder => simp [scanK] at h ⊢; exact ih s u h

theorem scanK_neutral_list {l : List EventKind}
    (h : ∀ k ∈ l, neutralK k = true) (s : List Container) :
    scanK l s = some s := by
  induction l with
  | nil => simp [scanK]
  | cons k rest ih =>
    rw [scanK_neutral_cons (h k (by simp)) rest s]
    exact ih (fun k hk => h k (by simp [hk]))

theorem balancedK_nil : balancedK [] := by decide

theorem balancedK_neutral {l : List EventKind}
    (h : ∀ k ∈ l, neutralK k = true) : balancedK l :=
  scanK_neutral_list h []

theorem balancedK_append {a b : List EventKind}
    (ha : balancedK a) (hb : balancedK b) : balancedK (a ++ b) := by
  unfold balancedK at *
  rw [scanK_append, ha]
  simpa using hb

theorem balancedK_cancel {a b : List EventKind}
    (hab : balancedK (a ++ b)) (hb : balancedK b) : balancedK a := by
  unfold balancedK at *
  rw [scanK_append] at hab
  cases hu : scanK a [] with
  | none => rw [hu] at hab; simp at hab
  | some u =>
    rw [hu] at hab
    simp only [Option.some_bind] at hab
    have hframe := scanK_frame b [] [] u hb
    simp only [List.nil_append] at hframe
    rw [hframe] at hab
    simp_all

theorem balancedK_append_neutral {a n : List EventKind}
    (ha : balancedK a) (hn : ∀ k ∈ n, neutralK k = true) :
    balancedK (a ++ n) :=
  balancedK_append ha (balancedK_neutral hn)

theorem balancedK_of_append_neutral {a n : List EventKind}
    (h : balancedK (a ++ n)) (hn : ∀ k ∈ n, neutralK k = true) :
    balancedK a :=
  balancedK_cancel h (balancedK_neutral hn)

/-- The rewrite-and-close pattern: a balanced prefix, a new `Enter`, a
balanced interior, and the matching appended `Exit` are balanced. -/
theorem balancedK_wrap {a b : List EventKind} (c : Container)
    (ha : balancedK a) (hb : balancedK b) :
    balancedK (a ++ .Enter c :: (b ++ [.Exit c])) := by
  unfold balancedK at *
  rw [scanK_append, ha]
  simp only [Option.some_bind, scanK]
  have hframe := scanK_frame b [] [] [c] hb
  simp only [List.nil_append] at hframe
  rw [scanK_append, hframe]
  simp [scanK]

end Jotdown

namespace Jotdown

/-! ## Conservation and shrink lemmas for the scanners -/

theorem takeRun_conserve (c : Char) (l : List Char) :
    (takeRun c l).1 + (takeRun c l).2.length = l.length := by
  induction l with
  | nil => simp [takeRun]
  | cons d rest ih =>
    by_cases h : d = c <;> simp [takeRun, h] <;> omega

theorem takeBlanks_conserve (l : List Char) :
    (takeBlanks l).1 + (takeBlanks l).2.length = l.length := by
  induction l with
  | nil => simp [takeBlanks]
  | cons d rest ih =>
    by_cases h : d = ' ' ∨ d = '\t' <;> simp [takeBlanks, h] <;> omega

theorem takeName_conserve (l : List Char) :
    (takeName l).1 + (takeName l).2.length = l.length := by
  induction l with
  | nil => simp [takeName]
  | cons d rest ih =>
    by_cases h : d.isAlphanum ∨ d = '-' ∨ d = '_' <;> simp [takeName, h] <;> omega

theorem skipComment_conserve {l r : List Char} {n : Nat}
    (h : skipComment l = some (n, r)) : n + r.length = l.length ∧ 0 < n := by
  induction l generalizing n r with
  | nil => simp [skipComment] at h
  | cons c rest ih =>
    by_cases hc : c = '%'
    · simp [skipComment, hc] at h
      obtain ⟨rfl, rfl⟩ := h
      constructor
      · simp only [List.length_cons]; omega
      · omega
    · cases hsc : skipComment rest with
      | none => simp [skipComment, hc, hsc] at h
      | some p =>
        obtain ⟨m, r'⟩ := p
        simp [skipComment, hc, hsc] at h
        obtain ⟨rfl, rfl⟩ := h
        have := ih hsc
        constructor
        · simp only [List.length_cons]; omega
        · omega

theorem rawScan_conserve {l r : List Char} {n : Nat}
    (h : rawScan l = some (n, r)) : n + 1 + r.length = l.length := by
  induction l generalizing n r with
  | nil => simp [rawScan] at h
  | cons c rest ih =>
    by_cases h1 : c = '{'
    · simp [rawScan, h1] at h
    · by_cases h2 : c = '}'
      · simp [rawScan, h1, h2] at h
        obtain ⟨rfl, rfl⟩ := h
        simp only [List.length_cons]; omega
      · by_cases h3 : rustIsWhitespace c
        · simp [rawScan, h1, h2, h3] at h
        · cases hsc : rawScan rest with
          | none => simp [rawScan, h1, h2, h3, hsc] at h
          | some p =>
            obtain ⟨m, r'⟩ := p
            simp [rawScan, h1, h2, h3, hsc] at h
            obtain ⟨rfl, rfl⟩ := h
            have := ih hsc
            simp only [List.length_cons]
            omega

theorem autoScan_conserve {l r : List Char} {n : Nat} {u : Bool}
    (h : autoScan l = some (n, u, r)) : n + 1 + r.length = l.length := by
  induction l generalizing n u r with
  | nil => simp [autoScan] at h
  | cons c rest ih =>
    by_cases h1 : c = '>'
    · simp [autoScan, h1] at h
      obtain ⟨rfl, rfl, rfl⟩ := h
      simp only [List.length_cons]; omega
    · by_cases h2 : rustIsWhitespace c
      · simp [autoScan, h1, h2] at h
      · cases hsc : autoScan rest with
        | none => simp [autoScan, h1, h2, hsc] at h
        | some p =>
          obtain ⟨m, q⟩ := p
          obtain ⟨u', r'⟩ := q
          simp [autoScan, h1, h2, hsc] at h
          obtain ⟨rfl, rfl, rfl⟩ := h
          have := ih hsc
          simp only [List.length_cons]
          omega

theorem spanScan_conserve {o c : Char} {l r : List Char} {n : Nat}
    (h : spanScan o c l = some (n, r)) : n + 1 + r.length = l.length := by
  induction l generalizing n r with
  | nil => simp [spanScan] at h
  | cons d rest ih =>
    by_cases h1 : d = o
    · simp [spanScan, h1] at h
    · by_cases h2 : d = c
      · subst h2
        simp [spanScan, h1] at h
        obtain ⟨rfl, rfl⟩ := h
        simp only [List.length_cons]; omega
      · cases hsc : spanScan o c rest with
        | none => simp [spanScan, h1, h2, hsc] at h
        | some p =>
          obtain ⟨m, r'⟩ := p
          simp [spanScan, h1, h2, hsc] at h
          obtain ⟨rfl, rfl⟩ := h
          have := ih hsc
          simp only [List.length_cons]
          omega

end Jotdown


namespace Jotdown

set_option maxHeartbeats 4000000 in
/-- Every token consumes at least one character. -/
theorem lexNext_shrink {cs : List Char} {t : Token} {r : List Char}
    (h : lexNext cs = some (t, r)) : r.length < cs.length := by
  match cs with
  | [] => simp [lexNext] at h
  | c :: rest =>
    have e1 := takeRun_conserve btChar rest
    have e2 := takeRun_conserve '$' rest
    have e3 := takeRun_conserve '.' rest
    have e4 := takeRun_conserve '-' rest
    have e5 := takeBlanks_conserve rest
    have e6 : rest.tail.length ≤ rest.length := by cases rest <;> simp
    have e7 : rest.tail.tail.length ≤ rest.length := by
      cases rest with
      | nil => simp
      | cons a b => cases b <;> simp <;> omega
    by_cases q1 : c = btChar
    · simp [lexNext, q1] at h
      obtain ⟨-, rfl⟩ := h
      simp only [List.length_cons, List.length_tail]
      omega
    by_cases q2 : c = '$'
    · simp [lexNext, q1, q2] at h
      obtain ⟨-, rfl⟩ := h
      simp only [List.length_cons, List.length_tail]
      omega
    by_cases q3 : c = '.'
    · simp [lexNext, q1, q2, q3] at h
      obtain ⟨-, rfl⟩ := h
      simp only [List.length_cons, List.length_tail]
      omega
    by_cases q4 : c = '-'
    · by_cases q4a : rest.head? = some '}'
      · simp [lexNext, q1, q2, q3, q4, q4a] at h
        obtain ⟨-, rfl⟩ := h
        simp only [List.length_cons, List.length_tail]
        omega
      · simp [lexNext, q1, q2, q3, q4, q4a] at h
        obtain ⟨-, rfl⟩ := h
        simp only [List.length_cons, List.length_tail]
        omega
    by_cases q5 : c = '\n'
    · simp [lexNext, q1, q2, q3, q4, q5] at h
      obtain ⟨-, rfl⟩ := h
      simp only [List.length_cons, List.length_tail]
      omega
    by_cases q6 : c = ' ' ∨ c = '\t'
    · simp [lexNext, q1, q2, q3, q4, q5, q6] at h
      obtain ⟨-, rfl⟩ := h
      simp only [List.length_cons, List.length_tail]
      omega
    by_cases q7 : c = nbspChar
    · simp [lexNext, q1, q2, q3, q4, q5, q6, q7] at h
      obtain ⟨-, rfl⟩ := h
      simp only [List.length_cons, List.length_tail]
      omega
    by_cases q8 : c = '\\'
    · cases hd : rest.head? with
      | none =>
        simp [lexNext, q1, q2, q3, q4, q5, q6, q7, q8, hd] at h
        obtain ⟨-, rfl⟩ := h
        simp only [List.length_cons]
        omega
      | some d =>
        by_cases q8a : d = ' '
        · by_cases q8c : rest[1]? = some '\n'
          · simp [lexNext, q1, q2, q3, q4, q5, q6, q7, q8, hd, q8a, q8c] at h
            obtain ⟨-, rfl⟩ := h
            simp only [List.length_cons, List.length_tail]
            omega
          · simp [lexNext, q1, q2, q3, q4, q5, q6, q7, q8, hd, q8a, q8c] at h
            obtain ⟨-, rfl⟩ := h
            simp only [List.length_cons, List.length_tail]
            omega
        · by_cases q8b : isPunct d ∨ d = '\n'
          · simp [lexNext, q1, q2, q3, q4, q5, q6, q7, q8, hd, q8a, q8b] at h
            obtain ⟨-, rfl⟩ := h
            simp only [List.length_cons, List.length_tail]
            omega
          · simp [lexNext, q1, q2, q3, q4, q5, q6, q7, q8, hd, q8a, q8b] at h
            obtain ⟨-, rfl⟩ := h
            simp only [List.length_cons, List.length_tail]
            omega
    by_cases q9 : c = '{'
    · cases hd : rest.head? with
      | none =>
        simp [lexNext, q1, q2, q3, q4, q5, q6, q7, q8, q9, hd] at h
        obtain ⟨-, rfl⟩ := h
        simp only [List.length_cons]
        omega
      | some d =>
        cases hb : braceTag? d with
        | some del =>
          simp [lexNext, q1, q2, q3, q4, q5, q6, q7, q8, q9, hd, hb] at h
          obtain ⟨-, rfl⟩ := h
          simp only [List.length_cons, List.length_tail]
          omega
        | none =>
          simp [lexNext, q1, q2, q3, q4, q5, q6, q7, q8, q9, hd, hb] at h
          obtain ⟨-, rfl⟩ := h
          simp only [List.length_cons]
          omega
    by_cases q10 : c = '}'
    · simp [lexNext, q1, q2, q3, q4, q5, q6, q7, q8, q9, q10] at h
      obtain ⟨-, rfl⟩ := h
      simp only [List.length_cons, List.length_tail]
      omega
    by_cases q11 : c = '['
    · simp [lexNext, q1, q2, q3, q4, q5, q6, q7, q8, q9, q10, q11] at h
      obtain ⟨-, rfl⟩ := h
      simp only [List.length_cons, List.length_tail]
      omega
    by_cases q12 : c = ']'
    · simp [lexNext, q1, q2, q3, q4, q5, q6, q7, q8, q9, q10, q11, q12] at h
      obtain ⟨-, rfl⟩ := h
      simp only [List.length_cons, List.length_tail]
      omega
    by_cases q13 : c = '!'
    · by_cases q13a : rest.head? = some '['
      · simp [lexNext, q1, q2, q3, q4, q5, q6, q7, q8, q9, q10, q11, q12, q13, q13a] at h
        obtain ⟨-, rfl⟩ := h
        simp only [List.length_cons, List.length_tail]
        omega
      · simp [lexNext, q1, q2, q3, q4, q5, q6, q7, q8, q9, q10, q11, q12, q13, q13a] at h
        obtain ⟨-, rfl⟩ := h
        simp only [List.length_cons, List.length_tail]
        omega
    cases hb : braceTag? c with
    | some del =>
      by_cases qz : rest.head? = some '}'
      · simp [lexNext, q1, q2, q3, q4, q5, q6, q7, q8, q9, q10, q11, q12, q13, hb, qz] at h
        obtain ⟨-, rfl⟩ := h
        simp only [List.length_cons, List.length_tail]
        omega
      · cases hs : symTag? c with
        | some sy =>
          simp [lexNext, q1, q2, q3, q4, q5, q6, q7, q8, q9, q10, q11, q12, q13, hb, qz, hs] at h
          obtain ⟨-, rfl⟩ := h
          simp only [List.length_cons]
          omega
        | none =>
          simp [lexNext, q1, q2, q3, q4, q5, q6, q7, q8, q9, q10, q11, q12, q13, hb, qz, hs] at h
          obtain ⟨-, rfl⟩ := h
          simp only [List.length_cons]
          omega
    | none =>
      cases hs : symTag? c with
      | some sy =>
        simp [lexNext, q1, q2, q3, q4, q5, q6, q7, q8, q9, q10, q11, q12, q13, hb, hs] at h
        obtain ⟨-, rfl⟩ := h
        simp only [List.length_cons]
        omega
      | none =>
        simp [lexNext, q1, q2, q3, q4, q5, q6, q7, q8, q9, q10, q11, q12, q13, hb, hs] at h
        obtain ⟨-, rfl⟩ := h
        simp only [List.length_cons]
        omega

end Jotdown

namespace Jotdown

theorem attrInside_shrink {fuel : Nat} {cs r : List Char} {n m : Nat} {ne b : Bool}
    (h : attrInside fuel cs n ne = (some (m, b), r)) : r.length < cs.length := by
  induction fuel generalizing cs n ne m b r with
  | zero => simp [attrInside] at h
  | succ fuel ih =>
    match cs with
    | [] => simp [attrInside] at h
    | c :: rest =>
      by_cases q1 : c = '}'
      · simp [attrInside, q1] at h
        obtain ⟨-, rfl⟩ := h
        simp
      · by_cases q2 : c = ' ' ∨ c = '\t' ∨ c = '\n'
        · simp only [attrInside, q1, q2, if_false, if_true] at h
          have := ih h
          simp only [List.length_cons]
          omega
        · by_cases q3 : c = '%'
          · cases hsc : skipComment rest with
            | none => simp [attrInside, q1, q2, q3, hsc] at h
            | some p =>
              obtain ⟨k, r1⟩ := p
              simp only [attrInside, q1, q2, q3, hsc, if_false, if_true] at h
              have h1 := skipComment_conserve hsc
              have := ih h
              simp only [List.length_cons]
              omega
          · by_cases q4 : c = '.' ∨ c = '#'
            · by_cases q5 : (takeName rest).1 = 0
              · simp [attrInside, q1, q2, q3, q4, q5] at h
              · simp only [attrInside, q1, q2, q3, q4, q5, if_false, if_true] at h
                have h1 := takeName_conserve rest
                have := ih h
                simp only [List.length_cons]
                omega
            · by_cases q5 : (takeName (c :: rest)).1 = 0
              · simp [attrInside, q1, q2, q3, q4, q5] at h
              · by_cases q6 : (takeName (c :: rest)).2.head? = some '='
                · simp only [attrInside, q1, q2, q3, q4, q5, q6, if_false,
                    if_true] at h
                  have h1 := takeName_conserve (c :: rest)
                  have h2 := takeName_conserve (takeName (c :: rest)).2.tail
                  have h3 : (takeName (c :: rest)).2.tail.length ≤
                      (takeName (c :: rest)).2.length := by
                    cases htn : (takeName (c :: rest)).2 <;> simp
                  have := ih h
                  simp only [List.length_cons] at *
                  omega
                · simp [attrInside, q1, q2, q3, q4, q5, q6] at h

theorem attrInside_rest_le {fuel : Nat} : ∀ {cs : List Char} {n : Nat}
    {ne : Bool}, (attrInside fuel cs n ne).2.length ≤ cs.length := by
  induction fuel with
  | zero => intro cs n ne; simp [attrInside]
  | succ fuel ih =>
    intro cs n ne
    match cs with
    | [] => simp [attrInside]
    | c :: rest =>
      by_cases q1 : c = '}'
      · simp [attrInside, q1]
      · by_cases q2 : c = ' ' ∨ c = '\t' ∨ c = '\n'
        · simp only [attrInside, q1, q2, if_false, if_true]
          have := @ih rest (n + 1) ne
          simp only [List.length_cons]
          omega
        · by_cases q3 : c = '%'
          · cases hsc : skipComment rest with
            | none => simp [attrInside, q1, q2, q3, hsc]
            | some p =>
              obtain ⟨k, r1⟩ := p
              simp [attrInside, q1, q2, q3, hsc]
              have h1 := skipComment_conserve hsc
              have := @ih r1 (n + 1 + k) ne
              omega
          · by_cases q4 : c = '.' ∨ c = '#'
            · by_cases q5 : (takeName rest).1 = 0
              · simp [attrInside, q1, q2, q3, q4, q5]
                have h1 := takeName_conserve rest
                omega
              · simp [attrInside, q1, q2, q3, q4, q5]
                have h1 := takeName_conserve rest
                have := @ih (takeName rest).2 (n + 1 + (takeName rest).1) true
                omega
            · by_cases q5 : (takeName (c :: rest)).1 = 0
              · simp [attrInside, q1, q2, q3, q4, q5]
                have h1 := takeName_conserve (c :: rest)
                simp only [List.length_cons] at h1
                omega
              · by_cases q6 : (takeName (c :: rest)).2.head? = some '='
                · simp [attrInside, q1, q2, q3, q4, q5, q6]
                  have h1 := takeName_conserve (c :: rest)
                  have h2 := takeName_conserve (takeName (c :: rest)).2.tail
                  have h3 : (takeName (c :: rest)).2.tail.length ≤
                      (takeName (c :: rest)).2.length := by
                    cases htn : (takeName (c :: rest)).2 <;> simp
                  have := @ih (takeName (takeName (c :: rest)).2.tail).2
                    (n + (takeName (c :: rest)).1 + 1 +
                      (takeName (takeName (c :: rest)).2.tail).1) true
                  simp only [List.length_cons] at *
                  omega
                · simp [attrInside, q1, q2, q3, q4, q5, q6]
                  have h1 := takeName_conserve (c :: rest)
                  simp only [List.length_cons] at h1
                  omega

theorem attrValid_shrink {cs r : List Char} {n : Nat} {b : Bool}
    (h : attrValid cs = (n, b, r)) (hn : 0 < n) : r.length < cs.length := by
  by_cases q : cs.head? = some '{'
  · simp only [attrValid, q, if_true] at h
    rcases hin : attrInside (cs.tail.length + 1) cs.tail 1 false with ⟨o, r0⟩
    cases o with
    | none => rw [hin] at h; simp at h; omega
    | some p =>
      obtain ⟨m, b'⟩ := p
      rw [hin] at h
      simp at h
      obtain ⟨-, -, rfl⟩ := h
      have h2 := attrInside_shrink hin
      have h3 : cs.tail.length < cs.length := by
        cases cs with
        | nil => simp at q
        | cons a bb => simp
      omega
  · simp [attrValid, q] at h
    omega

theorem attrValid_rest_le {cs : List Char} :
    (attrValid cs).2.2.length ≤ cs.length := by
  by_cases q : cs.head? = some '{'
  · have htl : cs.tail.length ≤ cs.length := by cases cs <;> simp
    have hin := @attrInside_rest_le (cs.tail.length + 1) cs.tail 1 false
    simp only [attrValid, q, if_true]
    rcases hi : attrInside (cs.tail.length + 1) cs.tail 1 false with ⟨o, r0⟩
    rw [hi] at hin
    cases o with
    | none => simpa using le_trans hin htl
    | some p =>
      obtain ⟨m, b'⟩ := p
      simpa using le_trans hin htl
  · simp [attrValid, q]

/-- Whatever `attr::valid` does with the prepended `{`, the rest it leaves
is no longer than the stream after the `{`. -/
theorem attrValid_brace_rest_le {l : List Char} :
    (attrValid ('{' :: l)).2.2.length ≤ l.length := by
  have hin := @attrInside_rest_le (l.length + 1) l 1 false
  unfold attrValid
  rw [if_pos (by rfl : (('{' :: l) : List Char).head? = some '{')]
  have htl : (('{' :: l) : List Char).tail = l := rfl
  rw [htl]
  rcases hi : attrInside (l.length + 1) l 1 false with ⟨o, r0⟩
  rw [hi] at hin
  cases o with
  | none => simpa using hin
  | some p =>
    obtain ⟨m, b'⟩ := p
    simpa using hin

theorem attrsLoop_frame {fuel : Nat} {p : Parser} {ahead : List Char}
    {len : Nat} {ha : Bool} :
    (attrsLoop fuel p ahead len ha).1.events = p.events ∧
    (attrsLoop fuel p ahead len ha).1.openers = p.openers ∧
    (attrsLoop fuel p ahead len ha).1.ok = p.ok := by
  induction fuel generalizing p ahead len ha with
  | zero => simp [attrsLoop]
  | succ fuel ih =>
    by_cases q : len = 0
    · simp [attrsLoop, q]
    · simp only [attrsLoop, q, if_false, if_true]
      exact ih

theorem attrsLoop_lexer {fuel : Nat} {p : Parser} {ahead : List Char}
    {len : Nat} {ha : Bool} :
    (attrsLoop fuel p ahead len ha).1.lexer = p.lexer ∨
    (attrsLoop fuel p ahead len ha).1.lexer.length ≤ ahead.length := by
  induction fuel generalizing p ahead len ha with
  | zero => simp [attrsLoop]
  | succ fuel ih =>
    by_cases q : len = 0
    · simp [attrsLoop, q]
    · simp only [attrsLoop, q, if_false, if_true]
      rcases @ih { p with span := p.span.extend len, lexer := ahead }
          (attrValid ahead).2.2 (attrValid ahead).1
          (ha || (attrValid ahead).2.1) with h | h
      · right
        rw [h]
      · right
        exact le_trans h attrValid_rest_le

end Jotdown

namespace Jotdown

/-! ## Facts about `rpos?`, `evAt`, `setKind`, `setEvent` -/

theorem rpos?_lt {α : Type} {f : α → Bool} {l : List α} {j : Nat}
    (h : rpos? f l = some j) : j < l.length := by
  induction l generalizing j with
  | nil => simp [rpos?] at h
  | cons x xs ih =>
    simp only [rpos?] at h
    cases hx : rpos? f xs with
    | some i =>
      rw [hx] at h
      simp at h
      subst h
      have := ih hx
      simp
      omega
    | none =>
      rw [hx] at h
      by_cases hfx : f x
      · simp [hfx] at h
        subst h
        simp
      · simp [hfx] at h

theorem rpos?_none {α : Type} {f : α → Bool} {l : List α}
    (h : rpos? f l = none) : ∀ x ∈ l, f x = false := by
  induction l with
  | nil => simp
  | cons x xs ih =>
    simp only [rpos?] at h
    cases hx : rpos? f xs with
    | some i => rw [hx] at h; simp at h
    | none =>
      rw [hx] at h
      by_cases hfx : f x
      · simp [hfx] at h
      · intro y hy
        rcases List.mem_cons.mp hy with rfl | hy
        · simpa using hfx
        · exact ih hx y hy

theorem rpos?_drop {α : Type} {f : α → Bool} {l : List α} {j : Nat}
    (h : rpos? f l = some j) : ∀ x ∈ l.drop (j + 1), f x = false := by
  induction l generalizing j with
  | nil => simp [rpos?] at h
  | cons x xs ih =>
    simp only [rpos?] at h
    cases hx : rpos? f xs with
    | some i =>
      rw [hx] at h
      simp at h
      subst h
      simpa using ih hx
    | none =>
      rw [hx] at h
      by_cases hfx : f x
      · simp [hfx] at h
        subst h
        simpa using rpos?_none hx
      · simp [hfx] at h

theorem rpos?_get {α : Type} {f : α → Bool} {l : List α} {j : Nat}
    (h : rpos? f l = some j) : ∃ hj : j < l.length, f l[j] = true := by
  induction l generalizing j with
  | nil => simp [rpos?] at h
  | cons x xs ih =>
    simp only [rpos?] at h
    cases hx : rpos? f xs with
    | some i =>
      rw [hx] at h
      simp at h
      subst h
      obtain ⟨hi, hfi⟩ := ih hx
      exact ⟨by simp; omega, by simpa using hfi⟩
    | none =>
      rw [hx] at h
      by_cases hfx : f x
      · simp [hfx] at h
        subst h
        exact ⟨by simp, by simpa using hfx⟩
      · simp [hfx] at h

theorem evAt_lt {es : List Event} {i : Nat} (h : i < es.length) :
    evAt es i = es[i] := by
  unfold evAt
  rw [List.drop_eq_getElem_cons h]
  rfl

theorem evAt_append_left {A B : List Event} {i : Nat} (h : i < A.length) :
    evAt (A ++ B) i = evAt A i := by
  rw [evAt_lt (by simp; omega), evAt_lt h]
  exact List.getElem_append_left h

theorem evAt_append_exact {A B : List Event} {e : Event} :
    evAt (A ++ e :: B) A.length = e := by
  rw [evAt_lt (by simp)]
  rw [List.getElem_append_right (le_refl A.length)]
  simp

theorem setEvent_append_exact {A C : List Event} {b v : Event} :
    setEvent (A ++ b :: C) A.length v = A ++ v :: C := by
  simp [setEvent, List.set_append]

theorem setKind_append_exact {A C : List Event} {b : Event} {k : EventKind} :
    setKind (A ++ b :: C) A.length k = A ++ (⟨k, b.span⟩ : Event) :: C := by
  have hg : (A ++ b :: C)[A.length]? = some b := by
    rw [List.getElem?_append_right (le_refl A.length)]
    simp
  simp only [setKind, List.get?_eq_getElem?, hg, List.set_append]
  simp

theorem setKind_oob {es : List Event} {i : Nat} {k : EventKind}
    (h : es.length ≤ i) : setKind es i k = es := by
  have hg : es[i]? = none := List.getElem?_eq_none h
  simp only [setKind, List.get?_eq_getElem?, hg]

end Jotdown

namespace Jotdown

/-! ## Shape lemmas for the parse paths

Each lemma records how a parse path transforms the event buffer, the
opener stack and the lexer; the balance and slot invariants and the
termination measure all follow from these shapes. -/

theorem eat_eq {p : Parser} {t : Token} {q : Parser} (h : p.eat = some (t, q)) :
    lexNext p.lexer = some (t, q.lexer) ∧
    q = { p with lexer := q.lexer, span := p.span.extend t.len } := by
  unfold Parser.eat at h
  cases hl : lexNext p.lexer with
  | none => rw [hl] at h; simp at h
  | some tr =>
    obtain ⟨t', rest⟩ := tr
    rw [hl] at h
    simp at h
    obtain ⟨rfl, rfl⟩ := h
    simp

theorem eat_none {p : Parser} (h : p.eat = none) : lexNext p.lexer = none := by
  unfold Parser.eat at h
  cases hl : lexNext p.lexer with
  | none => rfl
  | some tr => rw [hl] at h; simp at h

theorem parseAtom_shape {p : Parser} {first : Token} {ev : Event} {p' : Parser}
    (h : parseAtom p first = some (ev, p')) :
    p' = p ∧ ∃ a, ev.kind = .Atom a := by
  unfold parseAtom at h
  cases ha : (match first.kind with
    | Kind.Newline => some Atom.Softbreak
    | Kind.Hardbreak => some Atom.Hardbreak
    | Kind.Escape => some Atom.Escape
    | Kind.Nbsp => some Atom.Nbsp
    | Kind.Seq Sequence.Period => if first.len = 3 then some Atom.Ellipsis else none
    | Kind.Seq Sequence.Hyphen =>
      if first.len = 2 then some Atom.EnDash
      else if first.len = 3 then some Atom.EmDash else none
    | _ => none : Option Atom) with
  | none => rw [ha] at h; simp at h
  | some a =>
    rw [ha] at h
    simp at h
    obtain ⟨rfl, rfl⟩ := h
    exact ⟨rfl, a, rfl⟩

theorem parseAutolink_shape {p : Parser} {first : Token} {ev : Event}
    {p' : Parser} (h : parseAutolink p first = some (ev, p')) :
    (∃ s1 s2, p'.events = p.events ++ [⟨.Enter .Autolink, s1⟩, ⟨.Str, s2⟩]) ∧
    ev.kind = .Exit .Autolink ∧ p'.openers = p.openers ∧ p'.ok = p.ok ∧
    p'.lexer.length < p.lexer.length := by
  unfold parseAutolink at h
  by_cases q : first.kind = .Sym .Lt
  · rw [if_pos q] at h
    cases hs : autoScan p.lexer with
    | none => rw [hs] at h; simp at h
    | some v =>
      obtain ⟨len, u, rest⟩ := v
      rw [hs] at h
      cases u with
      | false => simp at h
      | true =>
        simp at h
        obtain ⟨rfl, rfl⟩ := h
        refine ⟨⟨_, _, rfl⟩, rfl, rfl, rfl, ?_⟩
        show rest.length < p.lexer.length
        have := autoScan_conserve hs
        omega
  · rw [if_neg q] at h
    simp at h

theorem verbLoop_shape (fuel : Nat) (openerLen : Nat) (kind : Container)
    (spanInner : Span) (nwF nwL : Option (Kind × Nat)) (p : Parser)
    (E0 : List Event) (x : Event) (he : p.events = E0 ++ [x])
    (hx : x.kind = .Enter kind) :
    ∃ y : Event,
      (verbLoop fuel openerLen E0.length kind spanInner nwF nwL p).p.events
        = E0 ++ [y] ∧
      y.kind = .Enter (verbLoop fuel openerLen E0.length kind spanInner nwF nwL p).kind ∧
      (verbLoop fuel openerLen E0.length kind spanInner nwF nwL p).p.openers
        = p.openers ∧
      (verbLoop fuel openerLen E0.length kind spanInner nwF nwL p).p.ok = p.ok ∧
      (verbLoop fuel openerLen E0.length kind spanInner nwF nwL p).p.lexer.length
        ≤ p.lexer.length := by
  induction fuel generalizing spanInner nwF nwL p with
  | zero => exact ⟨x, by simpa [verbLoop] using he, by simpa [verbLoop] using hx,
      by simp [verbLoop], by simp [verbLoop], by simp [verbLoop]⟩
  | succ fuel ih =>
    cases heat : p.eat with
    | none =>
      refine ⟨x, ?_, ?_, ?_, ?_, ?_⟩ <;> simp [verbLoop, heat, he, hx]
    | some tp =>
      obtain ⟨t, p1⟩ := tp
      obtain ⟨hlex, hp1⟩ := eat_eq heat
      have hp1e : p1.events = E0 ++ [x] := by rw [hp1]; exact he
      have hp1o : p1.openers = p.openers := by rw [hp1]
      have hp1k : p1.ok = p.ok := by rw [hp1]
      have hp1l : p1.lexer.length < p.lexer.length := lexNext_shrink hlex
      simp only [verbLoop, heat]
      by_cases hc : t.kind = .Seq .Backtick ∧ t.len = openerLen
      · rw [if_pos hc]
        by_cases hv : kind = .Verbatim
        · rw [if_pos hv]
          cases hl2 : lexNext p1.lexer with
          | none => exact ⟨x, by simpa using hp1e, by simpa using hx, hp1o, hp1k,
              le_of_lt hp1l⟩
          | some ta =>
            obtain ⟨tok, afterTok⟩ := ta
            simp only []
            by_cases hbe : tok.kind = .Open .BraceEqual
            · rw [if_pos hbe]
              cases hrs : rawScan afterTok with
              | none => exact ⟨x, by simpa using hp1e, by simpa using hx, hp1o,
                  hp1k, le_of_lt hp1l⟩
              | some nr =>
                obtain ⟨len, rest'⟩ := nr
                simp only []
                by_cases hlen : 0 < len
                · rw [if_pos hlen]
                  refine ⟨⟨.Enter .RawFormat, Span.byLen (p1.span.stop + 2) len⟩,
                    ?_, rfl, hp1o, hp1k, ?_⟩
                  · show setEvent p1.events E0.length _ = _
                    rw [hp1e]
                    exact setEvent_append_exact
                  · show rest'.length ≤ p.lexer.length
                    have h1 := lexNext_shrink hl2
                    have h2 := rawScan_conserve hrs
                    omega
                · rw [if_neg hlen]
                  exact ⟨x, by simpa using hp1e, by simpa using hx, hp1o, hp1k,
                    le_of_lt hp1l⟩
            · rw [if_neg hbe]
              exact ⟨x, by simpa using hp1e, by simpa using hx, hp1o, hp1k,
                le_of_lt hp1l⟩
        · rw [if_neg hv]
          exact ⟨x, by simpa using hp1e, by simpa using hx, hp1o, hp1k,
            le_of_lt hp1l⟩
      · rw [if_neg hc]
        have hre : (p1.resetSpan).events = E0 ++ [x] := hp1e
        obtain ⟨y, hy1, hy2, hy3, hy4, hy5⟩ := ih _ _ _ (p1.resetSpan) hre
        refine ⟨y, hy1, hy2, ?_, ?_, ?_⟩
        · rw [hy3]
          simpa [Parser.resetSpan] using hp1o
        · rw [hy4]
          simpa [Parser.resetSpan] using hp1k
        · refine le_trans hy5 ?_
          simpa [Parser.resetSpan] using le_of_lt hp1l

end Jotdown

namespace Jotdown

theorem verbatimOpen?_shape {p : Parser} {first : Token} {kind : Container}
    {openerLen : Nat} {p1 : Parser}
    (h : verbatimOpen? p first = some (kind, openerLen, p1)) :
    p1.events = p.events ∧ p1.openers = p.openers ∧ p1.ok = p.ok ∧
    p1.lexer.length ≤ p.lexer.length := by
  unfold verbatimOpen? at h
  cases hfk : first.kind with
  | Seq s =>
    cases s with
    | Dollar =>
      rw [hfk] at h
      simp only [] at h
      by_cases hl : first.len ≤ 2
      · rw [if_pos hl] at h
        cases hlx : lexNext p.lexer with
        | none => rw [hlx] at h; simp at h
        | some tr =>
          obtain ⟨t, rest⟩ := tr
          rw [hlx] at h
          simp only [] at h
          cases htk : t.kind with
          | Seq s2 =>
            rw [htk] at h
            cases s2 with
            | Backtick =>
              simp at h
              obtain ⟨-, -, rfl⟩ := h
              refine ⟨rfl, rfl, rfl, ?_⟩
              exact le_of_lt (lexNext_shrink hlx)
            | Dollar => simp at h
            | Period => simp at h
            | Hyphen => simp at h
          | Newline => rw [htk] at h; simp at h
          | Hardbreak => rw [htk] at h; simp at h
          | Escape => rw [htk] at h; simp at h
          | Nbsp => rw [htk] at h; simp at h
          | Whitespace => rw [htk] at h; simp at h
          | Sym s3 => rw [htk] at h; simp at h
          | Open d3 => rw [htk] at h; simp at h
          | Close d3 => rw [htk] at h; simp at h
          | Text => rw [htk] at h; simp at h
      · rw [if_neg hl] at h
        simp at h
    | Backtick =>
      rw [hfk] at h
      simp at h
      obtain ⟨-, -, rfl⟩ := h
      exact ⟨rfl, rfl, rfl, le_refl _⟩
    | Period => rw [hfk] at h; simp at h
    | Hyphen => rw [hfk] at h; simp at h
  | Newline => rw [hfk] at h; simp at h
  | Hardbreak => rw [hfk] at h; simp at h
  | Escape => rw [hfk] at h; simp at h
  | Nbsp => rw [hfk] at h; simp at h
  | Whitespace => rw [hfk] at h; simp at h
  | Sym s => rw [hfk] at h; simp at h
  | Open d => rw [hfk] at h; simp at h
  | Close d => rw [hfk] at h; simp at h
  | Text => rw [hfk] at h; simp at h

theorem parseVerbatim_shape {p : Parser} {first : Token} {ev : Event}
    {p' : Parser} (h : parseVerbatim p first = some (ev, p')) :
    ∃ k s1 s2, p'.events = p.events ++ [⟨.Enter k, s1⟩, ⟨.Str, s2⟩] ∧
      ev.kind = .Exit k ∧ p'.openers = p.openers ∧ p'.ok = p.ok ∧
      p'.lexer.length ≤ p.lexer.length := by
  unfold parseVerbatim at h
  cases hop : verbatimOpen? p first with
  | none => rw [hop] at h; simp at h
  | some v =>
    obtain ⟨kind, openerLen, p1⟩ := v
    obtain ⟨he1, ho1, hk1, hl1⟩ := verbatimOpen?_shape hop
    rw [hop] at h
    try simp only [] at h
    set p2 : Parser := { p1 with events := p1.events ++ [⟨.Enter kind, p1.span⟩] }
      with hp2
    have hp2e : p2.events = p1.events ++ [(⟨.Enter kind, p1.span⟩ : Event)] := rfl
    obtain ⟨y, hy1, hy2, hy3, hy4, hy5⟩ :=
      verbLoop_shape (p2.lexer.length + 1) openerLen kind
        (Span.emptyAt p2.span.stop) none none p2 p1.events
        ⟨.Enter kind, p1.span⟩ hp2e rfl
    set out := verbLoop (p2.lexer.length + 1) openerLen p1.events.length kind
      (Span.emptyAt p2.span.stop) none none p2 with hout
    try simp only [← hout] at h
    cases h
    have hy : y = (⟨.Enter out.kind, y.span⟩ : Event) := by
      cases y
      simp only [] at hy2
      rw [hy2]
    refine ⟨out.kind, y.span, trimInner out.nwF out.nwL out.spanInner,
      ?_, rfl, ?_, ?_, ?_⟩
    · show out.p.events ++ _ = _
      rw [hy1, he1, hy]
      simp only [List.append_assoc, List.cons_append, List.nil_append]
    · show out.p.openers = p.openers
      rw [hy3, hp2]
      exact ho1
    · show out.p.ok = p.ok
      rw [hy4, hp2]
      exact hk1
    · show out.p.lexer.length ≤ p.lexer.length
      refine le_trans hy5 ?_
      show p1.lexer.length ≤ p.lexer.length
      exact hl1

end Jotdown

namespace Jotdown

theorem attrInside_conserve {fuel : Nat} {cs r : List Char} {n m : Nat}
    {ne b : Bool} (h : attrInside fuel cs n ne = (some (m, b), r)) :
    m + r.length = n + cs.length ∧ n < m := by
  induction fuel generalizing cs n ne m b r with
  | zero => simp [attrInside] at h
  | succ fuel ih =>
    match cs with
    | [] => simp [attrInside] at h
    | c :: rest =>
      by_cases q1 : c = '}'
      · simp [attrInside, q1] at h
        obtain ⟨⟨rfl, -⟩, rfl⟩ := h
        simp only [List.length_cons]
        omega
      · by_cases q2 : c = ' ' ∨ c = '\t' ∨ c = '\n'
        · simp only [attrInside, q1, q2, if_false, if_true] at h
          have := ih h
          simp only [List.length_cons]
          omega
        · by_cases q3 : c = '%'
          · cases hsc : skipComment rest with
            | none => simp [attrInside, q1, q2, q3, hsc] at h
            | some pp =>
              obtain ⟨k, r1⟩ := pp
              simp only [attrInside, q1, q2, q3, hsc, if_false, if_true] at h
              have h1 := skipComment_conserve hsc
              have := ih h
              simp only [List.length_cons]
              omega
          · by_cases q4 : c = '.' ∨ c = '#'
            · by_cases q5 : (takeName rest).1 = 0
              · simp [attrInside, q1, q2, q3, q4, q5] at h
              · simp only [attrInside, q1, q2, q3, q4, q5, if_false,
                  if_true] at h
                have h1 := takeName_conserve rest
                have := ih h
                simp only [List.length_cons]
                omega
            · by_cases q5 : (takeName (c :: rest)).1 = 0
              · simp [attrInside, q1, q2, q3, q4, q5] at h
              · by_cases q6 : (takeName (c :: rest)).2.head? = some '='
                · simp only [attrInside, q1, q2, q3, q4, q5, q6, if_false,
                    if_true] at h
                  have h1 := takeName_conserve (c :: rest)
                  have h2 := takeName_conserve (takeName (c :: rest)).2.tail
                  have h3 : (takeName (c :: rest)).2.tail.length + 1 =
                      (takeName (c :: rest)).2.length := by
                    cases htn : (takeName (c :: rest)).2 with
                    | nil => rw [htn] at q6; simp at q6
                    | cons a bb => simp
                  have := ih h
                  simp only [List.length_cons] at *
                  omega
                · simp [attrInside, q1, q2, q3, q4, q5, q6] at h

theorem attrValid_conserve {cs r : List Char} {n : Nat} {b : Bool}
    (h : attrValid cs = (n, b, r)) (hn : 0 < n) :
    n + r.length = cs.length ∧ 2 ≤ n := by
  by_cases q : cs.head? = some '{'
  · simp only [attrValid, q, if_true] at h
    rcases hin : attrInside (cs.tail.length + 1) cs.tail 1 false with ⟨o, r0⟩
    cases o with
    | none => rw [hin] at h; simp at h; omega
    | some pp =>
      obtain ⟨m, b'⟩ := pp
      rw [hin] at h
      simp at h
      obtain ⟨rfl, -, rfl⟩ := h
      have h2 := attrInside_conserve hin
      have h3 : cs.tail.length + 1 = cs.length := by
        cases cs with
        | nil => simp at q
        | cons a bb => simp
      omega
  · simp [attrValid, q] at h
    omega

theorem attrsLoop_lexer_pos {fuel : Nat} {p : Parser} {ahead : List Char}
    {len : Nat} {ha : Bool} (hf : 0 < fuel) (hl : len ≠ 0) :
    (attrsLoop fuel p ahead len ha).1.lexer.length ≤ ahead.length := by
  match fuel, hf with
  | fuel + 1, _ =>
    simp only [attrsLoop, hl, if_false, if_true]
    rcases @attrsLoop_lexer fuel
        { p with span := p.span.extend len, lexer := ahead }
        (attrValid ahead).2.2 (attrValid ahead).1
        (ha || (attrValid ahead).2.1) with h | h
    · rw [h]
    · exact le_trans h attrValid_rest_le

theorem parseAttributes_shape {p : Parser} {first : Token} {ev : Event}
    {p' : Parser} (h : parseAttributes p first = some (ev, p')) :
    p'.openers = p.openers ∧
    p'.lexer.length ≤ p.lexer.length ∧
    ((ev.kind = .Placeholder ∧ p'.events = p.events) ∨
     (∃ i sa sb sc, ev.kind = .Exit .Span ∧ i ≤ p.events.length ∧
       p'.events = p.events.take i ++
         [⟨.Attributes, sa⟩, ⟨.Enter .Span, sb⟩, ⟨.Str, sc⟩] ∧
       (∀ e ∈ p.events.drop i, e.kind = .Str))) := by
  unfold parseAttributes at h
  by_cases hg : first.kind = .Open .Brace ∧ lastIsStr p.events = true
  · rw [if_pos hg] at h
    by_cases hlen : 0 < (if (attrValid ('{' :: p.lexer)).1 = 0 then 2 ^ 64 - 1
        else (attrValid ('{' :: p.lexer)).1 - 1)
    · rw [if_pos hlen] at h
      rcases hloop : attrsLoop (p.lexer.length + 1)
          { p with ok := p.ok && decide (0 < (attrValid ('{' :: p.lexer)).1) }
          (attrValid ('{' :: p.lexer)).2.2
          (if (attrValid ('{' :: p.lexer)).1 = 0 then 2 ^ 64 - 1
            else (attrValid ('{' :: p.lexer)).1 - 1)
          (attrValid ('{' :: p.lexer)).2.1 with ⟨p1, hasAttr⟩
      have hfr := @attrsLoop_frame (p.lexer.length + 1)
          { p with ok := p.ok && decide (0 < (attrValid ('{' :: p.lexer)).1) }
          (attrValid ('{' :: p.lexer)).2.2
          (if (attrValid ('{' :: p.lexer)).1 = 0 then 2 ^ 64 - 1
            else (attrValid ('{' :: p.lexer)).1 - 1)
          (attrValid ('{' :: p.lexer)).2.1
      rw [hloop] at hfr
      have hfe : p1.events = p.events := hfr.1
      have hfo : p1.openers = p.openers := hfr.2.1
      have hlex : p1.lexer.length ≤ p.lexer.length := by
        have h1 := @attrsLoop_lexer_pos (p.lexer.length + 1)
            { p with ok := p.ok && decide (0 < (attrValid ('{' :: p.lexer)).1) }
            (attrValid ('{' :: p.lexer)).2.2
            (if (attrValid ('{' :: p.lexer)).1 = 0 then 2 ^ 64 - 1
            else (attrValid ('{' :: p.lexer)).1 - 1)
            (attrValid ('{' :: p.lexer)).2.1 (by omega) (by omega)
        rw [hloop] at h1
        exact le_trans h1 attrValid_brace_rest_le
      rw [hloop] at h
      simp only [] at h
      cases hasAttr with
      | false =>
        simp at h
        obtain ⟨rfl, rfl⟩ := h
        exact ⟨hfo, hlex, Or.inl ⟨rfl, hfe⟩⟩
      | true =>
        simp at h
        obtain ⟨rfl, rfl⟩ := h
        refine ⟨by simpa using hfo, by simpa using hlex, Or.inr ?_⟩
        cases hrp : rpos? (fun e => !decide (e.kind = EventKind.Str))
            p1.events with
        | some j =>
          simp only [hrp]
          refine ⟨j + 1, p1.span,
            Span.emptyAt (Span.mk' (evAt p1.events (j + 1)).span.start
              (evAt p1.events (p1.events.length - 1)).span.stop).start,
            Span.mk' (evAt p1.events (j + 1)).span.start
              (evAt p1.events (p1.events.length - 1)).span.stop,
            trivial, ?_, ?_, ?_⟩
          · have h3 := rpos?_lt hrp
            rw [hfe] at h3
            omega
          · rw [hfe]
          · intro e he
            have h3 := rpos?_drop hrp
            rw [hfe] at h3
            have h4 := h3 e he
            simpa using h4
        | none =>
          simp only [hrp]
          refine ⟨0, p1.span,
            Span.emptyAt (Span.mk' (evAt p1.events 0).span.start
              (evAt p1.events (p1.events.length - 1)).span.stop).start,
            Span.mk' (evAt p1.events 0).span.start
              (evAt p1.events (p1.events.length - 1)).span.stop,
            trivial, by omega, ?_, ?_⟩
          · rw [hfe]
          · intro e he
            have h3 := rpos?_none hrp
            rw [hfe] at h3
            have h4 := h3 e (by simpa using he)
            simpa using h4
    · rw [if_neg hlen] at h
      simp at h
  · rw [if_neg hg] at h
    simp at h

end Jotdown

namespace Jotdown

/-! ## Shape of `post_span` and the container close path -/

/-- Shape of `postSpan`: either a failure leaving the parser unchanged, or
an `Exit` event whose matching `Enter` overwrites the opener slot, with at
least one lexer character consumed. -/
theorem postSpan_shape {p : Parser} {ty : SpanType} {oe : Nat}
    {ev? : Option Event} {p' : Parser}
    (h : postSpan p ty oe = (ev?, p')) :
    (ev? = none ∧ p' = p) ∨
    (∃ c sp, ev? = some ⟨.Exit c, sp⟩ ∧
      p'.events = setEvent p.events oe ⟨.Enter c, sp⟩ ∧
      p'.openers = p.openers ∧ p'.ok = p.ok ∧
      p'.lexer.length < p.lexer.length) := by
  have hlen : p.lexer.tail.length + 1 = p.lexer.length ∨ p.lexer = [] := by
    cases p.lexer <;> simp
  cases hh : p.lexer.head? with
  | none =>
    simp only [postSpan, hh] at h
    obtain ⟨rfl, rfl⟩ := Prod.mk.injEq .. ▸ h
    exact Or.inl ⟨rfl, rfl⟩
  | some c =>
    have hne : p.lexer ≠ [] := by
      intro hx; rw [hx] at hh; simp at hh
    by_cases h1 : c = '['
    · subst h1
      cases hsc : spanScan '[' ']' p.lexer.tail with
      | none =>
        simp only [postSpan, hh, hsc, if_pos rfl] at h
        obtain ⟨rfl, rfl⟩ := Prod.mk.injEq .. ▸ h
        exact Or.inl ⟨rfl, rfl⟩
      | some pr =>
        obtain ⟨len, rest'⟩ := pr
        simp only [postSpan, hh, hsc, if_pos rfl] at h
        obtain ⟨rfl, rfl⟩ := Prod.mk.injEq .. ▸ h
        refine Or.inr ⟨_, _, rfl, rfl, rfl, rfl, ?_⟩
        have := spanScan_conserve hsc
        rcases hlen with h2 | h2
        · simp only []
          omega
        · exact absurd h2 hne
    · by_cases h2 : c = '('
      · subst h2
        cases hsc : spanScan '(' ')' p.lexer.tail with
        | none =>
          simp only [postSpan, hh, hsc, if_neg h1, if_pos rfl] at h
          obtain ⟨rfl, rfl⟩ := Prod.mk.injEq .. ▸ h
          exact Or.inl ⟨rfl, rfl⟩
        | some pr =>
          obtain ⟨len, rest'⟩ := pr
          simp only [postSpan, hh, hsc, if_neg h1, if_pos rfl] at h
          obtain ⟨rfl, rfl⟩ := Prod.mk.injEq .. ▸ h
          refine Or.inr ⟨_, _, rfl, rfl, rfl, rfl, ?_⟩
          have := spanScan_conserve hsc
          rcases hlen with h3 | h3
          · simp only []
            omega
          · exact absurd h3 hne
      · simp only [postSpan, hh, if_neg h1, if_neg h2] at h
        obtain ⟨rfl, rfl⟩ := Prod.mk.injEq .. ▸ h
        exact Or.inl ⟨rfl, rfl⟩

/-- The opener slot at index `i` is overwritten with an `Enter c` event
(either keeping its span, as `events[i].kind = k` does, or with a fresh
span, as `events[i] = ev` does). -/
def SlotEnter (E E1 : List Event) (i : Nat) (c : Container) : Prop :=
  (∃ sp, E1 = setEvent E i ⟨.Enter c, sp⟩) ∨ E1 = setKind E i (.Enter c)

/-- The buffer is unchanged or the event at index `i` is overwritten with
an `Attributes` event. -/
def MaybeAttr (E E1 : List Event) (i : Nat) : Prop :=
  E1 = E ∨ ∃ sa, E1 = setEvent E i ⟨.Attributes, sa⟩

theorem setEvent_length {es : List Event} {i : Nat} {e : Event} :
    (setEvent es i e).length = es.length := by
  simp [setEvent]

theorem setKind_length {es : List Event} {i : Nat} {k : EventKind} :
    (setKind es i k).length = es.length := by
  unfold setKind
  cases es.get? i <;> simp

theorem SlotEnter_length {E E1 : List Event} {i : Nat} {c : Container}
    (h : SlotEnter E E1 i c) : E1.length = E.length := by
  rcases h with ⟨sp, rfl⟩ | rfl
  · exact setEvent_length
  · exact setKind_length

theorem MaybeAttr_length {E E1 : List Event} {i : Nat}
    (h : MaybeAttr E E1 i) : E1.length = E.length := by
  rcases h with rfl | ⟨sa, rfl⟩
  · rfl
  · exact setEvent_length

/-- Shape of `closeAttrs`: openers, ok and buffer length are preserved, the
lexer never grows, and the buffer either passes through, gains an
`Attributes` overwrite at `eAttr`, or (span promotion) additionally an
`Enter Span` overwrite at `eOpener`. -/
theorem closeAttrs_shape {p2 : Parser} {eAttr eOpener : Nat}
    {event? ev? : Option Event} {p' : Parser}
    (h : closeAttrs p2 eAttr eOpener event? = (ev?, p')) :
    p'.openers = p2.openers ∧ p'.ok = p2.ok ∧
    p'.lexer.length ≤ p2.lexer.length ∧
    p'.events.length = p2.events.length ∧
    ((ev? = event? ∧ p'.events = p2.events) ∨
     (∃ sp, event? = none ∧ ev? = some ⟨.Str, sp⟩ ∧ p'.events = p2.events) ∨
     (∃ ev1 sa, event? = some ev1 ∧ ev? = some ev1 ∧
        p'.events = setEvent p2.events eAttr ⟨.Attributes, sa⟩) ∨
     (∃ sp sa, event? = none ∧ ev? = some ⟨.Exit .Span, sp⟩ ∧
        p'.events =
          setKind (setEvent p2.events eAttr ⟨.Attributes, sa⟩) eOpener
            (.Enter .Span))) := by
  unfold closeAttrs at h
  by_cases hv : 0 < (attrValid p2.lexer).1
  · rw [if_pos hv] at h
    simp only [] at h
    rcases hal : attrsLoop (p2.lexer.length + 1)
        { p2 with span := Span.emptyAt p2.span.stop }
        (attrValid p2.lexer).2.2 (attrValid p2.lexer).1
        (attrValid p2.lexer).2.1 with ⟨p4, hasAttr⟩
    have hfr := @attrsLoop_frame (p2.lexer.length + 1)
        { p2 with span := Span.emptyAt p2.span.stop }
        (attrValid p2.lexer).2.2 (attrValid p2.lexer).1
        (attrValid p2.lexer).2.1
    rw [hal] at hfr
    simp only [] at hfr
    obtain ⟨hfe, hfo, hfk⟩ := hfr
    have hlex : p4.lexer.length ≤ p2.lexer.length := by
      have h1 := @attrsLoop_lexer_pos (p2.lexer.length + 1)
          { p2 with span := Span.emptyAt p2.span.stop }
          (attrValid p2.lexer).2.2 (attrValid p2.lexer).1
          (attrValid p2.lexer).2.1 (by omega) (by omega)
      rw [hal] at h1
      simp only [] at h1
      exact le_trans h1 attrValid_rest_le
    rw [hal] at h
    simp only [] at h
    cases hasAttr with
    | false =>
      simp only [Bool.false_eq_true, if_false] at h
      cases event? with
      | some ev1 =>
        simp only [] at h
        obtain ⟨rfl, rfl⟩ := Prod.mk.injEq .. ▸ h
        exact ⟨hfo, hfk, hlex, by rw [hfe], Or.inl ⟨rfl, hfe⟩⟩
      | none =>
        simp only [] at h
        obtain ⟨rfl, rfl⟩ := Prod.mk.injEq .. ▸ h
        exact ⟨hfo, hfk, hlex, by rw [hfe],
          Or.inr (Or.inl ⟨_, rfl, rfl, hfe⟩)⟩
    | true =>
      simp only [if_true] at h
      cases event? with
      | some ev1 =>
        simp only [] at h
        obtain ⟨rfl, rfl⟩ := Prod.mk.injEq .. ▸ h
        refine ⟨by simpa using hfo, by simpa using hfk, by simpa using hlex,
          by simp [setEvent_length, hfe],
          Or.inr (Or.inr (Or.inl ⟨ev1, p4.span, rfl, rfl, by rw [hfe]⟩))⟩
      | none =>
        simp only [] at h
        obtain ⟨rfl, rfl⟩ := Prod.mk.injEq .. ▸ h
        refine ⟨by simpa using hfo, by simpa using hfk, by simpa using hlex,
          by simp [setKind_length, setEvent_length, hfe],
          Or.inr (Or.inr (Or.inr ⟨p2.span, p4.span, rfl, rfl, by rw [hfe]⟩))⟩
  · rw [if_neg hv] at h
    obtain ⟨rfl, rfl⟩ := Prod.mk.injEq .. ▸ h
    exact ⟨rfl, rfl, le_refl _, rfl, Or.inl ⟨rfl, rfl⟩⟩

/-- Shape of the matched-opener close path, given the matched slot
`(d, e)`: openers are truncated at the match, ok is preserved, the lexer
never grows, the buffer keeps its length, and the event/buffer outcome is
one of: no event with the buffer untouched; a bare `Str` closer; or an
`Exit c` whose `Enter c` overwrites slot `e + 1`, with an optional
`Attributes` overwrite at slot `e` (in either order). -/
theorem closePath_shape {p : Parser} {o : Nat} {ev? : Option Event}
    {p' : Parser} {d : Delim} {e : Nat}
    (hde : (p.openers.drop o).head? = some (d, e))
    (h : closePath p o = (ev?, p')) :
    p'.openers = p.openers.take o ∧ p'.ok = p.ok ∧
    p'.lexer.length ≤ p.lexer.length ∧
    p'.events.length = p.events.length ∧
    ((ev? = none ∧ p'.events = p.events) ∨
     (∃ sp, ev? = some ⟨.Str, sp⟩ ∧ p'.events = p.events) ∨
     (∃ c sp E1, ev? = some ⟨.Exit c, sp⟩ ∧
        SlotEnter p.events E1 (e + 1) c ∧ MaybeAttr E1 p'.events e) ∨
     (∃ c sp E1, ev? = some ⟨.Exit c, sp⟩ ∧
        MaybeAttr p.events E1 e ∧ SlotEnter E1 p'.events (e + 1) c)) := by
  unfold closePath at h
  rw [hde] at h
  simp only [] at h
  cases htf : tryFromDelim d with
  | inr cont =>
    rw [htf] at h
    simp only [] at h
    have hs := closeAttrs_shape h
    obtain ⟨ho, hk, hl, he, hout⟩ := hs
    refine ⟨ho, hk, hl, by simpa [setKind_length] using he, ?_⟩
    rcases hout with ⟨rfl, hev⟩ | ⟨sp, hno, -, -⟩ |
        ⟨ev1, sa, hev1, rfl, hev⟩ | ⟨sp, sa, hno, -, -⟩
    · exact Or.inr (Or.inr (Or.inl ⟨cont, p.span, _, rfl,
        Or.inr rfl, Or.inl hev⟩))
    · exact absurd hno (by simp)
    · obtain rfl := Option.some.injEq .. ▸ hev1
      exact Or.inr (Or.inr (Or.inl ⟨cont, p.span, _, rfl,
        Or.inr rfl, Or.inr ⟨sa, hev⟩⟩))
    · exact absurd hno (by simp)
  | inl ty =>
    rw [htf] at h
    simp only [] at h
    rcases hps : postSpan p ty (e + 1) with ⟨ev1?, p1⟩
    rw [hps] at h
    simp only [] at h
    have hs := closeAttrs_shape h
    obtain ⟨ho, hk, hl, he, hout⟩ := hs
    rcases postSpan_shape hps with ⟨rfl, rfl⟩ |
        ⟨c, sp, rfl, hev1, hop1, hok1, hlx1⟩
    · refine ⟨ho, hk, hl, he, ?_⟩
      rcases hout with ⟨rfl, hev⟩ | ⟨sp, -, rfl, hev⟩ |
          ⟨ev1, sa, hev1, -, -⟩ | ⟨sp, sa, -, rfl, hev⟩
      · exact Or.inl ⟨rfl, hev⟩
      · exact Or.inr (Or.inl ⟨sp, rfl, hev⟩)
      · exact absurd hev1 (by simp)
      · exact Or.inr (Or.inr (Or.inr ⟨.Span, sp, _, rfl,
          Or.inr ⟨sa, rfl⟩, Or.inr hev⟩))
    · refine ⟨by rw [ho, hop1], by rw [hk, hok1],
        le_trans (by simpa using hl) (le_of_lt hlx1),
        by simpa [hev1, setEvent_length] using he, ?_⟩
      rcases hout with ⟨rfl, hev⟩ | ⟨sp2, hno, -, -⟩ |
          ⟨ev1, sa, hev1', rfl, hev⟩ | ⟨sp2, sa, hno, -, -⟩
      · exact Or.inr (Or.inr (Or.inl ⟨c, sp, _, rfl,
          Or.inl ⟨sp, hev1⟩, Or.inl (by rw [hev, hev1])⟩))
      · exact absurd hno (by simp)
      · obtain rfl := Option.some.injEq .. ▸ hev1'
        exact Or.inr (Or.inr (Or.inl ⟨c, sp, _, rfl,
          Or.inl ⟨sp, hev1⟩, Or.inr ⟨sa, by rw [hev, hev1]⟩⟩))
      · exact absurd hno (by simp)

end Jotdown

namespace Jotdown

/-! ## More balance facts at the kind level -/

theorem scanK_eq_of_neutral_head {k : EventKind} (hk : neutralK k = true)
    (l : List EventKind) : ∀ s, scanK (k :: l) s = scanK l s :=
  fun s => scanK_neutral_cons hk l s

theorem balancedK_cons_neutral {k : EventKind} {l : List EventKind}
    (hk : neutralK k = true) : balancedK (k :: l) ↔ balancedK l := by
  unfold balancedK
  rw [scanK_neutral_cons hk]

/-- Replace a block of neutral kinds in the middle by another. -/
theorem balancedK_replace_neutral {A N M B : List EventKind}
    (hN : ∀ k ∈ N, neutralK k = true) (hM : ∀ k ∈ M, neutralK k = true)
    (h : balancedK (A ++ (N ++ B))) : balancedK (A ++ (M ++ B)) := by
  unfold balancedK at *
  rw [scanK_append] at h ⊢
  cases hu : scanK A [] with
  | none => rw [hu] at h; simp at h
  | some u =>
    rw [hu] at h
    simp only [Option.some_bind] at h ⊢
    rw [scanK_append] at h ⊢
    rw [scanK_neutral_list hN u] at h
    rw [scanK_neutral_list hM u]
    simpa using h

/-- The central rewrite-and-close balance step: with a balanced context
`K ++ x0 :: y0 :: T` whose slots `x0`, `y0` are neutral and whose suffix
`y0 :: T` is balanced, replacing `x0` by a neutral `x1`, `y0` by
`Enter c`, and appending `Exit c` stays balanced. -/
theorem balancedK_wrap_rewrite {K T : List EventKind}
    {x0 x1 y0 : EventKind} (c : Container)
    (hbal : balancedK (K ++ x0 :: y0 :: T))
    (hsuf : balancedK (y0 :: T))
    (hx0 : neutralK x0 = true) (hx1 : neutralK x1 = true)
    (hy0 : neutralK y0 = true) :
    balancedK (K ++ x1 :: .Enter c :: (T ++ [.Exit c])) := by
  have hT : balancedK T := (balancedK_cons_neutral hy0).mp hsuf
  have hKx0 : balancedK (K ++ [x0]) := by
    have h1 : balancedK ((K ++ [x0]) ++ (y0 :: T)) := by
      simpa using hbal
    exact balancedK_cancel h1 hsuf
  have hKx1 : balancedK (K ++ [x1]) := by
    have := balancedK_replace_neutral
      (N := [x0]) (M := [x1]) (B := [])
      (by intro k hk; simp at hk; subst hk; exact hx0)
      (by intro k hk; simp at hk; subst hk; exact hx1)
      (by simpa using hKx0)
    simpa using this
  have := balancedK_wrap c hKx1 hT
  simpa using this

/-- A balanced `Enter`/`Str`/`Exit` triple. -/
theorem balancedK_triple (c : Container) :
    balancedK [.Enter c, .Str, .Exit c] := by
  unfold balancedK
  simp [scanK]

/-- A balanced `Attributes`/`Enter`/`Str`/`Exit` quadruple. -/
theorem balancedK_attr_quad :
    balancedK [.Attributes, .Enter .Span, .Str, .Exit .Span] := by
  decide

/-- Balance forces the `Enter(C)`/`Exit(C)` counts to agree, per kind. -/
theorem scanK_count {l : List EventKind} {s s' : List Container}
    (h : scanK l s = some s') (c : Container) :
    l.count (.Enter c) + s.count c = l.count (.Exit c) + s'.count c := by
  induction l generalizing s s' with
  | nil =>
    simp [scanK] at h
    subst h
    simp
  | cons k rest ih =>
    cases k with
    | Enter c' =>
      simp only [scanK] at h
      have := ih (s := c' :: s) h
      by_cases hc : c' = c
      · subst hc
        simp [List.count_cons] at this ⊢
        omega
      · have hne : (EventKind.Enter c' = EventKind.Enter c) = False := by
          simp [hc]
        simp [List.count_cons, hc, hne] at this ⊢
        omega
    | Exit c' =>
      cases s with
      | nil => simp [scanK] at h
      | cons c'' s2 =>
        simp only [scanK] at h
        by_cases he : c' = c''
        · rw [if_pos he] at h
          subst he
          have := ih (s := s2) h
          by_cases hc : c' = c
          · subst hc
            simp [List.count_cons] at this ⊢
            omega
          · have hne : (EventKind.Exit c' = EventKind.Exit c) = False := by
              simp [hc]
            simp [List.count_cons, hc, hne] at this ⊢
            omega
        · rw [if_neg he] at h
          simp at h
    | Atom a => simp only [scanK] at h; have := ih h; simpa [List.count_cons] using this
    | Str => simp only [scanK] at h; have := ih h; simpa [List.count_cons] using this
    | Whitespace => simp only [scanK] at h; have := ih h; simpa [List.count_cons] using this
    | Attributes => simp only [scanK] at h; have := ih h; simpa [List.count_cons] using this
    | Placeholder => simp only [scanK] at h; have := ih h; simpa [List.count_cons] using this

theorem balancedK_count {l : List EventKind} (h : balancedK l)
    (c : Container) : l.count (.Enter c) = l.count (.Exit c) := by
  have := scanK_count h c
  simpa using this

end Jotdown

namespace Jotdown

/-! ## Buffer surgery lemmas -/

theorem kindsOf_append (A B : List Event) :
    kindsOf (A ++ B) = kindsOf A ++ kindsOf B := by
  simp [kindsOf]

theorem kindsOf_drop (A : List Event) (n : Nat) :
    kindsOf (A.drop n) = (kindsOf A).drop n := by
  simp [kindsOf, List.map_drop]

theorem kindsOf_cons (e : Event) (A : List Event) :
    kindsOf (e :: A) = e.kind :: kindsOf A := rfl

theorem evAt_oob {es : List Event} {i : Nat} (h : es.length ≤ i) :
    evAt es i = ⟨.Str, ⟨0, 0⟩⟩ := by
  unfold evAt
  rw [List.drop_eq_nil_of_le h]
  rfl

theorem evAt_set_ne {es : List Event} {i j : Nat} {v : Event} (h : j ≠ i) :
    evAt (setEvent es i v) j = evAt es j := by
  by_cases hj : j < es.length
  · rw [evAt_lt (by simpa [setEvent] using hj), evAt_lt hj]
    exact List.getElem_set_ne (Ne.symm h) _
  · have hs : (setEvent es i v).length ≤ j := by
      simp only [setEvent, List.length_set]
      omega
    rw [evAt_oob hs, evAt_oob (by omega)]

theorem evAt_set_self {es : List Event} {i : Nat} {v : Event}
    (h : i < es.length) :
    evAt (setEvent es i v) i = v := by
  rw [evAt_lt (by simpa [setEvent] using h)]
  exact List.getElem_set_self _

theorem setKind_lt {es : List Event} {i : Nat} {k : EventKind}
    (h : i < es.length) :
    setKind es i k = setEvent es i ⟨k, (evAt es i).span⟩ := by
  unfold setKind setEvent
  rw [List.get?_eq_getElem?, List.getElem?_eq_getElem h]
  rw [evAt_lt h]

/-- Two-slot decomposition of a buffer around index `e`. -/
theorem decomp2 {E : List Event} {e : Nat} (h : e + 1 < E.length) :
    E = E.take e ++ evAt E e :: evAt E (e + 1) :: E.drop (e + 2) ∧
    (E.take e).length = e := by
  have h0 : e < E.length := by omega
  have d1 : E.drop e = E[e] :: E.drop (e + 1) := List.drop_eq_getElem_cons h0
  have d2 : E.drop (e + 1) = E[e + 1] :: E.drop (e + 2) :=
    List.drop_eq_getElem_cons h
  constructor
  · conv_lhs => rw [← List.take_append_drop e E]
    rw [d1, d2, evAt_lt h0, evAt_lt h]
  · simp
    omega

theorem slotEnter_decomp {E E1 : List Event} {e : Nat} {c : Container}
    (hlen : e + 1 < E.length) (h : SlotEnter E E1 (e + 1) c) :
    ∃ v : Event, v.kind = .Enter c ∧ E1 = setEvent E (e + 1) v := by
  rcases h with ⟨sp, rfl⟩ | rfl
  · exact ⟨⟨.Enter c, sp⟩, rfl, rfl⟩
  · rw [setKind_lt hlen]
    exact ⟨⟨.Enter c, (evAt E (e + 1)).span⟩, rfl, rfl⟩

theorem maybeAttr_slotEnter_swap {E E1 E' : List Event} {e : Nat}
    {c : Container} (hlen : e + 1 < E.length)
    (h1 : MaybeAttr E E1 e) (h2 : SlotEnter E1 E' (e + 1) c) :
    ∃ E2, SlotEnter E E2 (e + 1) c ∧ MaybeAttr E2 E' e := by
  rcases h1 with rfl | ⟨sa, rfl⟩
  · exact ⟨E', h2, Or.inl rfl⟩
  · have hlen1 : e + 1 < (setEvent E e ⟨.Attributes, sa⟩).length := by
      simpa [setEvent] using hlen
    obtain ⟨v, hv, rfl⟩ := slotEnter_decomp hlen1 h2
    refine ⟨setEvent E (e + 1) v, Or.inl ⟨v.span, ?_⟩, Or.inr ⟨sa, ?_⟩⟩
    · cases v with
      | mk k s =>
        simp only [] at hv
        rw [hv]
    · unfold setEvent
      exact List.set_comm _ _ _ (by omega)

/-! ## The fill-phase invariant -/

/-- The slots reserved by a live opener record `(d, e)`: index `e + 1` is
in range, slot `e` still holds the `Placeholder` (it is never truncated),
slot `e + 1` holds the tentative `Str` — or the `Attributes` event the
word-attribute path may have written over it — and the buffer from slot
`e + 1` on is balanced. -/
def SlotOk (E : List Event) (de : Delim × Nat) : Prop :=
  de.2 + 1 < E.length ∧
  (evAt E de.2).kind = .Placeholder ∧
  ((evAt E (de.2 + 1)).kind = .Str ∨ (evAt E (de.2 + 1)).kind = .Attributes) ∧
  balancedK (kindsOf (E.drop (de.2 + 1)))

/-- Opener indices increase by at least two along the stack. -/
def Gaps (O : List (Delim × Nat)) : Prop :=
  List.Pairwise (fun a b => a.2 + 2 ≤ b.2) O

/-- The opener-stack half of the invariant (meaningful while input
remains; once the lexer is drained no parse path runs again). -/
def FCore (p : Parser) : Prop :=
  (∀ de ∈ p.openers, SlotOk p.events de) ∧ Gaps p.openers

/-- The run invariant: the released kinds `R` followed by the buffered
kinds are balanced, and while input remains the opener slots are intact. -/
def Inv (R : List EventKind) (p : Parser) : Prop :=
  balancedK (R ++ kindsOf p.events) ∧ (p.lexer ≠ [] → FCore p)

theorem SlotOk_append {E C : List Event} {de : Delim × Nat}
    (h : SlotOk E de) (hC : balancedK (kindsOf C)) : SlotOk (E ++ C) de := by
  obtain ⟨h1, h2, h3, h4⟩ := h
  refine ⟨by simp; omega, ?_, ?_, ?_⟩
  · rw [evAt_append_left (by omega)]
    exact h2
  · rw [evAt_append_left h1]
    exact h3
  · rw [List.drop_append_of_le_length (by omega), kindsOf_append]
    exact balancedK_append h4 hC

end Jotdown

namespace Jotdown

theorem neutralK_of_slotKind {k : EventKind}
    (h : k = .Str ∨ k = .Attributes) : neutralK k = true := by
  rcases h with rfl | rfl <;> rfl

/-- The invariant step for a successful container close: given the matched
opener's slots, rewriting slot `e + 1` to `Enter c` (with an optional
`Attributes` overwrite at `e`) and appending the `Exit c` keeps the
combined stream balanced and every kept opener's slots intact. -/
theorem Inv_close_core {R : List EventKind} {E E' : List Event}
    {O : List (Delim × Nat)} {o : Nat} {d : Delim} {e : Nat}
    {c : Container} {ev : Event}
    (hde : (O.drop o).head? = some (d, e))
    (hSlots : ∀ de ∈ O, SlotOk E de) (hGaps : Gaps O)
    (hA : balancedK (R ++ kindsOf E))
    (hE : ∃ E1, SlotEnter E E1 (e + 1) c ∧ MaybeAttr E1 E' e)
    (hev : ev.kind = .Exit c) :
    balancedK (R ++ kindsOf (E' ++ [ev])) ∧
    (∀ de ∈ O.take o, SlotOk (E' ++ [ev]) de) ∧ Gaps (O.take o) := by
  rw [List.head?_drop] at hde
  obtain ⟨ho, hoe⟩ := List.getElem?_eq_some.mp hde
  have hmem : (d, e) ∈ O := hoe ▸ List.getElem_mem ho
  obtain ⟨hlen, hP, hY, hsufE⟩ := hSlots (d, e) hmem
  simp only [] at hlen hP hY hsufE
  obtain ⟨hdec, hPlen⟩ := decomp2 hlen
  obtain ⟨E1, hSE, hMA⟩ := hE
  obtain ⟨v, hvk, hE1⟩ := slotEnter_decomp hlen hSE
  -- decomposed pieces
  set P := E.take e with hPdef
  set x0 := evAt E e with hx0
  set y0 := evAt E (e + 1) with hy0
  set T := E.drop (e + 2) with hT
  have hE1dec : E1 = P ++ x0 :: v :: T := by
    rw [hE1]
    conv_lhs => rw [hdec]
    have : P ++ x0 :: y0 :: T = (P ++ [x0]) ++ y0 :: T := by simp
    rw [this]
    have hlA : (P ++ [x0]).length = e + 1 := by simp [hPlen]
    rw [← hlA, setEvent_append_exact]
    simp
  obtain hx1 : ∃ x1 : Event, neutralK x1.kind = true ∧ E' = P ++ x1 :: v :: T := by
    rcases hMA with rfl | ⟨sa, hE'⟩
    · refine ⟨x0, ?_, hE1dec⟩
      rw [hP]
      rfl
    · refine ⟨⟨.Attributes, sa⟩, rfl, ?_⟩
      rw [hE', hE1dec, ← hPlen, setEvent_append_exact]
  obtain ⟨x1, hx1n, hE'dec⟩ := hx1
  have hx0n : neutralK x0.kind = true := by
    rw [hP]
    rfl
  have hy0n : neutralK y0.kind = true := neutralK_of_slotKind hY
  have hdropE1 : E.drop (e + 1) = y0 :: T := by
    rw [List.drop_eq_getElem_cons hlen, ← evAt_lt hlen]
  have hsufK : balancedK (y0.kind :: kindsOf T) := by
    have := hsufE
    rw [hdropE1] at this
    exact this
  have hkE : kindsOf E = kindsOf P ++ x0.kind :: y0.kind :: kindsOf T := by
    conv_lhs => rw [hdec]
    simp [kindsOf]
  have hkE' : kindsOf (E' ++ [ev]) =
      kindsOf P ++ x1.kind :: .Enter c :: (kindsOf T ++ [.Exit c]) := by
    rw [hE'dec]
    simp [kindsOf, hvk, hev]
  refine ⟨?_, ?_, hGaps.sublist (List.take_sublist _ _)⟩
  · rw [hkE']
    have hbal : balancedK ((R ++ kindsOf P) ++ x0.kind :: y0.kind :: kindsOf T) := by
      rw [List.append_assoc]
      rw [hkE] at hA
      exact hA
    have := balancedK_wrap_rewrite c hbal hsufK hx0n hx1n hy0n
    rw [List.append_assoc] at this
    exact this
  · intro de' hde'
    have hmem' : de' ∈ O := List.mem_of_mem_take hde'
    obtain ⟨hl_i, hP_i, hY_i, hsuf_i⟩ := hSlots de' hmem'
    obtain ⟨i, hi, hgi⟩ := List.getElem_of_mem hde'
    have hio : i < o := by
      have := hi
      simp at this
      omega
    have hiO : i < O.length := by omega
    have hOi : O[i] = de' := by
      rw [← hgi]
      exact (List.getElem_take ..).symm
    have hgap : de'.2 + 2 ≤ e := by
      have hrel := List.pairwise_iff_getElem.mp hGaps i o (by omega) ho hio
      rw [hOi, hoe] at hrel
      exact hrel
    have hElen : E'.length = E.length := by
      rw [hE'dec]
      conv_rhs => rw [hdec]
      simp
    have hEa : evAt E' de'.2 = evAt E de'.2 := by
      rcases hMA with rfl | ⟨sa, hE'⟩
      · rw [hE1]
        exact evAt_set_ne (by omega)
      · rw [hE', hE1]
        rw [evAt_set_ne (by omega), evAt_set_ne (by omega)]
    have hEb : evAt E' (de'.2 + 1) = evAt E (de'.2 + 1) := by
      rcases hMA with rfl | ⟨sa, hE'⟩
      · rw [hE1]
        exact evAt_set_ne (by omega)
      · rw [hE', hE1]
        rw [evAt_set_ne (by omega), evAt_set_ne (by omega)]
    refine ⟨by simp [hElen]; omega, ?_, ?_, ?_⟩
    · rw [evAt_append_left (by omega), hEa]
      exact hP_i
    · rw [evAt_append_left (by rw [hElen]; omega), hEb]
      exact hY_i
    · rw [List.drop_append_of_le_length (by rw [hElen]; omega), kindsOf_append]
      have hdropP : E'.drop (de'.2 + 1) =
          P.drop (de'.2 + 1) ++ x1 :: v :: T := by
        rw [hE'dec]
        rw [List.drop_append_of_le_length (by rw [hPlen]; omega)]
      have hdropPE : E.drop (de'.2 + 1) =
          P.drop (de'.2 + 1) ++ x0 :: y0 :: T := by
        conv_lhs => rw [hdec]
        rw [List.drop_append_of_le_length (by rw [hPlen]; omega)]
      have hbal2 : balancedK (kindsOf (P.drop (de'.2 + 1)) ++
          x0.kind :: y0.kind :: kindsOf T) := by
        have := hsuf_i
        rw [hdropPE, kindsOf_append] at this
        exact this
      have := balancedK_wrap_rewrite c hbal2 hsufK hx0n hx1n hy0n
      rw [hdropP, kindsOf_append]
      simp only [kindsOf_cons, hvk, hev] at this ⊢
      simpa using this

end Jotdown

namespace Jotdown

/-- Shape of `parseContainer`: either an opener push (possibly on the
state left by a failed close), or a matched close. -/
theorem parseContainer_shape {p : Parser} {first : Token} {ev : Event}
    {p' : Parser} (h : parseContainer p first = some (ev, p')) :
    p'.lexer.length ≤ p.lexer.length ∧ p'.ok = p.ok ∧
    ((∃ delim sp base,
        (base = p.openers ∨
         ∃ o d e, (p.openers.drop o).head? = some (d, e) ∧
           base = p.openers.take o) ∧
        p'.openers = base ++ [(delim, p.events.length)] ∧
        p'.events = p.events ++ [⟨.Placeholder, sp⟩] ∧ ev.kind = .Str) ∨
     (∃ o d e, (p.openers.drop o).head? = some (d, e) ∧
        p'.openers = p.openers.take o ∧ p'.events.length = p.events.length ∧
        ((∃ sp, ev = ⟨.Str, sp⟩ ∧ p'.events = p.events) ∨
         (∃ c sp E1, ev = ⟨.Exit c, sp⟩ ∧
            SlotEnter p.events E1 (e + 1) c ∧ MaybeAttr E1 p'.events e) ∨
         (∃ c sp E1, ev = ⟨.Exit c, sp⟩ ∧
            MaybeAttr p.events E1 e ∧ SlotEnter E1 p'.events (e + 1) c)))) := by
  unfold parseContainer at h
  cases hft : Delim.fromToken first.kind with
  | none => rw [hft] at h; simp at h
  | some dd =>
    obtain ⟨delim, dir⟩ := dd
    rw [hft] at h
    simp only [] at h
    cases hm : rpos? (fun de => de.1 == delim || (de.1.isSpan && delim.isSpan))
        p.openers with
    | none =>
      rw [hm] at h
      simp only [openPath] at h
      obtain ⟨rfl, rfl⟩ := Prod.mk.injEq .. ▸ Option.some.injEq .. ▸ h
      exact ⟨le_refl _, rfl, Or.inl ⟨delim, Span.emptyAt p.span.start, p.openers,
        Or.inl rfl, rfl, rfl, rfl⟩⟩
    | some o =>
      rw [hm] at h
      simp only [] at h
      by_cases hdir : dir = .Close ∨ dir = .Both
      · rw [if_pos hdir] at h
        rcases hcp : closePath p o with ⟨ev?, p2⟩
        rw [hcp] at h
        cases hdd : (p.openers.drop o).head? with
        | none =>
          have : closePath p o = (none, p) := by
            unfold closePath
            rw [hdd]
          rw [this] at hcp
          obtain ⟨rfl, rfl⟩ := Prod.mk.injEq .. ▸ hcp
          simp only [openPath] at h
          obtain ⟨rfl, rfl⟩ := Prod.mk.injEq .. ▸ Option.some.injEq .. ▸ h
          exact ⟨le_refl _, rfl, Or.inl ⟨delim, Span.emptyAt p.span.start, p.openers,
            Or.inl rfl, rfl, rfl, rfl⟩⟩
        | some de0 =>
          obtain ⟨d, e⟩ := de0
          obtain ⟨hop, hok, hlx, hel, hout⟩ := closePath_shape hdd hcp
          cases ev? with
          | some ev0 =>
            simp only [] at h
            obtain ⟨rfl, rfl⟩ := Prod.mk.injEq .. ▸ Option.some.injEq .. ▸ h
            refine ⟨hlx, hok, Or.inr ⟨o, d, e, hdd, hop, hel, ?_⟩⟩
            rcases hout with ⟨hno, -⟩ | hrest
            · exact absurd hno (by simp)
            · rcases hrest with ⟨sp, hsp, hev⟩ | ⟨c, sp, E1, hsp, h1, h2⟩ |
                  ⟨c, sp, E1, hsp, h1, h2⟩
              · exact Or.inl ⟨sp, Option.some.injEq .. ▸ hsp, hev⟩
              · exact Or.inr (Or.inl ⟨c, sp, E1, Option.some.injEq .. ▸ hsp,
                  h1, h2⟩)
              · exact Or.inr (Or.inr ⟨c, sp, E1, Option.some.injEq .. ▸ hsp,
                  h1, h2⟩)
          | none =>
            simp only [openPath] at h
            obtain ⟨rfl, rfl⟩ := Prod.mk.injEq .. ▸ Option.some.injEq .. ▸ h
            rcases hout with ⟨-, hev⟩ | ⟨sp, hsp, -⟩ | ⟨c, sp, E1, hsp, -⟩ |
                ⟨c, sp, E1, hsp, -⟩
            · refine ⟨hlx, hok, Or.inl ⟨delim, Span.emptyAt p2.span.start,
                p.openers.take o, Or.inr ⟨o, d, e, hdd, rfl⟩, ?_, ?_, rfl⟩⟩
              · rw [hop, hev]
              · rw [hev]
            · exact absurd hsp (by simp)
            · exact absurd hsp (by simp)
            · exact absurd hsp (by simp)
      · rw [if_neg hdir] at h
        simp only [openPath] at h
        obtain ⟨rfl, rfl⟩ := Prod.mk.injEq .. ▸ Option.some.injEq .. ▸ h
        exact ⟨le_refl _, rfl, Or.inl ⟨delim, Span.emptyAt p.span.start,
          p.openers, Or.inl rfl, rfl, rfl, rfl⟩⟩

end Jotdown

namespace Jotdown

set_option maxHeartbeats 4000000 in
/-- The lexer is total on nonempty input. -/
theorem lexNext_ne_none (c : Char) (rest : List Char) :
    lexNext (c :: rest) ≠ none := by
  have hx1 : ('$' = btChar) = False := eq_false (by decide)
  have hx2 : ('.' = btChar) = False := eq_false (by decide)
  have hx3 : ('-' = btChar) = False := eq_false (by decide)
  have hx4 : ('\n' = btChar) = False := eq_false (by decide)
  have hx5 : ('\\' = btChar) = False := eq_false (by decide)
  have hx6 : ('{' = btChar) = False := eq_false (by decide)
  have hx7 : ('}' = btChar) = False := eq_false (by decide)
  have hx8 : ('[' = btChar) = False := eq_false (by decide)
  have hx9 : (']' = btChar) = False := eq_false (by decide)
  have hx10 : ('!' = btChar) = False := eq_false (by decide)
  have hy0 : (nbspChar = btChar) = False := eq_false (by decide)
  have hy1 : (nbspChar = '$') = False := eq_false (by decide)
  have hy2 : (nbspChar = '.') = False := eq_false (by decide)
  have hy3 : (nbspChar = '-') = False := eq_false (by decide)
  have hy4 : (nbspChar = '\n') = False := eq_false (by decide)
  have hy5 : (nbspChar = ' ') = False := eq_false (by decide)
  have hy6 : (nbspChar = '\t') = False := eq_false (by decide)
  have hz1 : ('\\' = nbspChar) = False := eq_false (by decide)
  have hz2 : ('{' = nbspChar) = False := eq_false (by decide)
  have hz3 : ('}' = nbspChar) = False := eq_false (by decide)
  have hz4 : ('[' = nbspChar) = False := eq_false (by decide)
  have hz5 : (']' = nbspChar) = False := eq_false (by decide)
  have hz6 : ('!' = nbspChar) = False := eq_false (by decide)
  by_cases q1 : c = btChar
  · simp [lexNext, q1, hx1, hx2, hx3, hx4, hx5, hx6, hx7, hx8, hx9, hx10, hy0, hy1, hy2, hy3, hy4, hy5, hy6, hz1, hz2, hz3, hz4, hz5, hz6]
  by_cases q2 : c = '$'
  · simp [lexNext, q1, q2, hx1, hx2, hx3, hx4, hx5, hx6, hx7, hx8, hx9, hx10, hy0, hy1, hy2, hy3, hy4, hy5, hy6, hz1, hz2, hz3, hz4, hz5, hz6]
  by_cases q3 : c = '.'
  · simp [lexNext, q1, q2, q3, hx1, hx2, hx3, hx4, hx5, hx6, hx7, hx8, hx9, hx10, hy0, hy1, hy2, hy3, hy4, hy5, hy6, hz1, hz2, hz3, hz4, hz5, hz6]
  by_cases q4 : c = '-'
  · by_cases q4a : rest.head? = some '}'
    · simp [lexNext, q1, q2, q3, q4, q4a, hx1, hx2, hx3, hx4, hx5, hx6, hx7, hx8, hx9, hx10, hy0, hy1, hy2, hy3, hy4, hy5, hy6, hz1, hz2, hz3, hz4, hz5, hz6]
    · simp [lexNext, q1, q2, q3, q4, q4a, hx1, hx2, hx3, hx4, hx5, hx6, hx7, hx8, hx9, hx10, hy0, hy1, hy2, hy3, hy4, hy5, hy6, hz1, hz2, hz3, hz4, hz5, hz6]
  by_cases q5 : c = '\n'
  · simp [lexNext, q1, q2, q3, q4, q5, hx1, hx2, hx3, hx4, hx5, hx6, hx7, hx8, hx9, hx10, hy0, hy1, hy2, hy3, hy4, hy5, hy6, hz1, hz2, hz3, hz4, hz5, hz6]
  by_cases q6 : c = ' ' ∨ c = '\t'
  · simp [lexNext, q1, q2, q3, q4, q5, q6, hx1, hx2, hx3, hx4, hx5, hx6, hx7, hx8, hx9, hx10, hy0, hy1, hy2, hy3, hy4, hy5, hy6, hz1, hz2, hz3, hz4, hz5, hz6]
  by_cases q7 : c = nbspChar
  · simp [lexNext, q1, q2, q3, q4, q5, q6, q7, hx1, hx2, hx3, hx4, hx5, hx6, hx7, hx8, hx9, hx10, hy0, hy1, hy2, hy3, hy4, hy5, hy6, hz1, hz2, hz3, hz4, hz5, hz6]
  by_cases q8 : c = '\\'
  · cases hd : rest.head? with
    | none => simp [lexNext, q1, q2, q3, q4, q5, q6, q7, q8, hd, hx1, hx2, hx3, hx4, hx5, hx6, hx7, hx8, hx9, hx10, hy0, hy1, hy2, hy3, hy4, hy5, hy6, hz1, hz2, hz3, hz4, hz5, hz6]
    | some d =>
      by_cases q8a : d = ' '
      · by_cases q8c : rest[1]? = some '\n'
        · simp [lexNext, q1, q2, q3, q4, q5, q6, q7, q8, hd, q8a, q8c, hx1, hx2, hx3, hx4, hx5, hx6, hx7, hx8, hx9, hx10, hy0, hy1, hy2, hy3, hy4, hy5, hy6, hz1, hz2, hz3, hz4, hz5, hz6]
        · simp [lexNext, q1, q2, q3, q4, q5, q6, q7, q8, hd, q8a, q8c, hx1, hx2, hx3, hx4, hx5, hx6, hx7, hx8, hx9, hx10, hy0, hy1, hy2, hy3, hy4, hy5, hy6, hz1, hz2, hz3, hz4, hz5, hz6]
      · by_cases q8b : isPunct d ∨ d = '\n'
        · simp [lexNext, q1, q2, q3, q4, q5, q6, q7, q8, hd, q8a, q8b, hx1, hx2, hx3, hx4, hx5, hx6, hx7, hx8, hx9, hx10, hy0, hy1, hy2, hy3, hy4, hy5, hy6, hz1, hz2, hz3, hz4, hz5, hz6]
        · simp [lexNext, q1, q2, q3, q4, q5, q6, q7, q8, hd, q8a, q8b, hx1, hx2, hx3, hx4, hx5, hx6, hx7, hx8, hx9, hx10, hy0, hy1, hy2, hy3, hy4, hy5, hy6, hz1, hz2, hz3, hz4, hz5, hz6]
  by_cases q9 : c = '{'
  · cases hd : rest.head? with
    | none => simp [lexNext, q1, q2, q3, q4, q5, q6, q7, q8, q9, hd, hx1, hx2, hx3, hx4, hx5, hx6, hx7, hx8, hx9, hx10, hy0, hy1, hy2, hy3, hy4, hy5, hy6, hz1, hz2, hz3, hz4, hz5, hz6]
    | some d =>
      cases hb : braceTag? d with
      | some del => simp [lexNext, q1, q2, q3, q4, q5, q6, q7, q8, q9, hd, hb, hx1, hx2, hx3, hx4, hx5, hx6, hx7, hx8, hx9, hx10, hy0, hy1, hy2, hy3, hy4, hy5, hy6, hz1, hz2, hz3, hz4, hz5, hz6]
      | none => simp [lexNext, q1, q2, q3, q4, q5, q6, q7, q8, q9, hd, hb, hx1, hx2, hx3, hx4, hx5, hx6, hx7, hx8, hx9, hx10, hy0, hy1, hy2, hy3, hy4, hy5, hy6, hz1, hz2, hz3, hz4, hz5, hz6]
  by_cases q10 : c = '}'
  · simp [lexNext, q1, q2, q3, q4, q5, q6, q7, q8, q9, q10, hx1, hx2, hx3, hx4, hx5, hx6, hx7, hx8, hx9, hx10, hy0, hy1, hy2, hy3, hy4, hy5, hy6, hz1, hz2, hz3, hz4, hz5, hz6]
  by_cases q11 : c = '['
  · simp [lexNext, q1, q2, q3, q4, q5, q6, q7, q8, q9, q10, q11, hx1, hx2, hx3, hx4, hx5, hx6, hx7, hx8, hx9, hx10, hy0, hy1, hy2, hy3, hy4, hy5, hy6, hz1, hz2, hz3, hz4, hz5, hz6]
  by_cases q12 : c = ']'
  · simp [lexNext, q1, q2, q3, q4, q5, q6, q7, q8, q9, q10, q11, q12, hx1, hx2, hx3, hx4, hx5, hx6, hx7, hx8, hx9, hx10, hy0, hy1, hy2, hy3, hy4, hy5, hy6, hz1, hz2, hz3, hz4, hz5, hz6]
  by_cases q13 : c = '!'
  · by_cases q13a : rest.head? = some '['
    · simp [lexNext, q1, q2, q3, q4, q5, q6, q7, q8, q9, q10, q11, q12, q13, q13a, hx1, hx2, hx3, hx4, hx5, hx6, hx7, hx8, hx9, hx10, hy0, hy1, hy2, hy3, hy4, hy5, hy6, hz1, hz2, hz3, hz4, hz5, hz6]
    · simp [lexNext, q1, q2, q3, q4, q5, q6, q7, q8, q9, q10, q11, q12, q13, q13a, hx1, hx2, hx3, hx4, hx5, hx6, hx7, hx8, hx9, hx10, hy0, hy1, hy2, hy3, hy4, hy5, hy6, hz1, hz2, hz3, hz4, hz5, hz6]
  cases hb : braceTag? c with
  | some del =>
    by_cases qz : rest.head? = some '}'
    · simp [lexNext, q1, q2, q3, q4, q5, q6, q7, q8, q9, q10, q11, q12, q13, hb, qz, hx1, hx2, hx3, hx4, hx5, hx6, hx7, hx8, hx9, hx10, hy0, hy1, hy2, hy3, hy4, hy5, hy6, hz1, hz2, hz3, hz4, hz5, hz6]
    · cases hs : symTag? c with
      | some sy => simp [lexNext, q1, q2, q3, q4, q5, q6, q7, q8, q9, q10, q11, q12, q13, hb, qz, hs, hx1, hx2, hx3, hx4, hx5, hx6, hx7, hx8, hx9, hx10, hy0, hy1, hy2, hy3, hy4, hy5, hy6, hz1, hz2, hz3, hz4, hz5, hz6]
      | none => simp [lexNext, q1, q2, q3, q4, q5, q6, q7, q8, q9, q10, q11, q12, q13, hb, qz, hs, hx1, hx2, hx3, hx4, hx5, hx6, hx7, hx8, hx9, hx10, hy0, hy1, hy2, hy3, hy4, hy5, hy6, hz1, hz2, hz3, hz4, hz5, hz6]
  | none =>
    cases hs : symTag? c with
    | some sy => simp [lexNext, q1, q2, q3, q4, q5, q6, q7, q8, q9, q10, q11, q12, q13, hb, hs, hx1, hx2, hx3, hx4, hx5, hx6, hx7, hx8, hx9, hx10, hy0, hy1, hy2, hy3, hy4, hy5, hy6, hz1, hz2, hz3, hz4, hz5, hz6]
    | none => simp [lexNext, q1, q2, q3, q4, q5, q6, q7, q8, q9, q10, q11, q12, q13, hb, hs, hx1, hx2, hx3, hx4, hx5, hx6, hx7, hx8, hx9, hx10, hy0, hy1, hy2, hy3, hy4, hy5, hy6, hz1, hz2, hz3, hz4, hz5, hz6]

end Jotdown


namespace Jotdown

theorem balancedK_single_neutral {k : EventKind} (h : neutralK k = true) :
    balancedK [k] :=
  balancedK_neutral (by intro x hx; simp at hx; subst hx; exact h)

/-- Appending a balanced chunk preserves the stream balance and every
opener's slots. -/
theorem invStep_append {R : List EventKind} {E C : List Event}
    {O : List (Delim × Nat)}
    (hA : balancedK (R ++ kindsOf E))
    (hS : ∀ de ∈ O, SlotOk E de) (hC : balancedK (kindsOf C)) :
    balancedK (R ++ kindsOf (E ++ C)) ∧ (∀ de ∈ O, SlotOk (E ++ C) de) := by
  constructor
  · rw [kindsOf_append, ← List.append_assoc]
    exact balancedK_append hA hC
  · intro de hde
    exact SlotOk_append (hS de hde) hC

theorem evAt_take_lt {E : List Event} {i j : Nat} (h1 : j < i)
    (h2 : j < E.length) : evAt (E.take i) j = evAt E j := by
  rw [evAt_lt (by simp; omega), evAt_lt h2]
  exact List.getElem_take ..

theorem drop_take_split {E : List Event} {i j : Nat} (h1 : j ≤ i)
    (h2 : i ≤ E.length) : E.drop j = (E.take i).drop j ++ E.drop i := by
  conv_lhs => rw [← List.take_append_drop i E]
  rw [List.drop_append_of_le_length (by simp; omega)]

/-- The slots a fresh opener reserves are well formed. -/
theorem SlotOk_new {E : List Event} {x ev : Event} {d0 : Delim}
    (hx : x.kind = .Placeholder) (hek : ev.kind = .Str) :
    SlotOk (E ++ [x, ev]) (d0, E.length) := by
  unfold SlotOk
  simp only []
  refine ⟨by simp, ?_, ?_, ?_⟩
  · rw [evAt_append_exact]
    exact hx
  · left
    have h1 : E ++ [x, ev] = (E ++ [x]) ++ ev :: [] := by simp
    have h2 : (E ++ [x]).length = E.length + 1 := by simp
    rw [h1, ← h2, evAt_append_exact]
    exact hek
  · have h1 : E ++ [x, ev] = (E ++ [x]) ++ [ev] := by simp
    rw [h1, List.drop_append_of_le_length (by simp),
      List.drop_eq_nil_of_le (by simp)]
    show balancedK [ev.kind]
    rw [hek]
    exact balancedK_single_neutral rfl

end Jotdown

namespace Jotdown

set_option maxHeartbeats 4000000 in
/-- The master invariant-preservation step: one successful `parse_event`
keeps the stream (released kinds, then buffered kinds, then the event
about to be pushed) balanced and every live opener's slots intact,
consumes at least one character, and appends at most three buffered
events. -/
theorem parseEvent_step {R : List EventKind} {p : Parser} {ev : Event}
    {p' : Parser}
    (hA : balancedK (R ++ kindsOf p.events))
    (hS : ∀ de ∈ p.openers, SlotOk p.events de) (hG : Gaps p.openers)
    (h : parseEvent p = (some ev, p')) :
    balancedK (R ++ kindsOf (p'.events ++ [ev])) ∧
    (∀ de ∈ p'.openers, SlotOk (p'.events ++ [ev]) de) ∧ Gaps p'.openers ∧
    p'.lexer.length < p.lexer.length ∧
    p'.events.length ≤ p.events.length + 3 := by
  unfold parseEvent at h
  simp only [] at h
  cases he : (p.resetSpan).eat with
  | none =>
    rw [he] at h
    simp at h
  | some fp =>
    obtain ⟨first, p1⟩ := fp
    rw [he] at h
    simp only [] at h
    obtain ⟨hlex, hp1⟩ := eat_eq he
    have hp1e : p1.events = p.events := by
      rw [hp1]
      rfl
    have hp1o : p1.openers = p.openers := by
      rw [hp1]
      rfl
    have hp1l : p1.lexer.length < p.lexer.length := by
      have := lexNext_shrink hlex
      simpa [Parser.resetSpan] using this
    cases hv : parseVerbatim p1 first with
    | some evp =>
      obtain ⟨ev0, p2⟩ := evp
      rw [hv] at h
      obtain ⟨hev9, rfl⟩ := Prod.mk.injEq .. ▸ h
      obtain rfl := (Option.some.injEq .. ▸ hev9).symm
      obtain ⟨k, s1, s2, hE2, hevk, hop2, -, hlx2⟩ := parseVerbatim_shape hv
      rw [hp1e] at hE2
      rw [hp1o] at hop2
      have hC : balancedK
          (kindsOf [(⟨.Enter k, s1⟩ : Event), ⟨.Str, s2⟩, ev]) := by
        show balancedK [.Enter k, .Str, ev.kind]
        rw [hevk]
        exact balancedK_triple k
      have hmain := invStep_append (C := [⟨.Enter k, s1⟩, ⟨.Str, s2⟩, ev])
        hA hS hC
      refine ⟨?_, ?_, hop2 ▸ hG, by omega, by rw [hE2]; simp⟩
      · have := hmain.1
        rw [hE2]
        simpa using this
      · intro de hde
        rw [hop2] at hde
        have := hmain.2 de hde
        rw [hE2]
        simpa using this
    | none =>
    rw [hv] at h
    cases ha : parseAttributes p1 first with
    | some evp =>
      obtain ⟨ev0, p2⟩ := evp
      rw [ha] at h
      obtain ⟨hev9, rfl⟩ := Prod.mk.injEq .. ▸ h
      obtain rfl := (Option.some.injEq .. ▸ hev9).symm
      obtain ⟨hop2, hlx2, hout⟩ := parseAttributes_shape ha
      rw [hp1e] at hout
      rw [hp1o] at hop2
      rcases hout with ⟨hevk, hE2⟩ | ⟨i, sa, sb, sc, hevk, hi, hE2, hdrop⟩
      · have hC : balancedK (kindsOf [ev]) := by
          show balancedK [ev.kind]
          exact balancedK_single_neutral (by rw [hevk]; rfl)
        have hmain := invStep_append (C := [ev]) hA hS hC
        refine ⟨?_, ?_, hop2 ▸ hG, by omega, by rw [hE2]; simp⟩
        · rw [hE2]
          exact hmain.1
        · intro de hde
          rw [hop2] at hde
          rw [hE2]
          exact hmain.2 de hde
      · have htl : (p.events.take i).length = i := by simp; omega
        have hdropN : ∀ k ∈ kindsOf (p.events.drop i), neutralK k = true := by
          intro k hk
          obtain ⟨e, he1, rfl⟩ := List.mem_map.mp hk
          rw [hdrop e he1]
          rfl
        have hAt : balancedK (R ++ kindsOf (p.events.take i)) := by
          have h1 : balancedK ((R ++ kindsOf (p.events.take i)) ++
              kindsOf (p.events.drop i)) := by
            have h2 := hA
            conv at h2 =>
              rw [← List.take_append_drop i p.events, kindsOf_append,
                ← List.append_assoc]
            exact h2
          exact balancedK_of_append_neutral h1 hdropN
        have hquadK : kindsOf ([(⟨.Attributes, sa⟩ : Event),
            ⟨.Enter .Span, sb⟩, ⟨.Str, sc⟩] ++ [ev]) =
            [.Attributes, .Enter .Span, .Str, .Exit .Span] := by
          simp [kindsOf, hevk]
        have hEq : p2.events ++ [ev] = p.events.take i ++
            ([(⟨.Attributes, sa⟩ : Event), ⟨.Enter .Span, sb⟩,
              ⟨.Str, sc⟩] ++ [ev]) := by
          rw [hE2]
          simp
        refine ⟨?_, ?_, hop2 ▸ hG, by omega, by
          rw [hE2]
          simp only [List.length_append, List.length_take, List.length_cons,
            List.length_nil]
          omega⟩
        · rw [hEq, kindsOf_append, hquadK, ← List.append_assoc]
          exact balancedK_append hAt balancedK_attr_quad
        · intro de hde
          rw [hop2] at hde
          obtain ⟨hl_i, hP_i, hY_i, hsuf_i⟩ := hS de hde
          have hlt : de.2 < i := by
            by_contra hge
            push_neg at hge
            have hlt2 : de.2 - i < (p.events.drop i).length := by
              simp
              omega
            have hlt3 : de.2 < p.events.length := by omega
            have hmem2 : (p.events.drop i)[de.2 - i] ∈ p.events.drop i :=
              List.getElem_mem _
            have hstr := hdrop _ hmem2
            have hgd : (p.events.drop i)[de.2 - i] =
                p.events[de.2] := by
              rw [List.getElem_drop]
              congr 1
              omega
            rw [hgd] at hstr
            rw [evAt_lt (by omega)] at hP_i
            rw [hP_i] at hstr
            simp at hstr
          refine ⟨?_, ?_, ?_, ?_⟩
          · rw [hE2]
            simp
            omega
          · rw [hEq, evAt_append_left (by rw [htl]; omega),
              evAt_take_lt hlt (by omega)]
            exact hP_i
          · by_cases hcase : de.2 + 1 < i
            · rw [hEq, evAt_append_left (by rw [htl]; omega),
                evAt_take_lt hcase (by omega)]
              exact hY_i
            · have hei : de.2 + 1 = i := by omega
              right
              rw [hEq]
              have hgoal := @evAt_append_exact (p.events.take i)
                ([(⟨.Enter .Span, sb⟩ : Event), ⟨.Str, sc⟩] ++ [ev])
                ⟨.Attributes, sa⟩
              rw [htl] at hgoal
              rw [hei]
              simp only [List.cons_append, List.nil_append] at hgoal ⊢
              rw [hgoal]
          · rw [hEq, List.drop_append_of_le_length (by rw [htl]; omega),
              kindsOf_append]
            have hsufT : balancedK
                (kindsOf ((p.events.take i).drop (de.2 + 1))) := by
              have h1 := hsuf_i
              rw [drop_take_split (i := i) (by omega) (by omega), kindsOf_append] at h1
              exact balancedK_of_append_neutral h1 hdropN
            rw [hquadK]
            exact balancedK_append hsufT balancedK_attr_quad
    | none =>
    rw [ha] at h
    cases hau : parseAutolink p1 first with
    | some evp =>
      obtain ⟨ev0, p2⟩ := evp
      rw [hau] at h
      obtain ⟨hev9, rfl⟩ := Prod.mk.injEq .. ▸ h
      obtain rfl := (Option.some.injEq .. ▸ hev9).symm
      obtain ⟨⟨s1, s2, hE2⟩, hevk, hop2, -, hlx2⟩ := parseAutolink_shape hau
      rw [hp1e] at hE2
      rw [hp1o] at hop2
      have hC : balancedK
          (kindsOf [(⟨.Enter .Autolink, s1⟩ : Event), ⟨.Str, s2⟩, ev]) := by
        show balancedK [.Enter .Autolink, .Str, ev.kind]
        rw [hevk]
        exact balancedK_triple .Autolink
      have hmain := invStep_append (C := [⟨.Enter .Autolink, s1⟩, ⟨.Str, s2⟩, ev])
        hA hS hC
      refine ⟨?_, ?_, hop2 ▸ hG, by omega, by rw [hE2]; simp⟩
      · have := hmain.1
        rw [hE2]
        simpa using this
      · intro de hde
        rw [hop2] at hde
        have := hmain.2 de hde
        rw [hE2]
        simpa using this
    | none =>
    rw [hau] at h
    cases hc : parseContainer p1 first with
    | some evp =>
      obtain ⟨ev0, p2⟩ := evp
      rw [hc] at h
      obtain ⟨hev9, rfl⟩ := Prod.mk.injEq .. ▸ h
      obtain rfl := (Option.some.injEq .. ▸ hev9).symm
      obtain ⟨hlx2, -, hout⟩ := parseContainer_shape hc
      rcases hout with ⟨delim, sp, base, hbase, hop2, hE2, hevk⟩ |
          ⟨o, d, e, hdd, hop2, hel, hsub⟩
      · -- opener push
        rw [hp1e] at hE2 hop2
        rw [hp1o] at hbase
        have hbmem : ∀ de ∈ base, de ∈ p.openers := by
          rcases hbase with rfl | ⟨o, d, e, -, rfl⟩
          · intro de hde
            exact hde
          · intro de hde
            exact List.mem_of_mem_take hde
        have hCk : kindsOf [(⟨.Placeholder, sp⟩ : Event), ev] =
            [.Placeholder, .Str] := by
          simp [kindsOf, hevk]
        have hC : balancedK (kindsOf [(⟨.Placeholder, sp⟩ : Event), ev]) := by
          rw [hCk]
          refine balancedK_neutral ?_
          intro k hk
          simp at hk
          rcases hk with rfl | rfl <;> rfl
        have hEE : p2.events ++ [ev] = p.events ++
            [(⟨.Placeholder, sp⟩ : Event), ev] := by
          rw [hE2]
          simp
        refine ⟨?_, ?_, ?_, by omega, by rw [hE2]; simp⟩
        · rw [hEE]
          exact (invStep_append hA hS hC).1
        · intro de hde
          rw [hop2] at hde
          rcases List.mem_append.mp hde with hmem | hnew
          · rw [hEE]
            exact (invStep_append hA hS hC).2 de (hbmem de hmem)
          · have hde2 : de = (delim, p.events.length) := by simpa using hnew
            subst hde2
            rw [hEE]
            exact SlotOk_new rfl hevk
        · rw [hop2]
          refine List.pairwise_append.mpr ⟨?_, List.pairwise_singleton .. , ?_⟩
          · rcases hbase with rfl | ⟨o, d, e, -, rfl⟩
            · exact hG
            · exact hG.sublist (List.take_sublist _ _)
          · intro a ha' b hb'
            have hb2 : b = (delim, p.events.length) := by simpa using hb'
            subst hb2
            have := (hS a (hbmem a ha')).1
            simp only []
            omega
      · -- matched close
        rw [hp1o] at hdd hop2
        rw [hp1e] at hsub hel
        have hmemM : (d, e) ∈ p.openers := by
          rw [List.head?_drop] at hdd
          obtain ⟨ho2, hoe2⟩ := List.getElem?_eq_some.mp hdd
          exact hoe2 ▸ List.getElem_mem ho2
        rcases hsub with ⟨sp, hev0, hE2⟩ | ⟨c, sp, E1, hev0, h1, h2⟩ |
            ⟨c, sp, E1, hev0, h1, h2⟩
        · have hC : balancedK (kindsOf [ev]) := by
            show balancedK [ev.kind]
            rw [hev0]
            exact balancedK_single_neutral rfl
          refine ⟨?_, ?_, ?_, by omega, by rw [hE2]; omega⟩
          · rw [hE2]
            exact (invStep_append hA hS hC).1
          · intro de hde
            rw [hop2] at hde
            rw [hE2]
            exact (invStep_append hA hS hC).2 de (List.mem_of_mem_take hde)
          · rw [hop2]
            exact hG.sublist (List.take_sublist _ _)
        · obtain ⟨hbal', hslots', hgaps'⟩ :=
            @Inv_close_core R p.events p2.events p.openers o d e c ev hdd
              hS hG hA ⟨E1, h1, h2⟩ (by rw [hev0])
          exact ⟨hbal', by rw [hop2]; exact hslots', by rw [hop2]; exact hgaps',
            by omega, by omega⟩
        · have hlenm : e + 1 < p.events.length := (hS (d, e) hmemM).1
          obtain ⟨E2, h1', h2'⟩ := maybeAttr_slotEnter_swap hlenm h1 h2
          obtain ⟨hbal', hslots', hgaps'⟩ :=
            @Inv_close_core R p.events p2.events p.openers o d e c ev hdd
              hS hG hA ⟨E2, h1', h2'⟩ (by rw [hev0])
          exact ⟨hbal', by rw [hop2]; exact hslots', by rw [hop2]; exact hgaps',
            by omega, by omega⟩
    | none =>
    rw [hc] at h
    cases hat : parseAtom p1 first with
    | some evp =>
      obtain ⟨ev0, p2⟩ := evp
      rw [hat] at h
      obtain ⟨hev9, rfl⟩ := Prod.mk.injEq .. ▸ h
      obtain rfl := (Option.some.injEq .. ▸ hev9).symm
      obtain ⟨rfl, a, hevk⟩ := parseAtom_shape hat
      have hC : balancedK (kindsOf [ev]) := by
        show balancedK [ev.kind]
        rw [hevk]
        exact balancedK_single_neutral rfl
      refine ⟨?_, ?_, hp1o ▸ hG, by omega, by rw [hp1e]; omega⟩
      · rw [hp1e]
        exact (invStep_append hA hS hC).1
      · intro de hde
        rw [hp1o] at hde
        rw [hp1e]
        exact (invStep_append hA hS hC).2 de hde
    | none =>
      rw [hat] at h
      obtain ⟨hev9, rfl⟩ := Prod.mk.injEq .. ▸ h
      obtain rfl := (Option.some.injEq .. ▸ hev9).symm
      have hkn : neutralK (if first.kind = .Whitespace
          then EventKind.Whitespace else .Str) = true := by
        by_cases hw : first.kind = .Whitespace
        · rw [if_pos hw]
          rfl
        · rw [if_neg hw]
          rfl
      have hC : balancedK (kindsOf
          [(⟨if first.kind = .Whitespace then .Whitespace else .Str,
            p1.span⟩ : Event)]) := by
        show balancedK [if first.kind = .Whitespace
          then EventKind.Whitespace else .Str]
        exact balancedK_single_neutral hkn
      refine ⟨?_, ?_, hp1o ▸ hG, by omega, by rw [hp1e]; omega⟩
      · rw [hp1e]
        exact (invStep_append hA hS hC).1
      · intro de hde
        rw [hp1o] at hde
        rw [hp1e]
        exact (invStep_append hA hS hC).2 de hde

end Jotdown

namespace Jotdown

/-! ## Driving the iterator: measure and loop invariants -/

/-- Termination measure: four budget units per unread character cover the
at most three buffered events plus one released event a step can create. -/
def msr (p : Parser) : Nat := 4 * p.lexer.length + p.events.length

theorem parseEvent_some_ne {p : Parser} {ev : Event} {p' : Parser}
    (h : parseEvent p = (some ev, p')) : p.lexer ≠ [] := by
  unfold parseEvent at h
  simp only [] at h
  cases he : (p.resetSpan).eat with
  | none =>
    rw [he] at h
    simp at h
  | some fp =>
    obtain ⟨first, p1⟩ := fp
    obtain ⟨hlex, -⟩ := eat_eq he
    intro hnil
    have : p.resetSpan.lexer = ([] : List Char) := hnil
    rw [this] at hlex
    simp [lexNext] at hlex

theorem parseEvent_none {p p' : Parser} (h : parseEvent p = (none, p')) :
    p' = p.resetSpan ∧ p.lexer = [] := by
  unfold parseEvent at h
  simp only [] at h
  cases he : (p.resetSpan).eat with
  | none =>
    rw [he] at h
    obtain ⟨-, rfl⟩ := Prod.mk.injEq .. ▸ h
    refine ⟨rfl, ?_⟩
    have hl := eat_none he
    cases hc : p.lexer with
    | nil => rfl
    | cons c rest =>
      have : p.resetSpan.lexer = c :: rest := hc
      rw [this] at hl
      exact absurd hl (lexNext_ne_none c rest)
  | some fp =>
    obtain ⟨first, p1⟩ := fp
    rw [he] at h
    simp only [] at h
    cases hv : parseVerbatim p1 first with
    | some evp =>
      obtain ⟨ev0, p2⟩ := evp
      rw [hv] at h
      simp at h
    | none =>
    rw [hv] at h
    cases ha : parseAttributes p1 first with
    | some evp =>
      obtain ⟨ev0, p2⟩ := evp
      rw [ha] at h
      simp at h
    | none =>
    rw [ha] at h
    cases hau : parseAutolink p1 first with
    | some evp =>
      obtain ⟨ev0, p2⟩ := evp
      rw [hau] at h
      simp at h
    | none =>
    rw [hau] at h
    cases hc : parseContainer p1 first with
    | some evp =>
      obtain ⟨ev0, p2⟩ := evp
      rw [hc] at h
      simp at h
    | none =>
    rw [hc] at h
    cases hat : parseAtom p1 first with
    | some evp =>
      obtain ⟨ev0, p2⟩ := evp
      rw [hat] at h
      simp at h
    | none =>
      rw [hat] at h
      simp at h

theorem neutral_of_merge {k : EventKind} (h : isMergeK k = true) :
    neutralK k = true := by
  cases k <;> first | rfl | simp [isMergeK] at h

/-- The merge loop consumes a mergeable prefix. -/
theorem mergeLoop_split : ∀ (es : List Event) (sp : Span) (okAcc : Bool),
    ∃ pre, es = pre ++ (mergeLoop es sp okAcc).2.1 ∧
      ∀ e ∈ pre, isMergeK e.kind = true := by
  intro es
  induction es with
  | nil =>
    intro sp okAcc
    exact ⟨[], by simp [mergeLoop], by simp⟩
  | cons e rest ih =>
    intro sp okAcc
    by_cases hm : isMergeK e.kind = true
    · obtain ⟨pre, hpre, hall⟩ :=
        ih (sp.union e.span) (okAcc && decide (sp.stop = e.span.start))
      refine ⟨e :: pre, ?_, ?_⟩
      · simp only [mergeLoop, hm, if_true]
        rw [List.cons_append, ← hpre]
      · intro x hx
        rcases List.mem_cons.mp hx with rfl | hx2
        · exact hm
        · exact hall x hx2
    · refine ⟨[], ?_, by simp⟩
      simp only [mergeLoop, hm, if_false]
      simp

theorem fillCond_false_openers {p : Parser} (h : fillCond p = false) :
    p.openers = [] := by
  unfold fillCond at h
  simp only [Bool.or_eq_false_iff] at h
  have := h.1.2
  simpa [List.isEmpty_iff] using this

set_option maxHeartbeats 1000000 in
/-- The replenishment loop preserves the invariant, never increases the
measure, and with enough fuel ends with the loop condition false or the
lexer drained. -/
theorem fillLoop_inv {R : List EventKind} :
    ∀ (f : Nat) (p : Parser),
      balancedK (R ++ kindsOf p.events) →
      (p.lexer ≠ [] → FCore p) →
      balancedK (R ++ kindsOf (fillLoop f p).events) ∧
      ((fillLoop f p).lexer ≠ [] → FCore (fillLoop f p)) ∧
      msr (fillLoop f p) ≤ msr p ∧
      (p.lexer.length + 1 ≤ f →
        fillCond (fillLoop f p) = false ∨ (fillLoop f p).lexer = []) := by
  intro f
  induction f with
  | zero =>
    intro p hA hFC
    exact ⟨hA, hFC, le_refl _, by intro habs; omega⟩
  | succ f ih =>
    intro p hA hFC
    by_cases hfc : fillCond p = true
    · cases hpe : parseEvent p with
      | mk e? p1 =>
        cases e? with
        | some ev =>
          have hne := parseEvent_some_ne hpe
          obtain ⟨hS, hG⟩ := hFC hne
          obtain ⟨hA2, hS2, hG2, hlx2, hev2⟩ := parseEvent_step hA hS hG hpe
          have hred : fillLoop (f + 1) p =
              fillLoop f { p1 with events := p1.events ++ [ev] } := by
            simp [fillLoop, hfc, hpe]
          have hmq : msr { p1 with events := p1.events ++ [ev] } ≤ msr p := by
            unfold msr
            simp only [List.length_append, List.length_cons, List.length_nil]
            omega
          obtain ⟨ra, rb, rc, rd⟩ := ih { p1 with events := p1.events ++ [ev] }
            hA2 (fun _ => ⟨hS2, hG2⟩)
          rw [hred]
          refine ⟨ra, rb, le_trans rc hmq, ?_⟩
          intro hf
          refine rd ?_
          show p1.lexer.length + 1 ≤ f
          omega
        | none =>
          obtain ⟨rfl, hnil⟩ := parseEvent_none hpe
          have hred : fillLoop (f + 1) p = p.resetSpan := by
            simp [fillLoop, hfc, hpe]
          rw [hred]
          have hres : p.resetSpan.lexer = p.lexer := rfl
          refine ⟨hA, ?_, le_refl _, ?_⟩
          · intro hne
            rw [hres, hnil] at hne
            simp at hne
          · intro _
            right
            rw [hres, hnil]
    · have hred : fillLoop (f + 1) p = p := by
        simp [fillLoop, hfc]
      rw [hred]
      exact ⟨hA, hFC, le_refl _, fun _ => Or.inl (by simpa using hfc)⟩

end Jotdown

namespace Jotdown

theorem FCore_of_openers_nil {p : Parser} (h : p.openers = []) : FCore p := by
  refine ⟨?_, ?_⟩
  · intro de hde
    rw [h] at hde
    simp at hde
  · unfold Gaps
    rw [h]
    exact List.Pairwise.nil

set_option maxHeartbeats 2000000 in
/-- One `next()` step: a released event keeps the stream balanced and the
invariant intact and strictly decreases the measure; exhaustion means the
buffer and the lexer are both empty. Released events are never
`Whitespace` or `Placeholder`. -/
theorem nextEvent_inv :
    ∀ (fuel : Nat) (R : List EventKind) (p : Parser) (e? : Option Event)
      (q : Parser),
      nextEvent fuel p = (e?, q) →
      balancedK (R ++ kindsOf p.events) → (p.lexer ≠ [] → FCore p) →
      msr p + 1 ≤ fuel →
      (e? = none → q.events = [] ∧ q.lexer = [] ∧
        balancedK (R ++ kindsOf q.events)) ∧
      (∀ e, e? = some e →
        balancedK ((R ++ [e.kind]) ++ kindsOf q.events) ∧
        (q.lexer ≠ [] → FCore q) ∧ msr q < msr p ∧
        e.kind ≠ .Whitespace ∧ e.kind ≠ .Placeholder) := by
  intro fuel
  induction fuel with
  | zero =>
    intro R p e? q h hA hFC hf
    exact absurd hf (by omega)
  | succ fuel ih =>
    intro R p e? q h hA hFC hf
    obtain ⟨qa, qb, qc, qd⟩ := @fillLoop_inv R (fuel + 1) p hA hFC
    have hdone := qd (by unfold msr at hf; omega)
    unfold nextEvent at h
    simp only [] at h
    cases hqe : (fillLoop (fuel + 1) p).events with
    | nil =>
      rw [hqe] at h
      obtain ⟨rfl, rfl⟩ := Prod.mk.injEq .. ▸ h
      refine ⟨?_, ?_⟩
      · intro _
        refine ⟨hqe, ?_, qa⟩
        rcases hdone with hcf | hl
        · unfold fillCond at hcf
          rw [hqe] at hcf
          simp at hcf
        · exact hl
      · intro e habs
        simp at habs
    | cons e rest =>
      rw [hqe] at h
      simp only [] at h
      have hF1 : (fillLoop (fuel + 1) p).lexer ≠ [] →
          (fillLoop (fuel + 1) p).openers = [] := by
        intro hne
        rcases hdone with hcf | hl
        · exact fillCond_false_openers hcf
        · exact absurd hl hne
      by_cases hek : e.kind = .Str ∨ e.kind = .Whitespace
      · rw [if_pos hek] at h
        obtain ⟨rfl, rfl⟩ := Prod.mk.injEq .. ▸ h
        obtain ⟨pre, hpre, hallm⟩ := mergeLoop_split rest e.span true
        refine ⟨by intro habs; simp at habs, ?_⟩
        intro e2 he2
        obtain rfl : (⟨.Str, (mergeLoop rest e.span true).1⟩ : Event) = e2 :=
          Option.some.injEq .. ▸ he2
        rw [hqe] at qa
        rw [hpre] at qa
        have hqa2 : balancedK (R ++
            ((e.kind :: kindsOf pre) ++
              kindsOf (mergeLoop rest e.span true).2.1)) := by
          have hqa3 := qa
          simp only [kindsOf_cons, kindsOf_append, List.cons_append,
            List.append_assoc] at hqa3 ⊢
          exact hqa3
        have hN : ∀ k ∈ e.kind :: kindsOf pre, neutralK k = true := by
          intro k hk
          rcases List.mem_cons.mp hk with rfl | hk2
          · rcases hek with hh | hh <;> rw [hh] <;> rfl
          · obtain ⟨x, hx1, rfl⟩ := List.mem_map.mp hk2
            exact neutral_of_merge (hallm x hx1)
        have hN' : ∀ k ∈ [EventKind.Str], neutralK k = true := by
          intro k hk
          simp at hk
          subst hk
          rfl
        have hrep := balancedK_replace_neutral hN hN' hqa2
        refine ⟨?_, ?_, ?_,
          by intro hcon; exact EventKind.noConfusion hcon,
          by intro hcon; exact EventKind.noConfusion hcon⟩
        · show balancedK ((R ++ [EventKind.Str]) ++ _)
          rw [List.append_assoc]
          exact hrep
        · intro hne
          exact FCore_of_openers_nil (hF1 hne)
        · show msr _ < msr p
          have h1 : (mergeLoop rest e.span true).2.1.length ≤ rest.length := by
            have h3 := congrArg List.length hpre
            simp only [List.length_append] at h3
            omega
          have h2 := qc
          unfold msr at h2 ⊢
          rw [hqe] at h2
          simp only [List.length_cons] at h2
          simp only []
          omega
      · rw [if_neg hek] at h
        by_cases hpk : e.kind = .Placeholder
        · rw [if_pos hpk] at h
          have hA1 : balancedK (R ++
              kindsOf ({ fillLoop (fuel + 1) p with events := rest }
                : Parser).events) := by
            show balancedK (R ++ kindsOf rest)
            rw [hqe] at qa
            have hqa2 : balancedK (R ++ ([e.kind] ++ kindsOf rest)) := qa
            have := balancedK_replace_neutral
              (M := ([] : List EventKind))
              (by intro k hk; simp at hk; subst hk; rw [hpk]; rfl)
              (by intro k hk; simp at hk) hqa2
            simpa using this
          have hFC1 : ({ fillLoop (fuel + 1) p with events := rest }
              : Parser).lexer ≠ [] →
              FCore { fillLoop (fuel + 1) p with events := rest } := by
            intro hne
            exact FCore_of_openers_nil (hF1 hne)
          have hmf : msr { fillLoop (fuel + 1) p with events := rest } + 1
              ≤ fuel := by
            have h2 := qc
            unfold msr at h2 hf ⊢
            rw [hqe] at h2
            simp only [List.length_cons] at h2
            simp only []
            omega
          obtain ⟨ra, rb⟩ := ih R _ e? q h hA1 hFC1 hmf
          refine ⟨ra, ?_⟩
          intro e2 he2
          obtain ⟨sa, sb, sc, sd, se⟩ := rb e2 he2
          refine ⟨sa, sb, ?_, sd, se⟩
          have h2 := qc
          unfold msr at h2 sc ⊢
          rw [hqe] at h2
          simp only [List.length_cons] at h2
          simp only [] at sc
          omega
        · rw [if_neg hpk] at h
          obtain ⟨rfl, rfl⟩ := Prod.mk.injEq .. ▸ h
          refine ⟨by intro habs; simp at habs, ?_⟩
          intro e2 he2
          obtain rfl : e = e2 := Option.some.injEq .. ▸ he2
          refine ⟨?_, ?_, ?_, ?_, hpk⟩
          · show balancedK ((R ++ [e.kind]) ++ kindsOf rest)
            rw [hqe] at qa
            rw [List.append_assoc]
            exact qa
          · intro hne
            exact FCore_of_openers_nil (hF1 hne)
          · have h2 := qc
            unfold msr at h2 ⊢
            rw [hqe] at h2
            simp only [List.length_cons] at h2
            simp only []
            omega
          · intro habs
            exact hek (Or.inr habs)

end Jotdown

namespace Jotdown

/-- Driving `next()` to exhaustion from an invariant state with enough
fuel empties the buffer and the lexer and releases a balanced stream with
no `Whitespace` or `Placeholder` events. -/
theorem runAll_inv :
    ∀ (fuel : Nat) (R : List EventKind) (p : Parser),
      balancedK (R ++ kindsOf p.events) → (p.lexer ≠ [] → FCore p) →
      msr p + 1 ≤ fuel →
      balancedK (R ++ kindsOf (runAll fuel p).1) ∧
      (runAll fuel p).2.events = [] ∧ (runAll fuel p).2.lexer = [] ∧
      (∀ e ∈ (runAll fuel p).1,
        e.kind ≠ .Whitespace ∧ e.kind ≠ .Placeholder) := by
  intro fuel
  induction fuel with
  | zero =>
    intro R p hA hFC hf
    exact absurd hf (by omega)
  | succ fuel ih =>
    intro R p hA hFC hf
    rcases hne : nextEvent (fuel + 1) p with ⟨e?, q⟩
    obtain ⟨ra, rb⟩ := nextEvent_inv (fuel + 1) R p e? q hne hA hFC hf
    cases e? with
    | none =>
      obtain ⟨h1, h2, h3⟩ := ra rfl
      have hred : runAll (fuel + 1) p = ([], q) := by
        unfold runAll
        rw [hne]
      rw [hred]
      refine ⟨?_, h1, h2, by simp⟩
      · have h4 := h3
        rw [h1] at h4
        simpa [kindsOf] using h4
    | some e =>
      obtain ⟨s1, s2, s3, s4, s5⟩ := rb e rfl
      rcases hru : runAll fuel q with ⟨evs, r⟩
      have hred : runAll (fuel + 1) p = (e :: evs, r) := by
        unfold runAll
        rw [hne]
        simp only []
        rw [hru]
      obtain ⟨t1, t2, t3, t4⟩ := ih (R ++ [e.kind]) q s1 s2 (by omega)
      rw [hru] at t1 t2 t3 t4
      rw [hred]
      refine ⟨?_, t2, t3, ?_⟩
      · have h5 := t1
        simp only [kindsOf_cons, List.cons_append, List.append_assoc,
          List.singleton_append] at h5 ⊢
        exact h5
      · intro x hx
        rcases List.mem_cons.mp hx with rfl | hx2
        · exact ⟨s4, s5⟩
        · exact t4 x hx2

end Jotdown

namespace Jotdown

/-- The released stream of any input is balanced, and the final state is
fully drained. -/
theorem releasedEvents_core (cs : List Char) :
    balancedK (kindsOf (releasedEvents cs)) ∧
    (finalParser cs).events = [] ∧ (finalParser cs).lexer = [] ∧
    (∀ e ∈ releasedEvents cs,
      e.kind ≠ .Whitespace ∧ e.kind ≠ .Placeholder) := by
  have hA : balancedK (([] : List EventKind) ++ kindsOf (initP cs).events) := by
    show balancedK ([] ++ ([] : List EventKind))
    exact balancedK_nil
  have hFC : (initP cs).lexer ≠ [] → FCore (initP cs) :=
    fun _ => FCore_of_openers_nil rfl
  have hfuel : msr (initP cs) + 1 ≤ bigFuel cs := by
    show 4 * cs.length + ([] : List Event).length + 1 ≤ 4 * cs.length + 8
    simp
  obtain ⟨h1, h2, h3, h4⟩ := runAll_inv (bigFuel cs) [] (initP cs) hA hFC hfuel
  exact ⟨by simpa using h1, h2, h3, h4⟩

end Jotdown

namespace Jotdown

/-! ## Concrete inputs used by the claims -/

/-- `*word{a=b}*` (braces written via code points). -/
def c2in : List Char :=
  ['*', 'w', 'o', 'r', 'd', Char.ofNat 123, 'a', '=', 'b', Char.ofNat 125, '*']

/-- `*word{}x`. -/
def c3in : List Char :=
  ['*', 'w', 'o', 'r', 'd', Char.ofNat 123, Char.ofNat 125, 'x']

/-- `<a:é>` — the é is two bytes in UTF-8. -/
def c4in : List Char := ['<', 'a', ':', Char.ofNat 233, '>']

/-- C1: for every input the released event stream is balanced: each
`Enter(C)` has exactly one matching `Exit(C)` after it with properly
nested events between (`balancedK`), so the `Enter(C)`/`Exit(C)` counts
agree for every container kind; and an opener that never closes
contributes no `Enter`/`Exit` at all — its tentative `Str` is released
instead, as the unclosed `*a` shows. -/
theorem claim_C1 :
    (∀ cs : List Char,
      balancedK (kindsOf (releasedEvents cs)) ∧
      ∀ c : Container,
        (kindsOf (releasedEvents cs)).count (.Enter c) =
          (kindsOf (releasedEvents cs)).count (.Exit c)) ∧
    kindsOf (releasedEvents ['*', 'a']) = [.Str] := by
  refine ⟨?_, by decide⟩
  intro cs
  have h := (releasedEvents_core cs).1
  exact ⟨h, fun c => balancedK_count h c⟩

/-- C2 (amended): in every reachable fill-phase state with input left,
each live opener record `(d, e)` still has both its slots: index `e + 1`
is in range, slot `e` holds the `Placeholder` it pushed, and slot `e + 1`
holds either its tentative `Str` or the `Attributes` event that the
word-attribute path may have written over it. The original claim's
stronger reading — that slot `e + 1` always holds the tentative `Str` —
is refuted by `claim_C2_counterexample`. -/
theorem claim_C2 (cs : List Char) (f : Nat)
    (hne : (fillLoop f (initP cs)).lexer ≠ []) :
    ∀ de ∈ (fillLoop f (initP cs)).openers,
      de.2 + 1 < (fillLoop f (initP cs)).events.length ∧
      (evAt (fillLoop f (initP cs)).events de.2).kind = .Placeholder ∧
      ((evAt (fillLoop f (initP cs)).events (de.2 + 1)).kind = .Str ∨
       (evAt (fillLoop f (initP cs)).events (de.2 + 1)).kind = .Attributes) := by
  have hA : balancedK (([] : List EventKind) ++ kindsOf (initP cs).events) := by
    show balancedK ([] ++ ([] : List EventKind))
    exact balancedK_nil
  have hFC : (initP cs).lexer ≠ [] → FCore (initP cs) :=
    fun _ => FCore_of_openers_nil rfl
  obtain ⟨-, qb, -, -⟩ := @fillLoop_inv [] f (initP cs) hA hFC
  intro de hde
  obtain ⟨h1, h2, h3, -⟩ := (qb hne).1 de hde
  exact ⟨h1, h2, h3⟩

/-- C2, counterexample to the original claim: after six parse steps on
`*word{a=b}*` the strong-emphasis opener `(Strong, 0)` is still live and
is about to be used to close, but the event at its slot `0 + 1` is the
`Attributes` event written by the word-attribute drain, not its tentative
`Str`. -/
theorem claim_C2_counterexample :
    (fillLoop 6 (initP c2in)).openers = [(Delim.Strong .Bi, 0)] ∧
    (evAt (fillLoop 6 (initP c2in)).events 0).kind = .Placeholder ∧
    (evAt (fillLoop 6 (initP c2in)).events 1).kind = .Attributes ∧
    ¬(evAt (fillLoop 6 (initP c2in)).events 1).kind = .Str := by decide

/-- C2, witness: on input `*a` after one parse step the opener `(Strong
Bi, 0)` is live with input remaining, and the amended invariant holds for
it. -/
theorem claim_C2_witness :
    (fillLoop 1 (initP ['*', 'a'])).lexer ≠ [] ∧
    ((Delim.Strong .Bi, 0) : Delim × Nat) ∈ (fillLoop 1 (initP ['*', 'a'])).openers ∧
    (evAt (fillLoop 1 (initP ['*', 'a'])).events 0).kind = .Placeholder :=
  ⟨by decide, by decide,
    (claim_C2 ['*', 'a'] 1 (by decide) ((Delim.Strong .Bi, 0) : Delim × Nat)
      (by decide)).2.1⟩

/-- C3: refuted — the merge-loop assertion `span.end() == ev.span.start()`
fails on input `*word{}x`: the ghost flag that models the `assert_eq!`
ends up false (the Rust parser panics on this input), so the claim that
the assertion never fails for any input is a code bug. -/
theorem claim_C3 : (finalParser c3in).ok = false := by decide

/-- C4: refuted — on the non-ASCII input `<a:é>` the committed autolink's
`Str` event carries span `(1, 4)`, whose end lies inside the two-byte
`é`; slicing the source with it fails (the Rust `&str` indexing panics),
because the autolink scan counts characters while spans are byte offsets. -/
theorem claim_C4 :
    ∃ e ∈ releasedEvents c4in,
      byteSlice c4in e.span.start e.span.stop = none := by decide

/-- C10: no released event is ever `Whitespace` or `Placeholder`: the
coalescing loop merges each maximal textual run into a single `Str` (a
run of only whitespace still comes out as `Str`, as the two-space input
shows) and bare `Placeholder`s are skipped. -/
theorem claim_C10 :
    (∀ cs : List Char, ∀ e ∈ releasedEvents cs,
      e.kind ≠ .Whitespace ∧ e.kind ≠ .Placeholder) ∧
    releasedEvents [' ', ' '] = [⟨.Str, ⟨0, 2⟩⟩] := by
  refine ⟨?_, by decide⟩
  intro cs
  exact (releasedEvents_core cs).2.2.2

end Jotdown

namespace Jotdown

/-- `[a](b\)c)` — the `)` after `b\` is escaped in source terms. -/
def c8in : List Char :=
  ['[', 'a', ']', '(', 'b', '\\', ')', 'c', ')']

/-- The interior scan stops at the first occurrence of the closer —
escaped or not — and fails if the opener character reappears first. -/
theorem spanScan_iff {o c : Char} (hoc : c ≠ o) :
    ∀ {l : List Char} {n : Nat} {r : List Char},
      spanScan o c l = some (n, r) ↔
      ∃ a, l = a ++ c :: r ∧ n = a.length ∧ ∀ x ∈ a, x ≠ o ∧ x ≠ c := by
  intro l
  induction l with
  | nil =>
    intro n r
    constructor
    · intro h
      simp [spanScan] at h
    · rintro ⟨a, ha, -, -⟩
      exact absurd ha (by simp)
  | cons d rest ih =>
    intro n r
    constructor
    · intro h
      by_cases h1 : d = o
      · simp [spanScan, h1] at h
      · by_cases h2 : d = c
        · subst h2
          simp [spanScan, h1] at h
          obtain ⟨rfl, rfl⟩ := h
          exact ⟨[], by simp, rfl, by simp⟩
        · cases hsc : spanScan o c rest with
          | none => simp [spanScan, h1, h2, hsc] at h
          | some pr =>
            obtain ⟨m, r'⟩ := pr
            simp [spanScan, h1, h2, hsc] at h
            obtain ⟨rfl, rfl⟩ := h
            obtain ⟨a, ha1, ha2, ha3⟩ := (ih).mp hsc
            refine ⟨d :: a, by rw [ha1]; simp, by simp [ha2], ?_⟩
            intro x hx
            rcases List.mem_cons.mp hx with rfl | hx2
            · exact ⟨h1, h2⟩
            · exact ha3 x hx2
    · intro ⟨a, ha1, ha2, ha3⟩
      cases a with
      | nil =>
        simp at ha1
        obtain ⟨rfl, rfl⟩ := ha1
        subst ha2
        simp [spanScan, hoc]
      | cons x a' =>
        simp at ha1
        obtain ⟨rfl, hrest⟩ := ha1
        have hx := ha3 d (by simp)
        have hsub : spanScan o c rest = some (a'.length, r) :=
          (ih).mpr ⟨a', hrest, rfl, fun y hy => ha3 y (by simp [hy])⟩
        subst ha2
        simp [spanScan, hx.1, hx.2, hsub]

/-- C8 (amended): when a span closes and the next character is `[`
(reference form) or `(` (inline form), the interior scan runs to the
first matching closer — escaped or not (the "unescaped" qualifier of the
original claim is refuted by `claim_C8_counterexample`) — and aborts if
the opener character reappears; on success the opener's buffered event
becomes `Enter` of the kind chosen by form and image-ness, with span the
interior, the emitted `Exit` carries the same span, and the lexer moves
past the closer; on failure the parser is returned unchanged. -/
theorem claim_C8 :
    (∀ (o c : Char) (l : List Char) (n : Nat) (r : List Char), c ≠ o →
      (spanScan o c l = some (n, r) ↔
        ∃ a, l = a ++ c :: r ∧ n = a.length ∧ ∀ x ∈ a, x ≠ o ∧ x ≠ c)) ∧
    (∀ (p : Parser) (ty : SpanType) (oe : Nat) (ev : Event) (p' : Parser),
      postSpan p ty oe = (some ev, p') →
      ∃ len rest,
        ((p.lexer.head? = some '[' ∧
          spanScan '[' ']' p.lexer.tail = some (len, rest) ∧
          ev = ⟨.Exit (if ty = .Image then .ReferenceImage else .ReferenceLink),
            Span.byLen (p.span.stop + 1) len⟩ ∧
          p'.events = setEvent p.events oe
            ⟨.Enter (if ty = .Image then .ReferenceImage else .ReferenceLink),
              Span.byLen (p.span.stop + 1) len⟩ ∧
          p'.lexer = rest) ∨
         (p.lexer.head? = some '(' ∧
          spanScan '(' ')' p.lexer.tail = some (len, rest) ∧
          ev = ⟨.Exit (if ty = .Image then .InlineImage else .InlineLink),
            Span.byLen (p.span.stop + 1) len⟩ ∧
          p'.events = setEvent p.events oe
            ⟨.Enter (if ty = .Image then .InlineImage else .InlineLink),
              Span.byLen (p.span.stop + 1) len⟩ ∧
          p'.lexer = rest))) ∧
    (∀ (p : Parser) (ty : SpanType) (oe : Nat) (p' : Parser),
      postSpan p ty oe = (none, p') → p' = p) := by
  refine ⟨fun o c l n r hoc => spanScan_iff hoc, ?_, ?_⟩
  · intro p ty oe ev p' h
    cases hh : p.lexer.head? with
    | none =>
      simp only [postSpan, hh] at h
      simp at h
    | some ch =>
      by_cases h1 : ch = '['
      · subst h1
        cases hsc : spanScan '[' ']' p.lexer.tail with
        | none =>
          simp only [postSpan, hh, hsc, if_pos rfl] at h
          simp at h
        | some pr =>
          obtain ⟨len, rest⟩ := pr
          simp only [postSpan, hh, hsc, if_pos rfl] at h
          obtain ⟨hev, rfl⟩ := Prod.mk.injEq .. ▸ h
          obtain rfl := (Option.some.injEq .. ▸ hev).symm
          exact ⟨len, rest, Or.inl ⟨rfl, rfl, rfl, rfl, rfl⟩⟩
      · by_cases h2 : ch = '('
        · subst h2
          cases hsc : spanScan '(' ')' p.lexer.tail with
          | none =>
            simp only [postSpan, hh, hsc, if_neg h1, if_pos rfl] at h
            simp at h
          | some pr =>
            obtain ⟨len, rest⟩ := pr
            simp only [postSpan, hh, hsc, if_neg h1, if_pos rfl] at h
            obtain ⟨hev, rfl⟩ := Prod.mk.injEq .. ▸ h
            obtain rfl := (Option.some.injEq .. ▸ hev).symm
            exact ⟨len, rest, Or.inr ⟨rfl, rfl, rfl, rfl, rfl⟩⟩
        · simp only [postSpan, hh, if_neg h1, if_neg h2] at h
          simp at h
  · intro p ty oe p' h
    rcases postSpan_shape h with ⟨-, rfl⟩ | ⟨c, sp, habs, -⟩
    · rfl
    · exact absurd habs (by simp)

/-- C8, counterexample to the original claim: in `[a](b\)c)` the inline
link's interior stops at the escaped `\)`, yielding `b\` as the URL — the
scan does not skip escaped closers. -/
theorem claim_C8_counterexample :
    ∃ e ∈ releasedEvents c8in, e.kind = .Enter .InlineLink ∧
      byteSlice c8in e.span.start e.span.stop = some ['b', '\\'] := by decide

end Jotdown

namespace Jotdown

/-- The span-close state used to witness C8: lexer `(u)x`, one buffered
tentative `Str`. -/
def c8p : Parser := ⟨['(', 'u', ')', 'x'], ⟨3, 4⟩, [], [⟨.Str, ⟨0, 1⟩⟩], true⟩

/-- C8, witness: on `c8p` the inline form resolves, and the interior scan
result is exactly what the lexer is fast-forwarded to. -/
theorem claim_C8_witness :
    postSpan c8p .General 0 =
      (some ⟨.Exit .InlineLink, ⟨5, 6⟩⟩,
       (⟨['x'], ⟨6, 7⟩, [], [⟨.Enter .InlineLink, ⟨5, 6⟩⟩], true⟩ : Parser)) ∧
    ∃ len rest, spanScan '(' ')' c8p.lexer.tail = some (len, rest) ∧
      rest = ['x'] := by
  have h0 : postSpan c8p .General 0 =
      (some ⟨.Exit .InlineLink, ⟨5, 6⟩⟩,
       (⟨['x'], ⟨6, 7⟩, [], [⟨.Enter .InlineLink, ⟨5, 6⟩⟩], true⟩ : Parser)) := by
    decide
  have h := claim_C8.2.1 c8p .General 0 ⟨.Exit .InlineLink, ⟨5, 6⟩⟩
    (⟨['x'], ⟨6, 7⟩, [], [⟨.Enter .InlineLink, ⟨5, 6⟩⟩], true⟩ : Parser) h0
  refine ⟨h0, ?_⟩
  obtain ⟨len, rest, hc⟩ := h
  rcases hc with ⟨hh, -⟩ | ⟨-, hsc, -, -, hlx⟩
  · exact absurd hh (by decide)
  · exact ⟨len, rest, hsc, hlx.symm⟩

end Jotdown

namespace Jotdown

/-- The raw-format tag scan succeeds exactly on a run of non-`{`,
non-`}`, non-whitespace characters terminated by a `}`. -/
theorem rawScan_iff :
    ∀ {cs : List Char} {len : Nat} {rest : List Char},
      rawScan cs = some (len, rest) ↔
      ∃ a, cs = a ++ Char.ofNat 125 :: rest ∧ len = a.length ∧
        ∀ x ∈ a, x ≠ Char.ofNat 123 ∧ x ≠ Char.ofNat 125 ∧
          rustIsWhitespace x = false := by
  intro cs
  induction cs with
  | nil =>
    intro len rest
    constructor
    · intro h
      simp [rawScan] at h
    · rintro ⟨a, ha, -, -⟩
      exact absurd ha (by simp)
  | cons d ds ih =>
    intro len rest
    have hbrace : Char.ofNat 123 = '{' := by decide
    have hcbrace : Char.ofNat 125 = '}' := by decide
    rw [hbrace, hcbrace]
    constructor
    · intro h
      by_cases h1 : d = '{'
      · simp [rawScan, h1] at h
      · by_cases h2 : d = '}'
        · subst h2
          simp [rawScan, h1] at h
          obtain ⟨rfl, rfl⟩ := h
          exact ⟨[], by simp, rfl, by simp⟩
        · by_cases h3 : rustIsWhitespace d
          · simp [rawScan, h1, h2, h3] at h
          · cases hsc : rawScan ds with
            | none => simp [rawScan, h1, h2, h3, hsc] at h
            | some pr =>
              obtain ⟨m, r'⟩ := pr
              simp [rawScan, h1, h2, h3, hsc] at h
              obtain ⟨rfl, rfl⟩ := h
              obtain ⟨a, ha1, ha2, ha3⟩ := ih.mp hsc
              rw [hbrace, hcbrace] at ha3
              refine ⟨d :: a, by rw [ha1, hcbrace]; simp, by simp [ha2], ?_⟩
              intro x hx
              rcases List.mem_cons.mp hx with rfl | hx2
              · exact ⟨h1, h2, by simpa using h3⟩
              · exact ha3 x hx2
    · rintro ⟨a, ha1, ha2, ha3⟩
      cases a with
      | nil =>
        simp at ha1
        obtain ⟨rfl, rfl⟩ := ha1
        subst ha2
        simp [rawScan]
      | cons x a' =>
        simp at ha1
        obtain ⟨rfl, hrest⟩ := ha1
        have hx := ha3 d (by simp)
        have hsub : rawScan ds = some (a'.length, rest) := by
          refine ih.mpr ⟨a', by rw [hrest, hcbrace], rfl, ?_⟩
          intro y hy
          have := ha3 y (by simp [hy])
          rw [hbrace, hcbrace] at this
          exact this
        subst ha2
        simp [rawScan, hx.1, hx.2.1, hx.2.2, hsub]

set_option maxHeartbeats 1000000 in
/-- C6: raw-format promotion fires only for `Verbatim` (never for math),
only when the token straight after the closing backtick run is
`Open(BraceEqual)`, and only when the speculative scan over non-brace,
non-Unicode-whitespace characters (Rust `char::is_whitespace`) reaches a
`}` with at least one character before it; then the `Enter` is rewritten
to `RawFormat` with span the tag interior, the outer span is set to the
same, and the lexer is fast-forwarded past the `}`; in every other case
the loop stops with the verbatim state untouched. -/
theorem claim_C6 {fuel openerLen openerEvent : Nat} {kind : Container}
    {si : Span} {nwF nwL : Option (Kind × Nat)} {p p1 : Parser} {t : Token}
    (heat : p.eat = some (t, p1))
    (hcl : t.kind = .Seq .Backtick) (hlen : t.len = openerLen) :
    (∀ (cs : List Char) (len : Nat) (rest : List Char),
      rawScan cs = some (len, rest) ↔
      ∃ a, cs = a ++ Char.ofNat 125 :: rest ∧ len = a.length ∧
        ∀ x ∈ a, x ≠ Char.ofNat 123 ∧ x ≠ Char.ofNat 125 ∧
          rustIsWhitespace x = false) ∧
    (kind ≠ .Verbatim →
      verbLoop (fuel + 1) openerLen openerEvent kind si nwF nwL p
        = ⟨kind, si, nwF, nwL, none, p1⟩) ∧
    (lexNext p1.lexer = none →
      verbLoop (fuel + 1) openerLen openerEvent .Verbatim si nwF nwL p
        = ⟨.Verbatim, si, nwF, nwL, none, p1⟩) ∧
    (∀ tok after, lexNext p1.lexer = some (tok, after) →
      tok.kind ≠ .Open .BraceEqual →
      verbLoop (fuel + 1) openerLen openerEvent .Verbatim si nwF nwL p
        = ⟨.Verbatim, si, nwF, nwL, none, p1⟩) ∧
    (∀ tok after, lexNext p1.lexer = some (tok, after) →
      tok.kind = .Open .BraceEqual → rawScan after = none →
      verbLoop (fuel + 1) openerLen openerEvent .Verbatim si nwF nwL p
        = ⟨.Verbatim, si, nwF, nwL, none, p1⟩) ∧
    (∀ tok after rest', lexNext p1.lexer = some (tok, after) →
      tok.kind = .Open .BraceEqual → rawScan after = some (0, rest') →
      verbLoop (fuel + 1) openerLen openerEvent .Verbatim si nwF nwL p
        = ⟨.Verbatim, si, nwF, nwL, none, p1⟩) ∧
    (∀ tok after len rest', lexNext p1.lexer = some (tok, after) →
      tok.kind = .Open .BraceEqual → rawScan after = some (len, rest') →
      0 < len →
      verbLoop (fuel + 1) openerLen openerEvent .Verbatim si nwF nwL p
        = ⟨.RawFormat, si, nwF, nwL,
            some (Span.byLen (p1.span.stop + 2) len),
            { p1 with
              lexer := rest'
              events := setEvent p1.events openerEvent
                ⟨.Enter .RawFormat, Span.byLen (p1.span.stop + 2) len⟩
              span := (Span.byLen (p1.span.stop + 2) len).translate 1 }⟩) := by
  have hc : t.kind = .Seq .Backtick ∧ t.len = openerLen := ⟨hcl, hlen⟩
  refine ⟨fun cs len rest => rawScan_iff, ?_, ?_, ?_, ?_, ?_, ?_⟩
  · intro hkind
    simp only [verbLoop, heat]
    rw [if_pos hc, if_neg hkind]
  · intro hnone
    simp only [verbLoop, heat]
    rw [if_pos hc]
    simp only [eq_self_iff_true, if_true]
    rw [hnone]
  · intro tok after hlx hne
    simp only [verbLoop, heat]
    rw [if_pos hc]
    simp only [eq_self_iff_true, if_true]
    rw [hlx]
    simp only []
    rw [if_neg hne]
  · intro tok after hlx hbe hrs
    simp only [verbLoop, heat]
    rw [if_pos hc]
    simp only [eq_self_iff_true, if_true]
    rw [hlx]
    simp only []
    rw [if_pos hbe, hrs]
  · intro tok after rest' hlx hbe hrs
    simp only [verbLoop, heat]
    rw [if_pos hc]
    simp only [eq_self_iff_true, if_true]
    rw [hlx]
    simp only []
    rw [if_pos hbe, hrs]
    simp only []
    rw [if_neg (by omega)]
  · intro tok after len rest' hlx hbe hrs hpos
    simp only [verbLoop, heat]
    rw [if_pos hc]
    simp only [eq_self_iff_true, if_true]
    rw [hlx]
    simp only []
    rw [if_pos hbe, hrs]
    simp only []
    rw [if_pos hpos]

/-- The verbatim-closer state used to witness C6. -/
def c6p : Parser :=
  ⟨[btChar, Char.ofNat 123, '=', 'x', Char.ofNat 125], ⟨1, 2⟩, [],
   [⟨.Enter .Verbatim, ⟨0, 1⟩⟩], true⟩

/-- The state after `c6p` eats its closing backtick. -/
def c6p1 : Parser :=
  ⟨[Char.ofNat 123, '=', 'x', Char.ofNat 125], ⟨1, 3⟩, [],
   [⟨.Enter .Verbatim, ⟨0, 1⟩⟩], true⟩

/-- C6, witness: on `c6p` (remaining input `` `{=x} ``) the closer is
followed by `{=`, the scan finds `x` before the `}`, and the loop
promotes the verbatim to `RawFormat`. -/
theorem claim_C6_witness :
    verbLoop 3 1 0 .Verbatim ⟨2, 2⟩ none none c6p =
      ⟨.RawFormat, ⟨2, 2⟩, none, none, some ⟨5, 6⟩,
       ⟨[], ⟨6, 7⟩, [], [⟨.Enter .RawFormat, ⟨5, 6⟩⟩], true⟩⟩ := by
  have h := (@claim_C6 2 1 0 .Verbatim ⟨2, 2⟩ none none c6p c6p1
      ⟨.Seq .Backtick, 1⟩ (by decide) rfl rfl).2.2.2.2.2.2
    ⟨.Open .BraceEqual, 2⟩ ['x', Char.ofNat 125] 1 [] (by decide) rfl
    (by decide) (by decide)
  exact h.trans rfl

end Jotdown

namespace Jotdown

/-- Does the upcoming token stream contain a backtick run of exactly
length `n` (the closer the verbatim loop waits for)? -/
def hasCloser (n : Nat) : Nat → List Char → Bool
  | 0, _ => false
  | fuel + 1, cs =>
    match lexNext cs with
    | none => false
    | some (t, rest) =>
      (decide (t.kind = .Seq .Backtick) && decide (t.len = n)) ||
        hasCloser n fuel rest

/-- With no closer in the remaining input the verbatim loop keeps its
kind, produces no outer span, drains the lexer (given enough fuel), and —
unless it never ran — leaves a zero-width current span. -/
theorem verbLoop_noCloser {n oe : Nat} {kind : Container} :
    ∀ (fuel : Nat) (si : Span) (nwF nwL : Option (Kind × Nat)) (p : Parser),
      hasCloser n fuel p.lexer = false →
      (verbLoop fuel n oe kind si nwF nwL p).kind = kind ∧
      (verbLoop fuel n oe kind si nwF nwL p).spanOuter = none ∧
      ((verbLoop fuel n oe kind si nwF nwL p).p = p ∨
        (verbLoop fuel n oe kind si nwF nwL p).p.span.start =
          (verbLoop fuel n oe kind si nwF nwL p).p.span.stop) ∧
      (p.lexer.length + 1 ≤ fuel →
        (verbLoop fuel n oe kind si nwF nwL p).p.lexer = []) := by
  intro fuel
  induction fuel with
  | zero =>
    intro si nwF nwL p hnc
    refine ⟨?_, ?_, ?_, ?_⟩
    · rfl
    · rfl
    · exact Or.inl rfl
    · intro habs
      omega
  | succ fuel ih =>
    intro si nwF nwL p hnc
    cases heat : p.eat with
    | none =>
      have hnil : p.lexer = [] := by
        have hl := eat_none heat
        cases hc : p.lexer with
        | nil => rfl
        | cons c rest =>
          rw [hc] at hl
          exact absurd hl (lexNext_ne_none c rest)
      simp only [verbLoop, heat]
      exact ⟨by trivial, by trivial, Or.inl (by trivial), fun _ => hnil⟩
    | some tp =>
      obtain ⟨t, p1⟩ := tp
      obtain ⟨hlex, -⟩ := eat_eq heat
      have hnc2 : ((decide (t.kind = .Seq .Backtick) && decide (t.len = n)) ||
          hasCloser n fuel p1.lexer) = false := by
        have := hnc
        rw [show hasCloser n (fuel + 1) p.lexer =
          ((decide (t.kind = .Seq .Backtick) && decide (t.len = n)) ||
            hasCloser n fuel p1.lexer) from by
            simp only [hasCloser]
            rw [hlex]] at this
        exact this
      simp only [Bool.or_eq_false_iff, Bool.and_eq_false_iff] at hnc2
      have hcl : ¬(t.kind = .Seq .Backtick ∧ t.len = n) := by
        rcases hnc2.1 with hh | hh
        · intro hcon
          simp [hcon.1] at hh
        · intro hcon
          simp [hcon.2] at hh
      simp only [verbLoop, heat]
      rw [if_neg hcl]
      have hrl : (p1.resetSpan).lexer = p1.lexer := rfl
      obtain ⟨ra, rb, rc, rd⟩ := ih (si.extend t.len)
        (if t.kind ≠ .Whitespace ∧ nwF = none
          then some (t.kind, si.stop) else nwF)
        (if t.kind ≠ .Whitespace
          then some (t.kind, si.stop + t.len) else nwL)
        (p1.resetSpan) (by rw [hrl]; exact hnc2.2)
      refine ⟨ra, rb, ?_, ?_⟩
      · rcases rc with hq | hq
        · right
          rw [hq]
          rfl
        · right
          exact hq
      · intro hfu
        refine rd ?_
        rw [hrl]
        have := lexNext_shrink hlex
        omega

set_option maxHeartbeats 1000000 in
/-- C5 (amended): a backtick run opens a verbatim, a short dollar run
followed by backticks opens inline or display math; the `Enter` is pushed
immediately and the loop consumes any token that is not a backtick run of
exactly the opener length, accumulating the inner `Str` span; and when
the remaining input holds no such closer the parser still emits `Enter`,
`Str` and an `Exit` — the `Exit` span is zero-width at the end position
provided at least one token followed the opener. (For an opener at the
very end of input the `Exit` instead reuses the opener span, for the
verbatim and the math form alike, which refutes the original
unconditional zero-width claim: `claim_C5_counterexample`.) -/
theorem claim_C5 {p : Parser} {first : Token} {ev : Event} {p' : Parser}
    (h : parseVerbatim p first = some (ev, p')) :
    (∃ k s1 s2, p'.events = p.events ++ [⟨.Enter k, s1⟩, ⟨.Str, s2⟩] ∧
      ev.kind = .Exit k) ∧
    (∀ (n fuel oe : Nat) (kind : Container) (si : Span)
      (nwF nwL : Option (Kind × Nat)) (q q1 : Parser) (t : Token),
      q.eat = some (t, q1) → ¬(t.kind = .Seq .Backtick ∧ t.len = n) →
      verbLoop (fuel + 1) n oe kind si nwF nwL q =
        verbLoop fuel n oe kind (si.extend t.len)
          (if t.kind ≠ .Whitespace ∧ nwF = none
            then some (t.kind, si.stop) else nwF)
          (if t.kind ≠ .Whitespace
            then some (t.kind, si.stop + t.len) else nwL)
          q1.resetSpan) ∧
    (∀ (kind : Container) (n : Nat) (p1 : Parser),
      verbatimOpen? p first = some (kind, n, p1) →
      hasCloser n (p1.lexer.length + 1) p1.lexer = false → p1.lexer ≠ [] →
      ev.kind = .Exit kind ∧ ev.span.start = ev.span.stop ∧
      p'.lexer = []) := by
  refine ⟨?_, ?_, ?_⟩
  · obtain ⟨k, s1, s2, h1, h2, -⟩ := parseVerbatim_shape h
    exact ⟨k, s1, s2, h1, h2⟩
  · intro n fuel oe kind si nwF nwL q q1 t heat hne
    simp only [verbLoop, heat]
    rw [if_neg hne]
  · intro kind n p1 hvo hnc hlex
    unfold parseVerbatim at h
    rw [hvo] at h
    simp only [] at h
    obtain ⟨ra, rb, rc, rd⟩ := @verbLoop_noCloser n p1.events.length kind
      (p1.lexer.length + 1) (Span.emptyAt p1.span.stop) none none
      { p1 with events := p1.events ++ [⟨.Enter kind, p1.span⟩] } hnc
    have h2 := Option.some.injEq .. ▸ h
    obtain ⟨hev, rfl⟩ := Prod.mk.injEq .. ▸ h2
    obtain rfl := hev.symm
    have hdrain := rd (by
      show p1.lexer.length + 1 ≤ p1.lexer.length + 1
      exact le_refl _)
    refine ⟨?_, ?_, ?_⟩
    · show (EventKind.Exit _) = _
      rw [ra]
    · show ((Option.getD _ _ : Span)).start = ((Option.getD _ _ : Span)).stop
      rw [rb]
      rcases rc with hq | hq
      · exfalso
        have : ({ p1 with events :=
            p1.events ++ [⟨.Enter kind, p1.span⟩] } : Parser).lexer = [] := by
          rw [← hq]
          exact hdrain
        exact hlex this
      · exact hq
    · exact hdrain

/-- C5, counterexample to the original claim: a bare two-backtick opener
(or a dollar and a two-backtick run) with the input ending immediately is
unclosed, yet its released `Exit` span is the opener span — not
zero-width at the end position. -/
theorem claim_C5_counterexample :
    releasedEvents [btChar, btChar] =
      [⟨.Enter .Verbatim, ⟨0, 2⟩⟩, ⟨.Str, ⟨2, 2⟩⟩,
       ⟨.Exit .Verbatim, ⟨0, 2⟩⟩] ∧
    releasedEvents ['$', btChar, btChar] =
      [⟨.Enter .InlineMath, ⟨0, 3⟩⟩, ⟨.Str, ⟨3, 3⟩⟩,
       ⟨.Exit .InlineMath, ⟨0, 3⟩⟩] ∧
    ¬((2 : Nat) = 0) := by decide

/-- C5, witness: a dollar token opening inline math over a two-backtick
run, with remaining input `a` and no closer: `parse_verbatim` returns an
`Exit InlineMath` with zero-width span at the end and a drained lexer. -/
theorem claim_C5_witness :
    (⟨.Exit .InlineMath, ⟨4, 4⟩⟩ : Event).kind = .Exit .InlineMath ∧
    (⟨.Exit .InlineMath, ⟨4, 4⟩⟩ : Event).span.start =
      (⟨.Exit .InlineMath, ⟨4, 4⟩⟩ : Event).span.stop ∧
    (⟨[], ⟨4, 4⟩, [],
      [⟨.Enter .InlineMath, ⟨0, 3⟩⟩, ⟨.Str, ⟨3, 4⟩⟩], true⟩ : Parser).lexer
      = [] :=
  (@claim_C5 ⟨[btChar, btChar, 'a'], ⟨0, 1⟩, [], [], true⟩ ⟨.Seq .Dollar, 1⟩
      ⟨.Exit .InlineMath, ⟨4, 4⟩⟩
      ⟨[], ⟨4, 4⟩, [], [⟨.Enter .InlineMath, ⟨0, 3⟩⟩, ⟨.Str, ⟨3, 4⟩⟩], true⟩
      (by decide)).2.2 .InlineMath 2 ⟨['a'], ⟨0, 3⟩, [], [], true⟩
    (by decide) (by decide) (by decide)

end Jotdown

namespace Jotdown

set_option maxHeartbeats 1000000 in
/-- C7 (amended): provided `attr::valid` accepts the first block — the
malformed-block case instead underflows `attr_len -= 1`, see
`claim_C7_counterexample` — the attribute path runs only when the token is
`Open(Brace)` and the last buffered event is a `Str`; when some scanned
block is non-empty it drains the trailing all-`Str` word events and emits
`Attributes`, `Enter(Span)` with an empty span at the word's start, the
word `Str`, and an `Exit(Span)` with an empty span at the word's end; when
every block is empty it emits a single `Placeholder`, leaving the buffer
alone; either way the blocks' source is consumed. -/
theorem claim_C7 {p : Parser} {first : Token} {ev : Event} {p' : Parser}
    (h : parseAttributes p first = some (ev, p'))
    (hv : 0 < (attrValid ('{' :: p.lexer)).1) :
    (first.kind = .Open .Brace ∧ lastIsStr p.events = true) ∧
    p'.openers = p.openers ∧ p'.lexer.length < p.lexer.length ∧
    ((ev.kind = .Placeholder ∧ p'.events = p.events) ∨
     (∃ i sa s, i ≤ p.events.length ∧
       p'.events = p.events.take i ++
         [⟨.Attributes, sa⟩, ⟨.Enter .Span, Span.emptyAt s.start⟩,
          ⟨.Str, s⟩] ∧
       ev = ⟨.Exit .Span, Span.emptyAt s.stop⟩ ∧
       ∀ e ∈ p.events.drop i, e.kind = .Str)) := by
  have hg : first.kind = .Open .Brace ∧ lastIsStr p.events = true := by
    by_contra hng
    unfold parseAttributes at h
    rw [if_neg hng] at h
    simp at h
  refine ⟨hg, ?_⟩
  unfold parseAttributes at h
  rw [if_pos hg] at h
  rcases hvv : attrValid ('{' :: p.lexer) with ⟨n0, b0, r0⟩
  have hv0 : 0 < n0 := by rw [hvv] at hv; simpa using hv
  have hcons := attrValid_conserve hvv hv0
  rw [hvv] at h
  simp only [] at h
  have hne : ¬(n0 = 0) := by omega
  rw [if_neg hne] at h
  rw [if_pos (by omega : 0 < n0 - 1)] at h
  have hd : decide (0 < n0) = true := decide_eq_true hv0
  rw [hd, Bool.and_true] at h
  rcases hloop : attrsLoop (p.lexer.length + 1) { p with ok := p.ok }
      r0 (n0 - 1) b0 with ⟨p1, hasAttr⟩
  have hfr := @attrsLoop_frame (p.lexer.length + 1) { p with ok := p.ok }
      r0 (n0 - 1) b0
  rw [hloop] at hfr
  have hfe : p1.events = p.events := hfr.1
  have hfo : p1.openers = p.openers := hfr.2.1
  have hlex : p1.lexer.length < p.lexer.length := by
    have h1 := @attrsLoop_lexer_pos (p.lexer.length + 1) { p with ok := p.ok }
        r0 (n0 - 1) b0 (by omega) (by omega)
    rw [hloop] at h1
    simp only [] at h1
    simp only [List.length_cons] at hcons
    omega
  rw [hloop] at h
  simp only [] at h
  cases hasAttr with
  | false =>
    simp at h
    obtain ⟨rfl, rfl⟩ := h
    exact ⟨hfo, hlex, Or.inl ⟨rfl, hfe⟩⟩
  | true =>
    simp at h
    obtain ⟨rfl, rfl⟩ := h
    refine ⟨by simpa using hfo, by simpa using hlex, Or.inr ?_⟩
    cases hrp : rpos? (fun e => !decide (e.kind = EventKind.Str))
        p1.events with
    | some j =>
      simp only [hrp]
      refine ⟨j + 1, p1.span,
        Span.mk' (evAt p1.events (j + 1)).span.start
          (evAt p1.events (p1.events.length - 1)).span.stop,
        ?_, ?_, ?_, ?_⟩
      · have h3 := rpos?_lt hrp
        rw [hfe] at h3
        omega
      · rw [hfe]
      · trivial
      · intro e he
        have h3 := rpos?_drop hrp
        rw [hfe] at h3
        have h4 := h3 e he
        simpa using h4
    | none =>
      simp only [hrp]
      refine ⟨0, p1.span,
        Span.mk' (evAt p1.events 0).span.start
          (evAt p1.events (p1.events.length - 1)).span.stop,
        by omega, ?_, ?_, ?_⟩
      · rw [hfe]
      · trivial
      · intro e he
        have h3 := rpos?_none hrp
        rw [hfe] at h3
        have h4 := h3 e (by simpa using he)
        simpa using h4

/-- The malformed-attribute state refuting the original C7: input ends
right after the `\x7b`, so `attr::valid` rejects (returns 0) and the
`usize` decrement underflows. -/
def c7bad : Parser := ⟨[], ⟨1, 2⟩, [], [⟨.Str, ⟨0, 1⟩⟩], true⟩

/-- C7, counterexample to the original claim: on a rejected block the
attribute path still returns an event (release semantics of the wrapped
`attr_len`), the blocks' source is not consumed (the lexer does not
shrink), and the ghost assertion flag records the debug-build panic of
`attr_len -= 1`. -/
theorem claim_C7_counterexample :
    (parseAttributes c7bad ⟨.Open .Brace, 1⟩).map
        (fun x => (x.1.kind, x.2.lexer.length, x.2.ok)) =
      some (.Placeholder, 0, false) ∧
    ¬((0 : Nat) < c7bad.lexer.length) ∧
    (attrValid ('{' :: c7bad.lexer)).1 = 0 := by decide


/-- The attribute-path state used to witness C7: lexer `.x}y` (right
after the `{`), and a single buffered word `Str`. -/
def c7p : Parser :=
  ⟨['.', 'x', Char.ofNat 125, 'y'], ⟨1, 2⟩, [], [⟨.Str, ⟨0, 1⟩⟩], true⟩

/-- C7, witness: parsing `{.x}` after the word drains the word `Str` and
emits the `Attributes`/`Enter(Span)`/`Str`/`Exit(Span)` quartet. -/
theorem claim_C7_witness :
    ((⟨.Open .Brace, 1⟩ : Token).kind = .Open .Brace ∧
      lastIsStr c7p.events = true) ∧
    (⟨['y'], ⟨1, 5⟩, [],
      [⟨.Attributes, ⟨1, 5⟩⟩, ⟨.Enter .Span, ⟨0, 0⟩⟩, ⟨.Str, ⟨0, 1⟩⟩],
      true⟩ : Parser).openers = c7p.openers ∧
    (⟨['y'], ⟨1, 5⟩, [],
      [⟨.Attributes, ⟨1, 5⟩⟩, ⟨.Enter .Span, ⟨0, 0⟩⟩, ⟨.Str, ⟨0, 1⟩⟩],
      true⟩ : Parser).lexer.length < c7p.lexer.length ∧
    (((⟨.Exit .Span, ⟨1, 1⟩⟩ : Event).kind = .Placeholder ∧
      (⟨['y'], ⟨1, 5⟩, [],
        [⟨.Attributes, ⟨1, 5⟩⟩, ⟨.Enter .Span, ⟨0, 0⟩⟩, ⟨.Str, ⟨0, 1⟩⟩],
        true⟩ : Parser).events = c7p.events) ∨
     (∃ i sa s, i ≤ c7p.events.length ∧
       (⟨['y'], ⟨1, 5⟩, [],
        [⟨.Attributes, ⟨1, 5⟩⟩, ⟨.Enter .Span, ⟨0, 0⟩⟩, ⟨.Str, ⟨0, 1⟩⟩],
        true⟩ : Parser).events = c7p.events.take i ++
         [⟨.Attributes, sa⟩, ⟨.Enter .Span, Span.emptyAt s.start⟩,
          ⟨.Str, s⟩] ∧
       (⟨.Exit .Span, ⟨1, 1⟩⟩ : Event) =
         ⟨.Exit .Span, Span.emptyAt s.stop⟩ ∧
       ∀ e ∈ c7p.events.drop i, e.kind = .Str)) :=
  claim_C7 (p := c7p) (by decide) (by decide)

end Jotdown

namespace Jotdown

/-! ## Reparsing plain text (C9) -/

theorem alpha_range {c : Char} (h : c.isAlpha = true) :
    (65 ≤ c.toNat ∧ c.toNat ≤ 90) ∨ (97 ≤ c.toNat ∧ c.toNat ≤ 122) := by
  simp [Char.isAlpha, Char.isUpper, Char.isLower] at h
  rcases h with ⟨h1, h2⟩ | ⟨h1, h2⟩
  · exact Or.inl ⟨h1, h2⟩
  · exact Or.inr ⟨h1, h2⟩

theorem alpha_utf8Size {c : Char} (h : c.isAlpha = true) : c.utf8Size = 1 := by
  have hr := alpha_range h
  have hlt : c.toNat < 128 := by omega
  have h3 : c.toNat = c.val.toNat := rfl
  simp [Char.utf8Size]
  intro hcon
  exfalso
  have h2 : (127 : UInt32).toNat < c.val.toNat := hcon
  have h4 : (127 : UInt32).toNat = 127 := rfl
  omega

/-- A letter lexes as a one-byte `Text` token. -/
theorem alpha_lexNext {c : Char} (h : c.isAlpha = true) (rest : List Char) :
    lexNext (c :: rest) = some (⟨.Text, 1⟩, rest) := by
  have hr := alpha_range h
  have q1 : ¬c = btChar := by intro hq; subst hq; revert hr; decide
  have q2 : ¬c = '$' := by intro hq; subst hq; revert hr; decide
  have q3 : ¬c = '.' := by intro hq; subst hq; revert hr; decide
  have q4 : ¬c = '-' := by intro hq; subst hq; revert hr; decide
  have q5 : ¬c = '\n' := by intro hq; subst hq; revert hr; decide
  have q6a : ¬c = ' ' := by intro hq; subst hq; revert hr; decide
  have q6b : ¬c = '\t' := by intro hq; subst hq; revert hr; decide
  have q7 : ¬c = nbspChar := by intro hq; subst hq; revert hr; decide
  have q8 : ¬c = '\\' := by intro hq; subst hq; revert hr; decide
  have q9 : ¬c = '{' := by intro hq; subst hq; revert hr; decide
  have q10 : ¬c = '}' := by intro hq; subst hq; revert hr; decide
  have q11 : ¬c = '[' := by intro hq; subst hq; revert hr; decide
  have q12 : ¬c = ']' := by intro hq; subst hq; revert hr; decide
  have q13 : ¬c = '!' := by intro hq; subst hq; revert hr; decide
  have qb1 : ¬c = '*' := by intro hq; subst hq; revert hr; decide
  have qb2 : ¬c = '_' := by intro hq; subst hq; revert hr; decide
  have qb3 : ¬c = '^' := by intro hq; subst hq; revert hr; decide
  have qb4 : ¬c = '~' := by intro hq; subst hq; revert hr; decide
  have qb5 : ¬c = '=' := by intro hq; subst hq; revert hr; decide
  have qb6 : ¬c = '+' := by intro hq; subst hq; revert hr; decide
  have qs1 : ¬c = '\'' := by intro hq; subst hq; revert hr; decide
  have qs2 : ¬c = '"' := by intro hq; subst hq; revert hr; decide
  have qs3 : ¬c = '<' := by intro hq; subst hq; revert hr; decide
  have hbt : braceTag? c = none := by
    simp [braceTag?, qb1, qb2, qb3, qb4, qb5, q4, qb6]
  have hsy : symTag? c = none := by
    simp [symTag?, qb1, qb2, qb3, qb4, qs1, qs2, qs3]
  have hq6 : ¬(c = ' ' ∨ c = '\t') := by
    rintro (rfl | rfl)
    · exact q6a rfl
    · exact q6b rfl
  simp [lexNext, q1, q2, q3, q4, q5, hq6, q7, q8, q9, q10, q11, q12, q13,
    hbt, hsy, alpha_utf8Size h]

/-- The buffered events of a plain-text run: one `Str` per byte. -/
def strRun (a b : Nat) : List Event :=
  (List.range' a b).map (fun i => ⟨.Str, ⟨i, i + 1⟩⟩)

theorem strRun_zero (a : Nat) : strRun a 0 = [] := rfl

theorem strRun_succ (a b : Nat) :
    strRun a (b + 1) = ⟨.Str, ⟨a, a + 1⟩⟩ :: strRun (a + 1) b := by
  unfold strRun
  rw [List.range'_succ]
  simp

theorem strRun_concat (a b : Nat) :
    strRun a (b + 1) = strRun a b ++ [⟨.Str, ⟨a + b, a + b + 1⟩⟩] := by
  unfold strRun
  rw [List.range'_concat]
  simp

/-- One plain-text parse step. -/
theorem parseEvent_alpha {c : Char} (hc : c.isAlpha = true)
    (rest : List Char) (sa k : Nat) :
    parseEvent ⟨c :: rest, ⟨sa, k⟩, [], strRun 0 k, true⟩ =
      (some ⟨.Str, ⟨k, k + 1⟩⟩,
       ⟨rest, ⟨k, k + 1⟩, [], strRun 0 k, true⟩) := by
  have heat : (⟨c :: rest, ⟨sa, k⟩, [], strRun 0 k, true⟩ : Parser).resetSpan.eat
      = some (⟨.Text, 1⟩, ⟨rest, ⟨k, k + 1⟩, [], strRun 0 k, true⟩) := by
    show Parser.eat ⟨c :: rest, ⟨k, k⟩, [], strRun 0 k, true⟩ = _
    unfold Parser.eat
    rw [show (⟨c :: rest, ⟨k, k⟩, [], strRun 0 k, true⟩ : Parser).lexer
      = c :: rest from rfl]
    rw [alpha_lexNext hc]
    rfl
  unfold parseEvent
  simp only [] at heat ⊢
  rw [heat]
  rfl

/-- The fill loop turns a nonempty plain-text input into one `Str` event
per character and drains the lexer. -/
theorem fillLoop_alpha :
    ∀ (cs : List Char) (f k sa : Nat),
      (∀ c ∈ cs, c.isAlpha = true) → cs.length + 1 ≤ f →
      fillLoop f ⟨cs, ⟨sa, k⟩, [], strRun 0 k, true⟩ =
        ⟨[], ⟨k + cs.length, k + cs.length⟩, [], strRun 0 (k + cs.length),
          true⟩ := by
  intro cs
  induction cs with
  | nil =>
    intro f k sa hall hf
    match f, hf with
    | f + 1, _ =>
      have hcond : fillCond ⟨[], ⟨sa, k⟩, [], strRun 0 k, true⟩ = true := by
        cases k with
        | zero => rfl
        | succ k2 =>
          unfold fillCond backTextual
          rw [show (⟨[], ⟨sa, k2 + 1⟩, [], strRun 0 (k2 + 1), true⟩
            : Parser).events = strRun 0 (k2 + 1) from rfl]
          rw [strRun_concat, List.getLast?_concat]
          simp
      have hpe : parseEvent ⟨[], ⟨sa, k⟩, [], strRun 0 k, true⟩ =
          (none, ⟨[], ⟨k, k⟩, [], strRun 0 k, true⟩) := by
        unfold parseEvent
        simp only []
        rw [show (⟨[], ⟨sa, k⟩, [], strRun 0 k, true⟩
          : Parser).resetSpan.eat = none from rfl]
        rfl
      simp only [fillLoop, hcond, hpe, if_true]
      simp
  | cons c rest ih =>
    intro f k sa hall hf
    match f, hf with
    | f + 1, hf2 =>
      have hcond : fillCond ⟨c :: rest, ⟨sa, k⟩, [], strRun 0 k, true⟩
          = true := by
        cases k with
        | zero => rfl
        | succ k2 =>
          unfold fillCond backTextual
          rw [show (⟨c :: rest, ⟨sa, k2 + 1⟩, [], strRun 0 (k2 + 1), true⟩
            : Parser).events = strRun 0 (k2 + 1) from rfl]
          rw [strRun_concat, List.getLast?_concat]
          simp
      have hpe := parseEvent_alpha (hall c (by simp)) rest sa k
      simp only [fillLoop, hcond, hpe, if_true]
      have hstep : ({ (⟨rest, ⟨k, k + 1⟩, [], strRun 0 k, true⟩ : Parser) with
          events := strRun 0 k ++ [(⟨.Str, ⟨k, k + 1⟩⟩ : Event)] } : Parser) =
          ⟨rest, ⟨k, k + 1⟩, [], strRun 0 (k + 1), true⟩ := by
        rw [strRun_concat]
        simp
      rw [hstep]
      have := ih f (k + 1) k (fun x hx => hall x (by simp [hx]))
        (by simp at hf2 ⊢; omega)
      rw [this]
      have hlen : k + 1 + rest.length = k + (rest.length + 1) := by omega
      rw [hlen]
      simp

end Jotdown

namespace Jotdown

/-- The merge loop absorbs an entire run of adjacent one-byte `Str`
events, asserting contiguity successfully. -/
theorem mergeLoop_strRun :
    ∀ (b a : Nat), mergeLoop (strRun a b) ⟨0, a⟩ true =
      (⟨0, a + b⟩, [], true) := by
  intro b
  induction b with
  | zero =>
    intro a
    rw [strRun_zero]
    rfl
  | succ b ih =>
    intro a
    rw [strRun_succ]
    show mergeLoop _ _ _ = _
    unfold mergeLoop
    rw [if_pos (by rfl)]
    have hu : (Span.mk 0 a).union ⟨a, a + 1⟩ = ⟨0, a + 1⟩ := by
      unfold Span.union
      simp
    have hd : (true && decide ((Span.mk 0 a).stop = (Span.mk a (a + 1)).start))
        = true := by simp
    rw [hu, hd] -- hmm shapes
    rw [ih (a + 1)]
    have : a + 1 + b = a + (b + 1) := by omega
    rw [this]

/-- A fully drained parser releases nothing more. -/
theorem nextEvent_drained {fuel : Nat} {q : Parser} (he : q.events = [])
    (hl : q.lexer = []) :
    nextEvent (fuel + 1) q = (none, q.resetSpan) := by
  have hpe : parseEvent q = (none, q.resetSpan) := by
    unfold parseEvent
    simp only []
    have : q.resetSpan.eat = none := by
      unfold Parser.eat
      have : q.resetSpan.lexer = ([] : List Char) := hl
      rw [this]
      rfl
    rw [this]
  have hcond : fillCond q = true := by
    unfold fillCond
    rw [he]
    rfl
  have hfl : fillLoop (fuel + 1) q = q.resetSpan := by
    simp only [fillLoop, hcond, hpe, if_true]
  unfold nextEvent
  simp only [hfl]
  have : q.resetSpan.events = ([] : List Event) := he
  rw [this]

theorem byteSlice_full : ∀ cs : List Char, byteSlice cs 0 (byteLen cs) = some cs := by
  intro cs
  induction cs with
  | nil => rfl
  | cons c rest ih =>
    have hpos : 0 < c.utf8Size := Char.utf8Size_pos c
    have hlen : byteLen (c :: rest) = c.utf8Size + byteLen rest := by
      unfold byteLen
      simp
    unfold byteSlice
    rw [if_pos rfl]
    rw [hlen]
    rw [if_neg (by omega)]
    rw [if_pos (by omega)]
    have : c.utf8Size + byteLen rest - c.utf8Size = byteLen rest := by omega
    rw [this, ih]
    rfl

theorem byteLen_alpha {cs : List Char} (h : ∀ c ∈ cs, c.isAlpha = true) :
    byteLen cs = cs.length := by
  induction cs with
  | nil => rfl
  | cons c rest ih =>
    unfold byteLen
    simp only [List.map_cons, List.sum_cons]
    have h1 := alpha_utf8Size (h c (by simp))
    have h2 : byteLen rest = rest.length := ih (fun x hx => h x (by simp [hx]))
    unfold byteLen at h2
    rw [h1, h2, List.length_cons]
    omega

set_option maxHeartbeats 1000000 in
/-- C9 (amended): over input consisting only of letters, a fresh parse
releases exactly one `Str` event spanning the whole input, and slicing by
that span recovers the content — so reparsing the slice of such a `Str`
is idempotent. The unrestricted original claim is refuted by
`claim_C9_counterexample`: a released `Str` slice may contain backtick
syntax and reparse as a verbatim. -/
theorem claim_C9 {cs : List Char} (h1 : cs ≠ [])
    (h2 : ∀ c ∈ cs, c.isAlpha = true) :
    releasedEvents cs = [⟨.Str, ⟨0, byteLen cs⟩⟩] ∧
    byteSlice cs 0 (byteLen cs) = some cs := by
  refine ⟨?_, byteSlice_full cs⟩
  have hble := byteLen_alpha h2
  rw [hble]
  unfold releasedEvents bigFuel
  have hinit : initP cs = ⟨cs, ⟨0, 0⟩, [], strRun 0 0, true⟩ := rfl
  rw [hinit]
  have hfill := fillLoop_alpha cs (4 * cs.length + 8) 0 0 h2 (by omega)
  simp only [Nat.zero_add] at hfill
  rcases hcs : cs with _ | ⟨c, rest⟩
  · exact absurd hcs h1
  · rw [← hcs]
    have hn : 0 < cs.length := by rw [hcs]; simp
    -- first next(): fill then merge the whole run
    have hsr : strRun 0 cs.length =
        ⟨.Str, ⟨0, 1⟩⟩ :: strRun 1 (cs.length - 1) := by
      rcases hlen : cs.length with _ | m
      · omega
      · rw [strRun_succ]
        simp
    have h48 : 4 * cs.length + 8 = (4 * cs.length + 7) + 1 := by omega
    have hne1 : nextEvent (4 * cs.length + 8) ⟨cs, ⟨0, 0⟩, [], strRun 0 0, true⟩
        = (some ⟨.Str, ⟨0, cs.length⟩⟩,
           ⟨[], ⟨cs.length, cs.length⟩, [], [], true⟩) := by
      rw [h48]
      unfold nextEvent
      simp only []
      rw [← h48, hfill]
      rw [show (⟨[], ⟨cs.length, cs.length⟩, [], strRun 0 cs.length, true⟩
        : Parser).events = strRun 0 cs.length from rfl]
      rw [hsr]
      simp only []
      rw [if_pos (Or.inl trivial)]
      have hm := mergeLoop_strRun (cs.length - 1) 1
      rw [show (1 : Nat) + (cs.length - 1) = cs.length from by omega] at hm
      rw [hm]
      rfl
    rw [h48]
    unfold runAll
    rw [← h48, hne1]
    simp only []
    have hne2 : nextEvent (4 * cs.length + 7)
        ⟨[], ⟨cs.length, cs.length⟩, [], [], true⟩ =
        (none, (⟨[], ⟨cs.length, cs.length⟩, [], [], true⟩ : Parser).resetSpan) := by
      rw [show (4 : Nat) * cs.length + 7 = (4 * cs.length + 6) + 1 from by omega]
      exact nextEvent_drained rfl rfl
    rw [show (4 : Nat) * cs.length + 7 = (4 * cs.length + 6) + 1 from by omega]
    unfold runAll
    rw [show ((4 : Nat) * cs.length + 6) + 1 = 4 * cs.length + 7 from by omega]
    rw [hne2]

end Jotdown

namespace Jotdown

/-- Input whose released `Str` slice itself contains backtick syntax. -/
def c9in : List Char := [btChar, btChar, ' ', btChar, 'a', btChar, ' ', btChar, btChar]

/-- Counterexample to the unrestricted C9: the inter-verbatim `Str` of
`c9in` slices to a backtick-delimited run, and a fresh parse of that
slice releases verbatim events, not a single `Str`. -/
theorem claim_C9_counterexample :
    ∃ e ∈ releasedEvents c9in, e.kind = .Str ∧
      byteSlice c9in e.span.start e.span.stop = some [btChar, 'a', btChar] ∧
      kindsOf (releasedEvents [btChar, 'a', btChar]) ≠ [.Str] := by
  decide

/-- Witness for `claim_C9` at the concrete all-letter input `ab`. -/
theorem claim_C9_witness :
    ((['a', 'b'] : List Char) ≠ []) ∧
    releasedEvents ['a', 'b'] = [⟨.Str, ⟨0, byteLen ['a', 'b']⟩⟩] ∧
    byteSlice ['a', 'b'] 0 (byteLen ['a', 'b']) = some ['a', 'b'] :=
  ⟨by decide, claim_C9 (by decide) (by decide)⟩

end Jotdown
